import Mathlib

/-!
Shallow embedding of the DMLegoArm motion-control engine
(`lego_arm_master.py`, `processes/_precision_workflow.py`).

Conventions of the embedding:
* Python floats are modelled as `ℚ` (the code performs no operation that
  leaves the rationals); `float("nan")` results are modelled as `Option ℚ`
  with `none` standing for an unreadable/NaN value.
* The motor driver is abstract: a `Driver σ` provides `run_for_degrees`
  (a state transformer taking degrees and speed) and a best-effort
  position read, mirroring the duck-typed Build-HAT motor interface.
* Asynchronous inputs (the external stop flag and the wall clock) are
  modelled as oracle streams in `Env`: the k-th inspection of
  `stop_event.is_set()` observes `stops k`, and the k-th call of
  `time.time()` observes `times k`.
* Exceptions are modelled as `Except`: mutations made before a `raise`
  persist in the returned state, as they do on the Python object.
* Every `run_for_degrees` call issued to a motor is recorded in a log
  `List Cmd` (joint, degrees, speed) so that theorems can speak about the
  commands actually sent to the hardware.
-/

namespace LegoArm

/-- The joints of `ArmController.motors`: gripper, wrist, elbow, rotation. -/
def jointNames : List String := ["A", "B", "C", "D"]

/-- Closed set of error outcomes raised by the controller (Python raises
`ValueError` / `RuntimeError("BUSY")` / `InterruptedError` / `TimeoutError`
with distinguishing messages). -/
inductive MoveErr where
  | invalidMode
  | invalidUnits
  | unknownJoint (j : String)
  | invalidExpr (e : List Char)
  | unknownPoint (j : String) (name : String)
  | busy
  | interrupted
  | timeout
  | missingPoints (j : String) (names : List String)
  | settleFailure (j : String)
  deriving DecidableEq, Repr

/-- Abstract per-joint motor driver (the Build-HAT `Motor` capability).
`run` is `run_for_degrees(degrees, speed, blocking=True)` acting on the
driver's hidden state, `readDeg` is the best-effort `get_degrees` /
`get_position` probe (`none` models an absent getter or a raised
exception), `stopM` is `stop()`. -/
structure Driver (σ : Type) where
  run : σ → ℚ → ℤ → σ
  readDeg : σ → Option ℚ
  stopM : σ → σ

/-- A motor command actually issued: joint, degrees, speed. -/
abbrev Cmd := String × ℚ × ℤ

/-- Oracle streams for the asynchronous environment. -/
structure Env where
  stops : ℕ → Bool
  times : ℕ → ℚ

/-- Mutable state of `ArmController` (the fields the engine reads/writes;
persistence of the calibration file is outside the model). -/
@[ext]
structure ArmState (σ : Type) where
  mst : String → σ
  currentAbs : String → ℚ
  backlash : String → ℚ
  rotationDeg : String → ℚ
  speedScale : String → ℚ
  lastDir : String → ℤ
  points : String → String → Option ℚ
  limits : String → Option (ℚ × ℚ)
  calibrated : Bool
  busyOwner : Option ℕ
  busyCount : ℤ

/-- Pointwise update of a string-keyed map. -/
def setF {α : Type} (f : String → α) (j : String) (v : α) : String → α :=
  fun k => if k = j then v else f k

@[simp] theorem setF_same {α : Type} (f : String → α) (j : String) (v : α) :
    setF f j v j = v := by simp [setF]

@[simp] theorem setF_other {α : Type} (f : String → α) (j k : String) (v : α)
    (h : k ≠ j) : setF f j v k = f k := by simp [setF, h]

/-- Mirrors `ArmController.clamp`: clamp `value` to the joint's soft limits,
pass through when the limits are `None`. -/
def clamp {σ : Type} (st : ArmState σ) (joint : String) (value : ℚ) : ℚ :=
  match st.limits joint with
  | none => value
  | some (lo, hi) => max lo (min hi value)

/-- Mirrors `ArmController._acquire_busy` for the execution context `tid`
(Python uses `threading.get_ident()`): fail if another context owns the
lock, otherwise take/keep ownership and bump the depth counter. -/
def acquireBusy {σ : Type} (tid : ℕ) (st : ArmState σ) : ArmState σ × Bool :=
  match st.busyOwner with
  | none => ({ st with busyOwner := some tid, busyCount := st.busyCount + 1 }, true)
  | some o =>
    if o = tid then ({ st with busyCount := st.busyCount + 1 }, true)
    else (st, false)

/-- Mirrors `ArmController._release_busy`: only the owner decrements the
depth counter; ownership is dropped when it reaches zero. -/
def releaseBusy {σ : Type} (tid : ℕ) (st : ArmState σ) : ArmState σ :=
  if st.busyOwner = some tid then
    if st.busyCount - 1 ≤ 0 then { st with busyOwner := none, busyCount := 0 }
    else { st with busyCount := st.busyCount - 1 }
  else st

/-- ASCII whitespace, as matched by CPython's `str.strip` and by `\s`
restricted to the ASCII inputs the controller receives. -/
def isWsChar (c : Char) : Bool :=
  c = ' ' || c = '\t' || c = '\n' || c = '\x0d' || c = '\x0b' || c = '\x0c'

/-- Characters admitted by the point-name group `[A-Za-z_ ]`. -/
def isBaseChar (c : Char) : Bool := c.isAlpha || c = '_' || c = ' '

/-- Strip leading and trailing whitespace (Python `str.strip`). -/
def stripChars (s : List Char) : List Char :=
  ((s.dropWhile isWsChar).reverse.dropWhile isWsChar).reverse

/-- The name normalization `name.strip().lower().replace(" ", "_")` shared
by `record_named_point` and `resolve_point`. -/
def normalizeChars (s : List Char) : List Char :=
  (stripChars s).map (fun c => if c = ' ' then '_' else c.toLower)

/-- String form of the normalization. -/
def normalizeName (s : String) : String := String.mk (normalizeChars s.data)

/-- Python `str.lower()` over the underlying characters (the controller
only receives ASCII mode/units strings). -/
def lowerStr (s : String) : String := String.mk (s.data.map Char.toLower)

/-- Mirrors Python `int` parsing of a run of ASCII digits. -/
def natOfDigits (l : List Char) : ℕ :=
  l.foldl (fun acc c => 10 * acc + (c.toNat - '0'.toNat)) 0

/-- Value of `float("d1.d2")` for digit runs `d1` and `d2`. -/
def ratOfDigits (d1 d2 : List Char) : ℚ :=
  (natOfDigits d1 : ℚ) + (natOfDigits d2 : ℚ) / (10 : ℚ) ^ d2.length

/-- Deterministic rendering of
`re.fullmatch(r"\s*([A-Za-z_ ]+?)(?:\s*([+-])\s*([0-9]+(?:\.[0-9]+)?))?\s*", value)`
followed by the normalization of group 1 and the signed-offset extraction of
groups 2/3 in `ArmController.resolve_point`.  Since `+`, `-`, digits and
non-space whitespace cannot occur in the base group, the regex decomposition
is forced: leading whitespace, then a maximal run of `[A-Za-z_ ]`, then an
optional `± number`, then trailing whitespace.  When the run is empty the
lazy base group can still consume a single space taken from the leading
whitespace (normalizing to the empty name), which is why the empty-run case
succeeds exactly when a literal space was skipped. -/
def parsePointExpr (s : List Char) : Option (String × ℚ) :=
  let lead := s.takeWhile isWsChar
  let s1 := s.dropWhile isWsChar
  let b := s1.takeWhile isBaseChar
  let r := s1.dropWhile isBaseChar
  if b.isEmpty && !(lead.contains ' ') then none
  else
    let key := String.mk (normalizeChars b)
    match r.dropWhile isWsChar with
    | [] => some (key, 0)
    | c :: rest =>
      if c = '+' || c = '-' then
        let sign : ℚ := if c = '-' then -1 else 1
        let r3 := rest.dropWhile isWsChar
        let d1 := r3.takeWhile (fun c => c.isDigit)
        let r4 := r3.dropWhile (fun c => c.isDigit)
        if d1.isEmpty then none
        else
          match r4 with
          | [] => some (key, sign * (natOfDigits d1 : ℚ))
          | '.' :: r5 =>
            let d2 := r5.takeWhile (fun c => c.isDigit)
            let r6 := r5.dropWhile (fun c => c.isDigit)
            if d2.isEmpty then none
            else if r6.all isWsChar then some (key, sign * ratOfDigits d1 d2)
            else none
          | _ :: _ => if r4.all isWsChar then some (key, sign * (natOfDigits d1 : ℚ)) else none
      else none

/-- Mirrors `ArmController.resolve_point`: parse the expression, normalize the
base name, look it up among the joint's named points and apply the offset. -/
def resolvePoint {σ : Type} (st : ArmState σ) (joint : String) (value : List Char) :
    Except MoveErr ℚ :=
  match parsePointExpr value with
  | none => .error (.invalidExpr value)
  | some (base, offset) =>
    match st.points joint base with
    | none => .error (.unknownPoint joint base)
    | some baseVal => .ok (baseVal + offset)

/-- Mirrors `ArmController.record_named_point`: store the joint's current
absolute position under the normalized name. -/
def recordNamedPoint {σ : Type} (st : ArmState σ) (joint : String) (name : String) :
    Except MoveErr (ArmState σ) :=
  if joint ∈ jointNames then
    let jp := fun n => if n = normalizeName name then some (st.currentAbs joint)
                       else st.points joint n
    .ok { st with points := setF st.points joint jp }
  else .error (.unknownJoint joint)

/-- Mirrors `ArmController.reset_calibration`: clear points, clear limits,
mark uncalibrated. -/
def resetCalibration {σ : Type} (st : ArmState σ) : ArmState σ :=
  { st with points := fun _ _ => none, limits := fun _ => none, calibrated := false }

/-- A per-joint commanded value of a move request: a number or a named-point
expression string. -/
inductive JointVal where
  | num (v : ℚ)
  | expr (e : List Char)
  deriving DecidableEq, Repr

/-- The per-joint target-resolution loop of `ArmController.move` (the first
loop of the locked section): validate the joint, resolve point expressions or
convert numbers (rotations scale by `rotation_deg`, relative mode adds the
current position), then clamp to the soft limits.  Returns the `targets`
dictionary in request order. -/
def resolveTargets {σ : Type} (st : ArmState σ) (mode units : String) :
    List (String × JointVal) → Except MoveErr (List (String × ℚ))
  | [] => .ok []
  | (j, raw) :: rest =>
    if j ∈ jointNames then
      let current := st.currentAbs j
      let tgtE : Except MoveErr ℚ :=
        match raw with
        | .expr e => resolvePoint st j e
        | .num v =>
          if units = "rotations" then
            let valueDeg := v * st.rotationDeg j
            .ok (if mode = "relative" then current + valueDeg else valueDeg)
          else
            .ok (if mode = "relative" then current + v else v)
      match tgtE with
      | .error e => .error e
      | .ok t =>
        match resolveTargets st mode units rest with
        | .error e => .error e
        | .ok ts => .ok ((j, clamp st j t) :: ts)
    else .error (.unknownJoint j)

/-- Magnitude removed by one iteration of the chunk loop. -/
theorem abs_sub_chunk (r : ℚ) (h : 12000 < |r|) :
    |r - (if 0 < r then (12000 : ℚ) else -12000)| = |r| - 12000 := by
  split
  next hp =>
    rw [abs_of_pos hp] at h
    rw [abs_of_pos hp, abs_of_pos (by linarith)]
  next hp =>
    have hr0 : r ≠ 0 := by intro h0; rw [h0] at h; norm_num at h
    have hrneg : r < 0 := lt_of_le_of_ne (not_lt.mp hp) hr0
    rw [abs_of_neg hrneg] at h
    rw [abs_of_neg hrneg, abs_of_neg (by linarith)]
    ring

theorem ceil_toNat_sub_chunk (r : ℚ) (h : 12000 < |r|) :
    (⌈|r - (if 0 < r then (12000 : ℚ) else -12000)|⌉).toNat = (⌈|r|⌉).toNat - 12000 ∧
    12000 < (⌈|r|⌉).toNat := by
  have h2 : ⌈|r - (if 0 < r then (12000 : ℚ) else -12000)|⌉ = ⌈|r|⌉ - 12000 := by
    rw [abs_sub_chunk r h, show ((12000 : ℚ)) = ((12000 : ℤ) : ℚ) by norm_num,
        Int.ceil_sub_int]
  have h3 : (12000 : ℤ) < ⌈|r|⌉ := by rw [Int.lt_ceil]; exact_mod_cast h
  omega

/-- The chunk-splitting loop of `ArmController.move` (`while abs(remaining)
> max_chunk` with `max_chunk = 12000.0`, remainder last), encoded with an
explicit iteration bound so that it is structurally recursive and reduces in
the kernel: each iteration removes 12000 from the remaining magnitude, so
`(⌈|r|⌉).toNat` iterations always suffice.  `chunkList_eq` proves the
encoding satisfies the original loop recurrence, so the bound is never
reached. -/
def chunkListAux : ℕ → ℚ → List ℚ
  | 0, r => [r]
  | fuel + 1, r =>
    if 12000 < |r| then
      (if 0 < r then (12000 : ℚ) else -12000) ::
        chunkListAux fuel (r - (if 0 < r then (12000 : ℚ) else -12000))
    else [r]

/-- Chunks of an open-loop command. -/
def chunkList (r : ℚ) : List ℚ := chunkListAux (⌈|r|⌉).toNat r

/-- Fuel irrelevance: any sufficient bound yields the same chunk list. -/
theorem chunkListAux_congr : ∀ (f1 f2 : ℕ) (r : ℚ), (⌈|r|⌉).toNat ≤ f1 →
    (⌈|r|⌉).toNat ≤ f2 → chunkListAux f1 r = chunkListAux f2 r := by
  intro f1
  induction f1 with
  | zero =>
    intro f2 r hb1 _
    have hle : |r| ≤ 0 := by
      have : ⌈|r|⌉ ≤ 0 := by omega
      exact_mod_cast Int.ceil_le.mp (by exact_mod_cast this)
    have hnc : ¬(12000 < |r|) := by linarith
    cases f2 with
    | zero => rfl
    | succ b => simp [chunkListAux, hnc]
  | succ a ih =>
    intro f2 r hb1 hb2
    by_cases hc : 12000 < |r|
    · rcases ceil_toNat_sub_chunk r hc with ⟨hsub, hbig⟩
      cases f2 with
      | zero => omega
      | succ b =>
        simp only [chunkListAux, if_pos hc]
        have := ih b (r - (if 0 < r then (12000 : ℚ) else -12000))
          (by omega) (by omega)
        rw [this]
    · cases f2 with
      | zero => simp [chunkListAux, hc]
      | succ b => simp only [chunkListAux, if_neg hc]

/-- The fuel encoding satisfies the original while-loop recurrence. -/
theorem chunkList_eq (r : ℚ) : chunkList r =
    if 12000 < |r| then
      (if 0 < r then (12000 : ℚ) else -12000) ::
        chunkList (r - (if 0 < r then (12000 : ℚ) else -12000))
    else [r] := by
  by_cases hc : 12000 < |r|
  · rcases ceil_toNat_sub_chunk r hc with ⟨hsub, hbig⟩
    rw [if_pos hc]
    unfold chunkList
    obtain ⟨n, hn⟩ : ∃ n, (⌈|r|⌉).toNat = n + 1 := ⟨(⌈|r|⌉).toNat - 1, by omega⟩
    rw [hn]
    simp only [chunkListAux, if_pos hc]
    have := chunkListAux_congr n ((⌈|r - (if 0 < r then (12000 : ℚ) else -12000)|⌉).toNat)
      (r - (if 0 < r then (12000 : ℚ) else -12000)) (by omega) le_rfl
    rw [this]
  · rw [if_neg hc]
    unfold chunkList
    cases hn : (⌈|r|⌉).toNat with
    | zero => rfl
    | succ n => rw [chunkListAux, if_neg hc]

theorem chunkListAux_sum : ∀ (fuel : ℕ) (r : ℚ), (⌈|r|⌉).toNat ≤ fuel →
    (chunkListAux fuel r).sum = r := by
  intro fuel
  induction fuel with
  | zero => intro r _; simp [chunkListAux]
  | succ a ih =>
    intro r hb
    by_cases hc : 12000 < |r|
    · rcases ceil_toNat_sub_chunk r hc with ⟨hsub, hbig⟩
      simp only [chunkListAux, if_pos hc, List.sum_cons]
      rw [ih (r - (if 0 < r then (12000 : ℚ) else -12000)) (by omega)]
      ring
    · simp [chunkListAux, hc]

/-- Sum of the chunks is the commanded delta. -/
theorem chunkList_sum (r : ℚ) : (chunkList r).sum = r :=
  chunkListAux_sum _ r le_rfl

/-- Threaded state of the open-loop command loop: motor states, last
directions, the command log, and the oracle-stream cursors (`ks` for stop
checks, `kt` for clock reads). -/
@[ext]
structure RunSt (σ : Type) where
  mst : String → σ
  lastDir : String → ℤ
  log : List Cmd
  ks : ℕ
  kt : ℕ

/-- Per-chunk inner loop of `ArmController.move`: before each chunk check
the stop flag (raise `Interrupted`), then, when a deadline is set, the clock
(stop the motor, record the direction and raise `Timeout`); otherwise issue
the chunk to the driver. -/
def runChunks {σ : Type} (M : Driver σ) (env : Env) (deadline : Option ℚ)
    (j : String) (speed : ℤ) (dir : ℤ) :
    List ℚ → RunSt σ → RunSt σ × Option MoveErr
  | [], rs => (rs, none)
  | c :: cs, rs =>
    if env.stops rs.ks then ({ rs with ks := rs.ks + 1 }, some .interrupted)
    else
      let rs1 := { rs with ks := rs.ks + 1 }
      let timedOut := match deadline with
        | some d => decide (d < env.times rs1.kt)
        | none => false
      if timedOut then
        ({ rs1 with kt := rs1.kt + 1,
                    mst := setF rs1.mst j (M.stopM (rs1.mst j)),
                    lastDir := setF rs1.lastDir j dir }, some .timeout)
      else
        let rs2 := { rs1 with
          kt := if deadline = none then rs1.kt else rs1.kt + 1,
          mst := setF rs1.mst j (M.run (rs1.mst j) c speed),
          log := rs1.log ++ [(j, c, speed)] }
        runChunks M env deadline j speed dir cs rs2

/-- Per-joint open-loop phase of `ArmController.move` over the resolved
`targets`, in request order: skip negligible deltas, apply backlash
compensation on direction reversal, chunk and issue the command, then record
the movement direction.  An error from the chunk loop (the Python `raise`)
aborts the remaining joints. -/
def openLoop {σ : Type} (M : Driver σ) (env : Env) (deadline : Option ℚ)
    (speed : ℤ) (startPos : String → ℚ) (backlash : String → ℚ) :
    List (String × ℚ) → RunSt σ → RunSt σ × Option MoveErr
  | [], rs => (rs, none)
  | (j, target) :: rest, rs =>
    let delta := target - startPos j
    if |delta| < 1 / 1000000 then
      openLoop M env deadline speed startPos backlash rest rs
    else
      let dir : ℤ := if 0 < delta then 1 else -1
      let runDelta := if dir ≠ 0 ∧ dir ≠ rs.lastDir j
        then delta + backlash j * (dir : ℚ) else delta
      let out := runChunks M env deadline j speed dir (chunkList runDelta) rs
      if out.2.isSome then out
      else
        openLoop M env deadline speed startPos backlash rest
          { out.1 with lastDir := setF out.1.lastDir j dir }

/-- Corrective speed of the finalize nudge:
`max(20, min(60, max(1, speed // 2)))` (Python floor division). -/
def corrSpeed (speed : ℤ) : ℤ := max 20 (min 60 (max 1 (Int.fdiv speed 2)))

/-- Outcome of the finalize step for a single joint. -/
structure FinJ (σ : Type) where
  s : σ
  actual : ℚ
  error : ℚ
  correction : ℚ
  cmds : List Cmd

/-- Finalize step for a single joint: read the actual position (falling
back to the computed target when unreadable), and when `finalize` is set and
the error exceeds the deadband issue one corrective command of `error`
degrees at `corrSpeed`, re-read (keeping the previous estimate when the
re-read fails) and recompute the error. -/
def finalizeJoint {σ : Type} (M : Driver σ) (fin : Bool) (deadband : ℚ)
    (speed : ℤ) (j : String) (target : ℚ) (s : σ) : FinJ σ :=
  let actual0 := (M.readDeg s).getD target
  let error0 := target - actual0
  if fin ∧ |error0| > deadband then
    let cspd := corrSpeed speed
    let s1 := M.run s error0 cspd
    let actual1 := (M.readDeg s1).getD actual0
    ⟨s1, actual1, target - actual1, error0, [(j, error0, cspd)]⟩
  else ⟨s, actual0, error0, 0, []⟩

/-- Threaded state of the finalize loop, accumulating the per-joint result
dictionaries in request order. -/
@[ext]
structure FinSt (σ : Type) where
  mst : String → σ
  currentAbs : String → ℚ
  finalPositions : List (String × ℚ)
  finalErrors : List (String × ℚ)
  corrections : List (String × ℚ)
  log : List Cmd

/-- The finalize/read-back loop of `ArmController.move` over the resolved
targets in request order; finally the position estimate is stored in
`current_abs`. -/
def finalizeLoop {σ : Type} (M : Driver σ) (fin : Bool) (deadband : ℚ)
    (speed : ℤ) : List (String × ℚ) → FinSt σ → FinSt σ
  | [], fs => fs
  | (j, target) :: rest, fs =>
    let r := finalizeJoint M fin deadband speed j target (fs.mst j)
    finalizeLoop M fin deadband speed rest
      { mst := setF fs.mst j r.s
        currentAbs := setF fs.currentAbs j r.actual
        finalPositions := fs.finalPositions ++ [(j, r.actual)]
        finalErrors := fs.finalErrors ++ [(j, r.error)]
        corrections := fs.corrections ++ [(j, r.correction)]
        log := fs.log ++ r.cmds }

/-- The `MoveSummary` dictionary returned by a successful
`ArmController.move` (wall-clock `elapsed_s` is taken from the clock
oracle). -/
structure Summary where
  newAbs : String → ℚ
  units : String
  commanded : List (String × JointVal)
  convertedDegrees : List (String × ℚ)
  speed : ℤ
  timeoutS : Option ℚ
  elapsedS : ℚ
  finalErrorDeg : List (String × ℚ)
  finalized : Bool
  finalizeDeadbandDeg : ℚ
  finalizeCorrections : List (String × ℚ)
  timeout : Bool

/-- Result of a `move` call: the controller state after the call (Python
mutations persist even when an exception propagates), the motor commands
issued, and either the summary or the raised error. -/
structure MoveOut (σ : Type) where
  st : ArmState σ
  log : List Cmd
  res : Except MoveErr Summary

/-- Shallow embedding of `ArmController.move(mode, joints, speed, units,
timeout_s, finalize, finalize_deadband_deg)` for execution context `tid`.
Phases, in source order: lower-case and validate `mode` and `units`;
acquire the busy-lock (`Busy` on contention); check the stop flag
(`Interrupted`); resolve, convert and clamp all targets; derive the
deadline from `timeout_s`; run the chunked open-loop phase; run the
finalize/read-back loop; build the summary; release the busy-lock on every
exit path (`finally`). -/
def move {σ : Type} (M : Driver σ) (env : Env) (tid : ℕ) (mode : String)
    (joints : List (String × JointVal)) (speed : ℤ) (units : String)
    (timeoutS : Option ℚ) (fin : Bool) (deadband : ℚ)
    (st : ArmState σ) : MoveOut σ :=
  let modeL := lowerStr mode
  if ¬(modeL = "relative" ∨ modeL = "absolute") then ⟨st, [], .error .invalidMode⟩
  else
    let unitsL := lowerStr units
    if ¬(unitsL = "rotations" ∨ unitsL = "degrees") then ⟨st, [], .error .invalidUnits⟩
    else
      match acquireBusy tid st with
      | (_, false) => ⟨st, [], .error .busy⟩
      | (st1, true) =>
        let startTime := env.times 0
        if env.stops 0 then ⟨releaseBusy tid st1, [], .error .interrupted⟩
        else
          match resolveTargets st1 modeL unitsL joints with
          | .error e => ⟨releaseBusy tid st1, [], .error e⟩
          | .ok targets =>
            let deadline := timeoutS.map (fun t => startTime + t)
            let rs0 : RunSt σ := ⟨st1.mst, st1.lastDir, [], 1, 1⟩
            match openLoop M env deadline speed st1.currentAbs st1.backlash targets rs0 with
            | (rs, some e) =>
              ⟨releaseBusy tid { st1 with mst := rs.mst, lastDir := rs.lastDir },
               rs.log, .error e⟩
            | (rs, none) =>
              let fs0 : FinSt σ := ⟨rs.mst, st1.currentAbs, [], [], [], []⟩
              let fs := finalizeLoop M fin deadband speed targets fs0
              let st2 := { st1 with mst := fs.mst, currentAbs := fs.currentAbs,
                                    lastDir := rs.lastDir }
              let elapsed := env.times rs.kt - startTime
              let summary : Summary :=
                { newAbs := fs.currentAbs
                  units := unitsL
                  commanded := joints
                  convertedDegrees := targets.map (fun p => (p.1, p.2 - st1.currentAbs p.1))
                  speed := speed
                  timeoutS := timeoutS
                  elapsedS := elapsed
                  finalErrorDeg := fs.finalErrors
                  finalized := fin
                  finalizeDeadbandDeg := deadband
                  finalizeCorrections := fs.corrections
                  timeout := false }
              ⟨releaseBusy tid st2, rs.log ++ fs.log, .ok summary⟩

/-! Step lemmas used to evaluate the phases of `move` without unfolding the
full definitions. -/

theorem clamp_none {σ : Type} (st : ArmState σ) (j : String) (v : ℚ)
    (h : st.limits j = none) : clamp st j v = v := by
  simp [clamp, h]

theorem clamp_some {σ : Type} (st : ArmState σ) (j : String) (v lo hi : ℚ)
    (h : st.limits j = some (lo, hi)) : clamp st j v = max lo (min hi v) := by
  simp [clamp, h]

theorem resolveTargets_nil {σ : Type} (st : ArmState σ) (mode units : String) :
    resolveTargets st mode units [] = .ok [] := rfl

theorem resolveTargets_cons_num {σ : Type} (st : ArmState σ) (mode units j : String)
    (v : ℚ) (rest : List (String × JointVal)) (hj : j ∈ jointNames) :
    resolveTargets st mode units ((j, JointVal.num v) :: rest) =
      match resolveTargets st mode units rest with
      | .error e => .error e
      | .ok ts => .ok ((j, clamp st j
          (if units = "rotations" then
             (if mode = "relative" then st.currentAbs j + v * st.rotationDeg j
              else v * st.rotationDeg j)
           else (if mode = "relative" then st.currentAbs j + v else v))) :: ts) := by
  by_cases hu : units = "rotations" <;>
    by_cases hm : mode = "relative" <;>
      simp [resolveTargets, hj, hu, hm]

theorem resolveTargets_cons_expr {σ : Type} (st : ArmState σ) (mode units j : String)
    (e : List Char) (t : ℚ) (rest : List (String × JointVal)) (hj : j ∈ jointNames)
    (hpt : resolvePoint st j e = .ok t) :
    resolveTargets st mode units ((j, JointVal.expr e) :: rest) =
      match resolveTargets st mode units rest with
      | .error er => .error er
      | .ok ts => .ok ((j, clamp st j t) :: ts) := by
  simp [resolveTargets, hj, hpt]

theorem resolveTargets_cons_expr_err {σ : Type} (st : ArmState σ) (mode units j : String)
    (e : List Char) (er : MoveErr) (rest : List (String × JointVal)) (hj : j ∈ jointNames)
    (hpt : resolvePoint st j e = .error er) :
    resolveTargets st mode units ((j, JointVal.expr e) :: rest) = .error er := by
  simp [resolveTargets, hj, hpt]

theorem resolveTargets_cons_unknown {σ : Type} (st : ArmState σ) (mode units j : String)
    (v : JointVal) (rest : List (String × JointVal)) (hj : ¬ j ∈ jointNames) :
    resolveTargets st mode units ((j, v) :: rest) = .error (.unknownJoint j) := by
  simp [resolveTargets, hj]

theorem openLoop_nil {σ : Type} (M : Driver σ) (env : Env) (dl : Option ℚ) (speed : ℤ)
    (sp bl : String → ℚ) (rs : RunSt σ) :
    openLoop M env dl speed sp bl [] rs = (rs, none) := rfl

/-- Chunk lists are never empty (the remainder is always appended). -/
theorem chunkList_ne_nil (r : ℚ) : chunkList r ≠ [] := by
  rw [chunkList_eq]
  by_cases hc : 12000 < |r|
  · rw [if_pos hc]; exact List.cons_ne_nil _ _
  · rw [if_neg hc]; exact List.cons_ne_nil _ _

/-- A joint whose delta is below the dead zone is skipped entirely. -/
theorem openLoop_cons_skip {σ : Type} (M : Driver σ) (env : Env) (dl : Option ℚ)
    (speed : ℤ) (sp bl : String → ℚ) (j : String) (target : ℚ)
    (rest : List (String × ℚ)) (rs : RunSt σ)
    (h : |target - sp j| < 1 / 1000000) :
    openLoop M env dl speed sp bl ((j, target) :: rest) rs =
      openLoop M env dl speed sp bl rest rs := by
  simp only [openLoop]
  rw [if_pos h]

/-- Open-loop step without a deadline, stop flag clear, command fitting in
one chunk. -/
theorem openLoop_cons_quiet {σ : Type} (M : Driver σ) (env : Env) (speed : ℤ)
    (sp bl : String → ℚ) (j : String) (target : ℚ) (rest : List (String × ℚ))
    (rs : RunSt σ) (dir : ℤ) (rd : ℚ)
    (h : ¬ |target - sp j| < 1 / 1000000)
    (hdir : dir = if 0 < target - sp j then 1 else -1)
    (hrd : rd = if dir ≠ 0 ∧ dir ≠ rs.lastDir j then target - sp j + bl j * (dir : ℚ)
                else target - sp j)
    (hck : chunkList rd = [rd])
    (hstop : env.stops rs.ks = false) :
    openLoop M env none speed sp bl ((j, target) :: rest) rs =
      openLoop M env none speed sp bl rest
        { mst := setF rs.mst j (M.run (rs.mst j) rd speed)
          lastDir := setF rs.lastDir j dir
          log := rs.log ++ [(j, rd, speed)]
          ks := rs.ks + 1
          kt := rs.kt } := by
  subst hdir
  subst hrd
  simp only [openLoop]
  rw [if_neg h, hck]
  simp only [runChunks, hstop, Bool.false_eq_true, if_false]
  simp

/-- Open-loop step under a deadline that has not yet passed. -/
theorem openLoop_cons_intime {σ : Type} (M : Driver σ) (env : Env) (d : ℚ) (speed : ℤ)
    (sp bl : String → ℚ) (j : String) (target : ℚ) (rest : List (String × ℚ))
    (rs : RunSt σ) (dir : ℤ) (rd : ℚ)
    (h : ¬ |target - sp j| < 1 / 1000000)
    (hdir : dir = if 0 < target - sp j then 1 else -1)
    (hrd : rd = if dir ≠ 0 ∧ dir ≠ rs.lastDir j then target - sp j + bl j * (dir : ℚ)
                else target - sp j)
    (hck : chunkList rd = [rd])
    (hstop : env.stops rs.ks = false)
    (htime : ¬ d < env.times rs.kt) :
    openLoop M env (some d) speed sp bl ((j, target) :: rest) rs =
      openLoop M env (some d) speed sp bl rest
        { mst := setF rs.mst j (M.run (rs.mst j) rd speed)
          lastDir := setF rs.lastDir j dir
          log := rs.log ++ [(j, rd, speed)]
          ks := rs.ks + 1
          kt := rs.kt + 1 } := by
  subst hdir
  subst hrd
  simp only [openLoop]
  rw [if_neg h, hck]
  simp only [runChunks, hstop, Bool.false_eq_true, if_false, decide_eq_true_eq,
    if_neg htime]
  simp

/-- Open-loop step whose deadline check fires: the motor is stopped, the
direction recorded, and `Timeout` raised. -/
theorem openLoop_cons_timeout {σ : Type} (M : Driver σ) (env : Env) (d : ℚ) (speed : ℤ)
    (sp bl : String → ℚ) (j : String) (target : ℚ) (rest : List (String × ℚ))
    (rs : RunSt σ) (dir : ℤ) (rd : ℚ)
    (h : ¬ |target - sp j| < 1 / 1000000)
    (hdir : dir = if 0 < target - sp j then 1 else -1)
    (hrd : rd = if dir ≠ 0 ∧ dir ≠ rs.lastDir j then target - sp j + bl j * (dir : ℚ)
                else target - sp j)
    (hstop : env.stops rs.ks = false)
    (htime : d < env.times rs.kt) :
    openLoop M env (some d) speed sp bl ((j, target) :: rest) rs =
      ({ rs with ks := rs.ks + 1, kt := rs.kt + 1,
                 mst := setF rs.mst j (M.stopM (rs.mst j)),
                 lastDir := setF rs.lastDir j dir }, some .timeout) := by
  subst hdir
  simp only [openLoop]
  rw [if_neg h, ← hrd]
  obtain ⟨c, cs, hl⟩ := List.exists_cons_of_ne_nil (chunkList_ne_nil rd)
  rw [hl]
  simp only [runChunks, hstop, Bool.false_eq_true, if_false, decide_eq_true_eq,
    if_pos htime]
  simp

/-- Open-loop step that observes the stop flag: `Interrupted` is raised
before anything is commanded. -/
theorem openLoop_cons_interrupt {σ : Type} (M : Driver σ) (env : Env) (dl : Option ℚ)
    (speed : ℤ) (sp bl : String → ℚ) (j : String) (target : ℚ)
    (rest : List (String × ℚ)) (rs : RunSt σ) (dir : ℤ) (rd : ℚ)
    (h : ¬ |target - sp j| < 1 / 1000000)
    (hdir : dir = if 0 < target - sp j then 1 else -1)
    (hrd : rd = if dir ≠ 0 ∧ dir ≠ rs.lastDir j then target - sp j + bl j * (dir : ℚ)
                else target - sp j)
    (hstop : env.stops rs.ks = true) :
    openLoop M env dl speed sp bl ((j, target) :: rest) rs =
      ({ rs with ks := rs.ks + 1 }, some .interrupted) := by
  subst hdir
  simp only [openLoop]
  rw [if_neg h, ← hrd]
  obtain ⟨c, cs, hl⟩ := List.exists_cons_of_ne_nil (chunkList_ne_nil rd)
  rw [hl]
  simp only [runChunks, hstop, if_true]
  simp

theorem finalizeLoop_nil {σ : Type} (M : Driver σ) (fin : Bool) (db : ℚ) (speed : ℤ)
    (fs : FinSt σ) : finalizeLoop M fin db speed [] fs = fs := rfl

theorem finalizeLoop_cons {σ : Type} (M : Driver σ) (fin : Bool) (db : ℚ) (speed : ℤ)
    (j : String) (target : ℚ) (rest : List (String × ℚ)) (fs : FinSt σ)
    (r : FinJ σ)
    (hfj : finalizeJoint M fin db speed j target (fs.mst j) = r) :
    finalizeLoop M fin db speed ((j, target) :: rest) fs =
      finalizeLoop M fin db speed rest
        { mst := setF fs.mst j r.s
          currentAbs := setF fs.currentAbs j r.actual
          finalPositions := fs.finalPositions ++ [(j, r.actual)]
          finalErrors := fs.finalErrors ++ [(j, r.error)]
          corrections := fs.corrections ++ [(j, r.correction)]
          log := fs.log ++ r.cmds } := by
  simp only [finalizeLoop, hfj]

/-- Finalize step that stays inside the deadband (or `finalize` off): no
corrective command. -/
theorem finalizeJoint_within {σ : Type} (M : Driver σ) (fin : Bool) (db : ℚ)
    (speed : ℤ) (j : String) (target : ℚ) (s : σ) (a : ℚ)
    (ha : (M.readDeg s).getD target = a)
    (h : ¬(fin = true ∧ |target - a| > db)) :
    finalizeJoint M fin db speed j target s = ⟨s, a, target - a, 0, []⟩ := by
  simp only [finalizeJoint, ha]
  rw [if_neg (by simpa using h)]

/-- Finalize step that issues the single corrective command. -/
theorem finalizeJoint_corr {σ : Type} (M : Driver σ) (fin : Bool) (db : ℚ)
    (speed : ℤ) (j : String) (target : ℚ) (s : σ) (a : ℚ)
    (ha : (M.readDeg s).getD target = a)
    (h : fin = true ∧ |target - a| > db) :
    finalizeJoint M fin db speed j target s =
      ⟨M.run s (target - a) (corrSpeed speed),
       (M.readDeg (M.run s (target - a) (corrSpeed speed))).getD a,
       target - (M.readDeg (M.run s (target - a) (corrSpeed speed))).getD a,
       target - a,
       [(j, target - a, corrSpeed speed)]⟩ := by
  simp only [finalizeJoint, ha]
  rw [if_pos (by simpa using h)]

/-! Preservation lemmas for the busy-lock primitives: they touch only the
owner and depth fields. -/

theorem acquireBusy_preserves {σ : Type} (tid : ℕ) (st : ArmState σ) :
    ((acquireBusy tid st).1).mst = st.mst ∧
    ((acquireBusy tid st).1).currentAbs = st.currentAbs ∧
    ((acquireBusy tid st).1).lastDir = st.lastDir ∧
    ((acquireBusy tid st).1).points = st.points ∧
    ((acquireBusy tid st).1).limits = st.limits ∧
    ((acquireBusy tid st).1).backlash = st.backlash ∧
    ((acquireBusy tid st).1).rotationDeg = st.rotationDeg ∧
    ((acquireBusy tid st).1).calibrated = st.calibrated := by
  cases h : st.busyOwner <;> simp [acquireBusy, h] <;> split <;> simp

theorem releaseBusy_preserves {σ : Type} (tid : ℕ) (st : ArmState σ) :
    (releaseBusy tid st).mst = st.mst ∧
    (releaseBusy tid st).currentAbs = st.currentAbs ∧
    (releaseBusy tid st).lastDir = st.lastDir ∧
    (releaseBusy tid st).points = st.points ∧
    (releaseBusy tid st).limits = st.limits ∧
    (releaseBusy tid st).backlash = st.backlash ∧
    (releaseBusy tid st).rotationDeg = st.rotationDeg ∧
    (releaseBusy tid st).calibrated = st.calibrated := by
  unfold releaseBusy
  by_cases h : st.busyOwner = some tid
  · rw [if_pos h]; split <;> simp
  · rw [if_neg h]; simp

/-- On every error path of `move` the position estimates, named points,
limits and calibration flag are untouched: `current_abs` is written only in
the finalize loop, which runs only when every earlier phase succeeded. -/
theorem move_error_preserves {σ : Type} (M : Driver σ) (env : Env) (tid : ℕ)
    (mode : String) (joints : List (String × JointVal)) (speed : ℤ)
    (units : String) (timeoutS : Option ℚ) (fin : Bool) (deadband : ℚ)
    (st : ArmState σ) (e : MoveErr)
    (h : (move M env tid mode joints speed units timeoutS fin deadband st).res = .error e) :
    (move M env tid mode joints speed units timeoutS fin deadband st).st.currentAbs
        = st.currentAbs ∧
    (move M env tid mode joints speed units timeoutS fin deadband st).st.points
        = st.points ∧
    (move M env tid mode joints speed units timeoutS fin deadband st).st.limits
        = st.limits ∧
    (move M env tid mode joints speed units timeoutS fin deadband st).st.calibrated
        = st.calibrated := by
  simp only [move] at h ⊢
  by_cases h1 : ¬(lowerStr mode = "relative" ∨ lowerStr mode = "absolute")
  · simp only [if_pos h1]
    simp
  · simp only [if_neg h1] at h ⊢
    by_cases h2 : ¬(lowerStr units = "rotations" ∨ lowerStr units = "degrees")
    · simp only [if_pos h2]
      simp
    · simp only [if_neg h2] at h ⊢
      rcases hacq : acquireBusy tid st with ⟨st1, b⟩
      have hpres := acquireBusy_preserves tid st
      rw [hacq] at hpres
      simp only [hacq] at h ⊢
      cases b
      · simp
      · have hrel : ∀ s : ArmState σ, (releaseBusy tid s).currentAbs = s.currentAbs ∧
            (releaseBusy tid s).points = s.points ∧ (releaseBusy tid s).limits = s.limits ∧
            (releaseBusy tid s).calibrated = s.calibrated := by
          intro s
          exact ⟨(releaseBusy_preserves tid s).2.1, (releaseBusy_preserves tid s).2.2.2.1,
                 (releaseBusy_preserves tid s).2.2.2.2.1,
                 (releaseBusy_preserves tid s).2.2.2.2.2.2.2⟩
        by_cases hs : env.stops 0
        · simp only [hs, if_true] at h ⊢
          refine ⟨?_, ?_, ?_, ?_⟩
          · rw [(hrel st1).1, hpres.2.1]
          · rw [(hrel st1).2.1, hpres.2.2.2.1]
          · rw [(hrel st1).2.2.1, hpres.2.2.2.2.1]
          · rw [(hrel st1).2.2.2, hpres.2.2.2.2.2.2.2]
        · simp only [hs, Bool.false_eq_true, if_false] at h ⊢
          rcases hres : resolveTargets st1 (lowerStr mode) (lowerStr units) joints
            with er | targets
          · simp only [hres] at h ⊢
            refine ⟨?_, ?_, ?_, ?_⟩
            · rw [(hrel st1).1, hpres.2.1]
            · rw [(hrel st1).2.1, hpres.2.2.2.1]
            · rw [(hrel st1).2.2.1, hpres.2.2.2.2.1]
            · rw [(hrel st1).2.2.2, hpres.2.2.2.2.2.2.2]
          · simp only [hres] at h ⊢
            rcases hol : openLoop M env (Option.map (fun t => env.times 0 + t) timeoutS)
                speed st1.currentAbs st1.backlash targets
                ⟨st1.mst, st1.lastDir, [], 1, 1⟩ with ⟨rs, oe⟩
            cases oe with
            | some e2 =>
              simp only [hol] at h ⊢
              refine ⟨?_, ?_, ?_, ?_⟩
              · rw [(hrel _).1, hpres.2.1]
              · rw [(hrel _).2.1, hpres.2.2.2.1]
              · rw [(hrel _).2.2.1, hpres.2.2.2.2.1]
              · rw [(hrel _).2.2.2, hpres.2.2.2.2.2.2.2]
            | none =>
              simp only [hol] at h
              exact Except.noConfusion h

/-- Trivial driver over a unit motor state, for lock-contention scenarios. -/
def UnitDriver : Driver Unit :=
  { run := fun s _ _ => s, readDeg := fun _ => none, stopM := fun s => s }

/-- Quiet environment: the stop flag is never observed set and the clock
always reads zero. -/
def envZero : Env := { stops := fun _ => false, times := fun _ => 0 }

/-- A controller state with every numeric field zeroed, no points, no
limits, and the busy-lock free. -/
def stFree : ArmState Unit :=
  { mst := fun _ => ()
    currentAbs := fun _ => 0
    backlash := fun _ => 0
    rotationDeg := fun _ => 360
    speedScale := fun _ => 6
    lastDir := fun _ => 0
    points := fun _ _ => none
    limits := fun _ => none
    calibrated := false
    busyOwner := none
    busyCount := 0 }

/-- The free state, but with the busy-lock held by context 3 at depth 1. -/
def stHeld : ArmState Unit := { stFree with busyOwner := some 3, busyCount := 1 }

/-- Exact position-tracking driver: executes every command exactly and
reports its true position. -/
def TrackDriver : Driver ℚ :=
  { run := fun s d _ => s + d, readDeg := fun s => some s, stopM := fun s => s }

/-- Zeroed controller state over the tracking driver: all positions zero,
no backlash, no limits, no points, lock free. -/
def stTrack : ArmState ℚ :=
  { mst := fun _ => 0
    currentAbs := fun _ => 0
    backlash := fun _ => 0
    rotationDeg := fun _ => 360
    speedScale := fun _ => 6
    lastDir := fun _ => 0
    points := fun _ _ => none
    limits := fun _ => none
    calibrated := false
    busyOwner := none
    busyCount := 0 }

/-- The tracking state after a successful lock acquisition by context 0. -/
def stTrack1 : ArmState ℚ := { stTrack with busyOwner := some 0, busyCount := 1 }

/-- Clock oracle whose first two readings are 0 and later readings 100;
the stop flag is never set.  Under a 5-second deadline the first chunk is in
time and every later chunk check times out. -/
def envLateClock : Env :=
  { stops := fun _ => false, times := fun k => if k ≤ 1 then 0 else 100 }

/-- A two-joint relative move with a 5 s timeout under `envLateClock`:
joint A is fully commanded in time, then the deadline fires before joint
B's first chunk and `Timeout` propagates. -/
def moveTimeoutRun : MoveOut ℚ :=
  move TrackDriver envLateClock 0 "relative" [("A", .num 10), ("B", .num 20)] 60 "degrees"
    (some 5) true 2 stTrack

theorem lowerStr_relative : lowerStr "relative" = "relative" := by decide

theorem lowerStr_absolute : lowerStr "absolute" = "absolute" := by decide

theorem lowerStr_degrees : lowerStr "degrees" = "degrees" := by decide

theorem lowerStr_rotations : lowerStr "rotations" = "rotations" := by decide

/-- A command that fits in a single driver chunk. -/
theorem chunkList_of_abs_le (r : ℚ) (h : |r| ≤ 12000) : chunkList r = [r] := by
  rw [chunkList_eq, if_neg (not_lt.mpr h)]

/-- Evaluation rule for the success path of `move`: once the phase results
are known the whole call is determined. -/
theorem move_eval_ok {σ : Type} (M : Driver σ) (env : Env) (tid : ℕ)
    (joints : List (String × JointVal)) (speed : ℤ) (timeoutS : Option ℚ)
    (fin : Bool) (db : ℚ) (st st1 : ArmState σ) (mode units : String)
    (targets : List (String × ℚ)) (rs : RunSt σ)
    (hmode : lowerStr mode = "relative" ∨ lowerStr mode = "absolute")
    (hunits : lowerStr units = "rotations" ∨ lowerStr units = "degrees")
    (hacq : acquireBusy tid st = (st1, true))
    (hstop : env.stops 0 = false)
    (hres : resolveTargets st1 (lowerStr mode) (lowerStr units) joints = .ok targets)
    (hol : openLoop M env (timeoutS.map (fun t => env.times 0 + t)) speed
      st1.currentAbs st1.backlash targets ⟨st1.mst, st1.lastDir, [], 1, 1⟩ = (rs, none)) :
    move M env tid mode joints speed units timeoutS fin db st =
      ⟨releaseBusy tid
          { st1 with
            mst := (finalizeLoop M fin db speed targets ⟨rs.mst, st1.currentAbs, [], [], [], []⟩).mst
            currentAbs := (finalizeLoop M fin db speed targets
              ⟨rs.mst, st1.currentAbs, [], [], [], []⟩).currentAbs
            lastDir := rs.lastDir },
        rs.log ++ (finalizeLoop M fin db speed targets ⟨rs.mst, st1.currentAbs, [], [], [], []⟩).log,
        .ok { newAbs := (finalizeLoop M fin db speed targets
                ⟨rs.mst, st1.currentAbs, [], [], [], []⟩).currentAbs
              units := lowerStr units
              commanded := joints
              convertedDegrees := targets.map (fun p => (p.1, p.2 - st1.currentAbs p.1))
              speed := speed
              timeoutS := timeoutS
              elapsedS := env.times rs.kt - env.times 0
              finalErrorDeg := (finalizeLoop M fin db speed targets
                ⟨rs.mst, st1.currentAbs, [], [], [], []⟩).finalErrors
              finalized := fin
              finalizeDeadbandDeg := db
              finalizeCorrections := (finalizeLoop M fin db speed targets
                ⟨rs.mst, st1.currentAbs, [], [], [], []⟩).corrections
              timeout := false }⟩ := by
  simp only [move, if_neg (not_not_intro hmode), if_neg (not_not_intro hunits), hacq,
    hstop, Bool.false_eq_true, if_false, hres, hol]

/-- Evaluation rule for a `move` whose open-loop phase raises. -/
theorem move_eval_openErr {σ : Type} (M : Driver σ) (env : Env) (tid : ℕ)
    (joints : List (String × JointVal)) (speed : ℤ) (timeoutS : Option ℚ)
    (fin : Bool) (db : ℚ) (st st1 : ArmState σ) (mode units : String)
    (targets : List (String × ℚ)) (rs : RunSt σ) (e : MoveErr)
    (hmode : lowerStr mode = "relative" ∨ lowerStr mode = "absolute")
    (hunits : lowerStr units = "rotations" ∨ lowerStr units = "degrees")
    (hacq : acquireBusy tid st = (st1, true))
    (hstop : env.stops 0 = false)
    (hres : resolveTargets st1 (lowerStr mode) (lowerStr units) joints = .ok targets)
    (hol : openLoop M env (timeoutS.map (fun t => env.times 0 + t)) speed
      st1.currentAbs st1.backlash targets ⟨st1.mst, st1.lastDir, [], 1, 1⟩ = (rs, some e)) :
    move M env tid mode joints speed units timeoutS fin db st =
      ⟨releaseBusy tid { st1 with mst := rs.mst, lastDir := rs.lastDir }, rs.log, .error e⟩ := by
  simp only [move, if_neg (not_not_intro hmode), if_neg (not_not_intro hunits), hacq,
    hstop, Bool.false_eq_true, if_false, hres, hol]

/-- Evaluation rule for a `move` rejected during target resolution. -/
theorem move_eval_resErr {σ : Type} (M : Driver σ) (env : Env) (tid : ℕ)
    (joints : List (String × JointVal)) (speed : ℤ) (timeoutS : Option ℚ)
    (fin : Bool) (db : ℚ) (st st1 : ArmState σ) (mode units : String) (e : MoveErr)
    (hmode : lowerStr mode = "relative" ∨ lowerStr mode = "absolute")
    (hunits : lowerStr units = "rotations" ∨ lowerStr units = "degrees")
    (hacq : acquireBusy tid st = (st1, true))
    (hstop : env.stops 0 = false)
    (hres : resolveTargets st1 (lowerStr mode) (lowerStr units) joints = .error e) :
    move M env tid mode joints speed units timeoutS fin db st =
      ⟨releaseBusy tid st1, [], .error e⟩ := by
  simp only [move, if_neg (not_not_intro hmode), if_neg (not_not_intro hunits), hacq,
    hstop, Bool.false_eq_true, if_false, hres]

/-- Acquisition by `t` succeeds whenever the lock is free or already owned
by `t`, incrementing the depth counter. -/
theorem acquireBusy_succeeds {σ : Type} (t : ℕ) (st : ArmState σ)
    (h : st.busyOwner = none ∨ st.busyOwner = some t) :
    acquireBusy t st =
      ({ st with busyOwner := some t, busyCount := st.busyCount + 1 }, true) := by
  rcases h with h | h <;> simp [acquireBusy, h]

/-- Repeated acquisitions by context `t` starting from a free lock: the
owner is `t` and the depth counter counts the acquisitions. -/
theorem acquireBusy_iterate {σ : Type} (t : ℕ) (st : ArmState σ)
    (h1 : st.busyOwner = none) (h2 : st.busyCount = 0) (k : ℕ) :
    ((fun s => (acquireBusy t s).1)^[k] st).busyOwner = (if k = 0 then none else some t) ∧
    ((fun s => (acquireBusy t s).1)^[k] st).busyCount = (k : ℤ) := by
  induction k with
  | zero => simpa using ⟨h1, h2⟩
  | succ n ih =>
    rw [Function.iterate_succ_apply']
    rcases ih with ⟨iho, ihc⟩
    have hor : ((fun s => (acquireBusy t s).1)^[n] st).busyOwner = none ∨
        ((fun s => (acquireBusy t s).1)^[n] st).busyOwner = some t := by
      rw [iho]; split <;> simp
    have hstep := acquireBusy_succeeds t _ hor
    constructor
    · simp [hstep]
    · simp [hstep, ihc]

/-- Releases by the holder `t` after `k` acquisitions from a free lock:
ownership is dropped exactly when the release count reaches the
acquisition count. -/
theorem releaseBusy_iterate {σ : Type} (t : ℕ) (st : ArmState σ)
    (h1 : st.busyOwner = none) (h2 : st.busyCount = 0) (k m : ℕ) :
    ((fun s => releaseBusy t s)^[m] ((fun s => (acquireBusy t s).1)^[k] st)).busyOwner
      = (if m < k then some t else none) ∧
    ((fun s => releaseBusy t s)^[m] ((fun s => (acquireBusy t s).1)^[k] st)).busyCount
      = ((k - m : ℕ) : ℤ) := by
  induction m with
  | zero =>
    rcases acquireBusy_iterate t st h1 h2 k with ⟨iho, ihc⟩
    refine ⟨?_, by simpa using ihc⟩
    rcases Nat.eq_zero_or_pos k with hk | hk
    · simp [hk] at iho ⊢; exact iho
    · simp only [Function.iterate_zero_apply, iho]
      rw [if_neg (by omega), if_pos hk]
  | succ n ih =>
    rw [Function.iterate_succ_apply']
    rcases ih with ⟨iho, ihc⟩
    by_cases hn : n < k
    · rw [if_pos hn] at iho
      by_cases hlast : n + 1 = k
      · have : (k - n : ℕ) = 1 := by omega
        rw [releaseBusy, if_pos (by rw [iho]), if_pos (by rw [ihc, this]; norm_num)]
        simp [hlast]
      · have hlt : n + 1 < k := by omega
        rw [releaseBusy, if_pos (by rw [iho]),
            if_neg (by rw [ihc]; push_cast; omega)]
        simp only [if_pos hlt, ihc]
        refine ⟨iho, by push_cast; omega⟩
    · rw [if_neg hn] at iho
      rw [releaseBusy, if_neg (by rw [iho]; simp)]
      have h1' : ¬(n + 1 < k) := by omega
      have h2' : (k - (n + 1) : ℕ) = 0 := by omega
      have h3' : (k - n : ℕ) = 0 := by omega
      rw [if_neg h1', h2']
      rw [h3'] at ihc
      exact ⟨iho, by simpa using ihc⟩

/-- C2 (claim): the busy-lock is reentrant for the same execution context
and exclusive across contexts: while one context holds it, an acquire by any
other context fails immediately (returning `False`, surfaced as `Busy`, with
the state unchanged — it never blocks or queues); an acquire by the holder
(or on a free lock) succeeds and increments the depth counter; and after `k`
acquisitions by a context and `m` releases, the lock is owned while `m < k`
and becomes free again exactly when the release count reaches the acquire
count (depth back to zero).  A `move` attempted from a different context
while the lock is held fails with `Busy` leaving the state untouched. -/
theorem busyLock_reentrant_exclusive {σ : Type} :
    (∀ (st : ArmState σ) (t t' : ℕ), st.busyOwner = some t → t' ≠ t →
        acquireBusy t' st = (st, false)) ∧
    (∀ (st : ArmState σ) (t : ℕ), st.busyOwner = none ∨ st.busyOwner = some t →
        acquireBusy t st =
          ({ st with busyOwner := some t, busyCount := st.busyCount + 1 }, true)) ∧
    (∀ (st : ArmState σ) (t : ℕ) (k m : ℕ), st.busyOwner = none → st.busyCount = 0 →
        ((fun s => releaseBusy t s)^[m] ((fun s => (acquireBusy t s).1)^[k] st)).busyOwner
          = (if m < k then some t else none) ∧
        ((fun s => releaseBusy t s)^[m] ((fun s => (acquireBusy t s).1)^[k] st)).busyCount
          = ((k - m : ℕ) : ℤ)) ∧
    (∀ (M : Driver σ) (env : Env) (tid o : ℕ) (joints : List (String × JointVal))
        (speed : ℤ) (timeoutS : Option ℚ) (fin : Bool) (deadband : ℚ)
        (st : ArmState σ), st.busyOwner = some o → o ≠ tid →
        move M env tid "relative" joints speed "degrees" timeoutS fin deadband st
          = ⟨st, [], .error .busy⟩) := by
  refine ⟨?_, ?_, ?_, ?_⟩
  · intro st t t' h hne
    simp [acquireBusy, h, Ne.symm hne]
  · intro st t h
    rcases h with h | h
    · simp [acquireBusy, h]
    · simp [acquireBusy, h]
  · intro st t k m h1 h2
    exact releaseBusy_iterate t st h1 h2 k m
  · intro M env tid o joints speed timeoutS fin deadband st h hne
    have hacq : acquireBusy tid st = (st, false) := by
      simp only [acquireBusy, h]
      rw [if_neg hne]
    simp only [move, hacq, if_neg (by decide : ¬¬(lowerStr "relative" = "relative" ∨
      lowerStr "relative" = "absolute")), if_neg (by decide : ¬¬(lowerStr "degrees" = "rotations" ∨
      lowerStr "degrees" = "degrees"))]

/-- C2 witness: concrete uses of each conjunct. -/
theorem busyLock_reentrant_exclusive_witness :
    (acquireBusy 7 stHeld = (stHeld, false)) ∧
    (acquireBusy 3 stHeld =
      ({ stHeld with busyOwner := some 3, busyCount := 2 }, true)) ∧
    (((fun s => releaseBusy 3 s)^[2] ((fun s => (acquireBusy 3 s).1)^[2] stFree)).busyOwner
      = none) ∧
    (move UnitDriver envZero 7 "relative" [("A", .num 10)] 60 "degrees" none true 2 stHeld
      = ⟨stHeld, [], .error .busy⟩) := by
  refine ⟨?_, ?_, ?_, ?_⟩
  · exact (busyLock_reentrant_exclusive (σ := Unit)).1 stHeld 3 7 rfl (by decide)
  · have := (busyLock_reentrant_exclusive (σ := Unit)).2.1 stHeld 3 (Or.inr rfl)
    simpa using this
  · have := ((busyLock_reentrant_exclusive (σ := Unit)).2.2.1 stFree 3 2 2 rfl rfl).1
    simpa using this
  · exact (busyLock_reentrant_exclusive (σ := Unit)).2.2.2 UnitDriver envZero 7 3
      [("A", .num 10)] 60 none true 2 stHeld rfl (by decide)

/-- Full evaluation of `moveTimeoutRun`: joint A's motor was commanded 10
degrees (and physically sits at 10), joint B's deadline check fired, and the
error propagates with `currentAbs` untouched for every joint. -/
theorem moveTimeoutRun_eq :
    moveTimeoutRun =
      ⟨{ stTrack with mst := setF (setF stTrack.mst "A" 10) "B" 0,
                      lastDir := setF (setF stTrack.lastDir "A" 1) "B" 1 },
        [("A", 10, 60)], .error .timeout⟩ := by
  have hacq : acquireBusy 0 stTrack = (stTrack1, true) := by
    simp [acquireBusy, stTrack, stTrack1]
  have hres : resolveTargets stTrack1 (lowerStr "relative") (lowerStr "degrees")
      [("A", .num 10), ("B", .num 20)] = .ok [("A", 10), ("B", 20)] := by
    rw [lowerStr_relative, lowerStr_degrees,
        resolveTargets_cons_num stTrack1 _ _ _ _ _ (by simp [jointNames]),
        resolveTargets_cons_num stTrack1 _ _ _ _ _ (by simp [jointNames]),
        resolveTargets_nil]
    simp [clamp, stTrack1, stTrack]
  have hol : openLoop TrackDriver envLateClock
      (Option.map (fun t => envLateClock.times 0 + t) (some (5 : ℚ))) 60
      stTrack1.currentAbs stTrack1.backlash [("A", 10), ("B", 20)]
      ⟨stTrack1.mst, stTrack1.lastDir, [], 1, 1⟩ =
      (⟨setF (setF stTrack.mst "A" 10) "B" 0,
        setF (setF stTrack.lastDir "A" 1) "B" 1, [("A", 10, 60)], 3, 3⟩,
       some .timeout) := by
    rw [show (Option.map (fun t => envLateClock.times 0 + t) (some (5 : ℚ)))
          = some (envLateClock.times 0 + 5) from rfl]
    rw [openLoop_cons_intime TrackDriver envLateClock (envLateClock.times 0 + 5) 60 _ _
        "A" 10 _ _ 1 10
        (by norm_num [stTrack1, stTrack])
        (by norm_num [stTrack1, stTrack])
        (by norm_num [stTrack1, stTrack])
        (chunkList_of_abs_le 10 (by rw [abs_of_pos] <;> norm_num))
        rfl
        (by norm_num [envLateClock])]
    rw [openLoop_cons_timeout TrackDriver envLateClock (envLateClock.times 0 + 5) 60 _ _
        "B" 20 [] _ 1 20
        (by norm_num [stTrack1, stTrack, setF])
        (by norm_num [stTrack1, stTrack])
        (by norm_num [stTrack1, stTrack, setF])
        rfl
        (by norm_num [envLateClock])]
    refine Prod.ext_iff.mpr ⟨?_, rfl⟩
    ext k
    · simp [setF, stTrack1, stTrack, TrackDriver]
      try split <;> norm_num
    · simp [setF, stTrack1, stTrack]
    · simp [stTrack1, stTrack]
    · simp
    · simp
  rw [moveTimeoutRun,
      move_eval_openErr TrackDriver envLateClock 0 [("A", .num 10), ("B", .num 20)] 60
        (some 5) true 2 stTrack stTrack1 "relative" "degrees" [("A", 10), ("B", 20)] _
        .timeout (Or.inl lowerStr_relative) (Or.inr lowerStr_degrees) hacq rfl hres hol]
  refine MoveOut.mk.injEq _ _ _ _ _ _ |>.mpr ⟨?_, rfl, rfl⟩
  rw [show releaseBusy 0 { stTrack1 with
        mst := setF (setF stTrack.mst "A" 10) "B" 0,
        lastDir := setF (setF stTrack.lastDir "A" 1) "B" 1 } =
      { stTrack1 with
        mst := setF (setF stTrack.mst "A" 10) "B" 0,
        lastDir := setF (setF stTrack.lastDir "A" 1) "B" 1,
        busyOwner := none, busyCount := 0 } from by
    simp [releaseBusy, stTrack1, stTrack]]
  simp [stTrack1, stTrack]

/-- C1 (counterexample): the claim fails on the code — a `move` failing
with `Timeout` propagates WITHOUT updating `currentAbsoluteDegrees`: joint A
was fully commanded (its driver reports 10°) but its stored position remains
the stale pre-call value 0. -/
theorem moveTimeout_staleCurrentAbs_cex :
    moveTimeoutRun.res = .error .timeout ∧
    moveTimeoutRun.log = [("A", 10, 60)] ∧
    TrackDriver.readDeg (moveTimeoutRun.st.mst "A") = some 10 ∧
    moveTimeoutRun.st.currentAbs "A" = 0 ∧
    stTrack.currentAbs "A" = 0 := by
  rw [moveTimeoutRun_eq]
  refine ⟨rfl, rfl, ?_, rfl, rfl⟩
  simp [setF, TrackDriver]

/-- C1 (amended): when `move` fails with `Timeout` or `Interrupted`, the
stored `currentAbsoluteDegrees` is NOT refreshed: it keeps its pre-call
value for every joint (the hardware re-read happens only in the finalize
phase of a fully successful call); on `Timeout` only the in-flight joint's
motor is stopped and its `lastDirection` recorded. -/
theorem move_hwerror_keeps_currentAbs {σ : Type} (M : Driver σ) (env : Env) (tid : ℕ)
    (mode : String) (joints : List (String × JointVal)) (speed : ℤ)
    (units : String) (timeoutS : Option ℚ) (fin : Bool) (deadband : ℚ)
    (st : ArmState σ) (e : MoveErr)
    (h : (move M env tid mode joints speed units timeoutS fin deadband st).res = .error e)
    (he : e = .timeout ∨ e = .interrupted) :
    ∀ j, (move M env tid mode joints speed units timeoutS fin deadband st).st.currentAbs j
      = st.currentAbs j := by
  intro j
  rw [(move_error_preserves M env tid mode joints speed units timeoutS fin deadband st e h).1]

/-- C1 witness: the amended theorem applied to the concrete timed-out run. -/
theorem move_hwerror_keeps_currentAbs_witness :
    (move TrackDriver envLateClock 0 "relative" [("A", .num 10), ("B", .num 20)] 60
      "degrees" (some 5) true 2 stTrack).st.currentAbs "A" = stTrack.currentAbs "A" :=
  move_hwerror_keeps_currentAbs TrackDriver envLateClock 0 "relative"
    [("A", .num 10), ("B", .num 20)] 60 "degrees" (some 5) true 2 stTrack .timeout
    (by rw [show (move TrackDriver envLateClock 0 "relative"
          [("A", .num 10), ("B", .num 20)] 60 "degrees" (some 5) true 2 stTrack)
        = moveTimeoutRun from rfl, moveTimeoutRun_eq])
    (Or.inl rfl) "A"


/-- Point resolution depends only on the named points. -/
theorem resolvePoint_congr {σ : Type} (st st' : ArmState σ)
    (h : st.points = st'.points) (j : String) (e : List Char) :
    resolvePoint st j e = resolvePoint st' j e := by
  simp only [resolvePoint, h]

/-- Every entry of a successfully resolved request has a known joint and,
when it is a point expression, a resolvable one. -/
theorem resolveTargets_ok_all {σ : Type} (st : ArmState σ) (mode units : String) :
    ∀ (l : List (String × JointVal)) (ts : List (String × ℚ)),
      resolveTargets st mode units l = .ok ts →
      ∀ p ∈ l, p.1 ∈ jointNames ∧
        ∀ e, p.2 = JointVal.expr e → ∃ t, resolvePoint st p.1 e = .ok t := by
  intro l
  induction l with
  | nil => intro ts _ p hp; simp at hp
  | cons q rest ih =>
    rcases q with ⟨j, v⟩
    intro ts h p hp
    by_cases hj : j ∈ jointNames
    · cases v with
      | num x =>
        rw [resolveTargets_cons_num st mode units j x rest hj] at h
        rcases hrest : resolveTargets st mode units rest with er | ts2
        · rw [hrest] at h; exact Except.noConfusion h
        · rcases List.mem_cons.mp hp with hpq | hpr
          · subst hpq
            exact ⟨hj, fun e he => by simp at he⟩
          · exact ih ts2 hrest p hpr
      | expr e0 =>
        rcases hpt : resolvePoint st j e0 with er | t0
        · rw [resolveTargets_cons_expr_err st mode units j e0 er rest hj hpt] at h
          exact Except.noConfusion h
        · rw [resolveTargets_cons_expr st mode units j e0 t0 rest hj hpt] at h
          rcases hrest : resolveTargets st mode units rest with er | ts2
          · rw [hrest] at h; exact Except.noConfusion h
          · rcases List.mem_cons.mp hp with hpq | hpr
            · subst hpq
              refine ⟨hj, fun e he => ?_⟩
              have he' : e0 = e := by simpa using he
              subst he'
              exact ⟨t0, hpt⟩
            · exact ih ts2 hrest p hpr
    · rw [resolveTargets_cons_unknown st mode units j v rest hj] at h
      exact Except.noConfusion h

/-- A move request containing an invalid mode, invalid units, an unknown
joint key, or an unresolvable point expression (relative to the current
named points). -/
def badRequest {σ : Type} (st : ArmState σ) (mode units : String)
    (joints : List (String × JointVal)) : Prop :=
  ¬(lowerStr mode = "relative" ∨ lowerStr mode = "absolute") ∨
  ¬(lowerStr units = "rotations" ∨ lowerStr units = "degrees") ∨
  (∃ p ∈ joints, p.1 ∉ jointNames) ∨
  (∃ p ∈ joints, ∃ e, p.2 = JointVal.expr e ∧ ∀ t, resolvePoint st p.1 e ≠ .ok t)

/-- C9: a move request containing an invalid mode, invalid units, an
unknown joint key or an unresolvable point expression always fails before
any motor command is issued: the call returns an error, no driver primitive
is invoked (the command log is empty), and `currentAbsoluteDegrees`,
`lastDirection` and the named points are exactly as before the call. -/
theorem move_badRequest_failfast {σ : Type} (M : Driver σ) (env : Env) (tid : ℕ)
    (mode units : String) (joints : List (String × JointVal)) (speed : ℤ)
    (timeoutS : Option ℚ) (fin : Bool) (deadband : ℚ) (st : ArmState σ)
    (hbad : badRequest st mode units joints) :
    (∃ e, (move M env tid mode joints speed units timeoutS fin deadband st).res
        = .error e) ∧
    (move M env tid mode joints speed units timeoutS fin deadband st).log = [] ∧
    (move M env tid mode joints speed units timeoutS fin deadband st).st.currentAbs
        = st.currentAbs ∧
    (move M env tid mode joints speed units timeoutS fin deadband st).st.lastDir
        = st.lastDir ∧
    (move M env tid mode joints speed units timeoutS fin deadband st).st.points
        = st.points := by
  simp only [move]
  by_cases h1 : ¬(lowerStr mode = "relative" ∨ lowerStr mode = "absolute")
  · simp only [if_pos h1]
    exact ⟨⟨.invalidMode, rfl⟩, trivial, trivial, trivial, trivial⟩
  · simp only [if_neg h1]
    by_cases h2 : ¬(lowerStr units = "rotations" ∨ lowerStr units = "degrees")
    · simp only [if_pos h2]
      exact ⟨⟨.invalidUnits, rfl⟩, trivial, trivial, trivial, trivial⟩
    · simp only [if_neg h2]
      rcases hacq : acquireBusy tid st with ⟨st1, b⟩
      have hpres := acquireBusy_preserves tid st
      rw [hacq] at hpres
      cases b
      · exact ⟨⟨.busy, rfl⟩, rfl, rfl, rfl, rfl⟩
      · have hrel := fun s : ArmState σ => releaseBusy_preserves tid s
        by_cases hs : env.stops 0
        · simp only [hs, if_true]
          exact ⟨⟨.interrupted, rfl⟩, trivial,
            by rw [(hrel st1).2.1, hpres.2.1],
            by rw [(hrel st1).2.2.1, hpres.2.2.1],
            by rw [(hrel st1).2.2.2.1, hpres.2.2.2.1]⟩
        · simp only [hs, Bool.false_eq_true, if_false]
          rcases hres : resolveTargets st1 (lowerStr mode) (lowerStr units) joints
            with er | targets
          · simp only [hres]
            exact ⟨⟨er, rfl⟩, trivial,
              by rw [(hrel st1).2.1, hpres.2.1],
              by rw [(hrel st1).2.2.1, hpres.2.2.1],
              by rw [(hrel st1).2.2.2.1, hpres.2.2.2.1]⟩
          · exfalso
            rcases hbad with hb | hb | hb | hb
            · exact h1 hb
            · exact h2 hb
            · rcases hb with ⟨p, hpmem, hpj⟩
              exact hpj ((resolveTargets_ok_all st1 (lowerStr mode) (lowerStr units)
                joints targets hres p hpmem).1)
            · rcases hb with ⟨p, hpmem, e0, hpe, hnone⟩
              rcases (resolveTargets_ok_all st1 (lowerStr mode) (lowerStr units)
                joints targets hres p hpmem).2 e0 hpe with ⟨t, ht⟩
              rw [resolvePoint_congr st1 st hpres.2.2.2.1 p.1 e0] at ht
              exact hnone t ht

/-- C9 witness: a request naming the unknown joint `Z` is rejected with no
motor command and no state change. -/
theorem move_badRequest_failfast_witness :
    (∃ e, (move UnitDriver envZero 0 "relative" [("Z", .num 1)] 60 "degrees" none true 2
        stFree).res = .error e) ∧
    (move UnitDriver envZero 0 "relative" [("Z", .num 1)] 60 "degrees" none true 2
        stFree).log = [] ∧
    (move UnitDriver envZero 0 "relative" [("Z", .num 1)] 60 "degrees" none true 2
        stFree).st.currentAbs = stFree.currentAbs ∧
    (move UnitDriver envZero 0 "relative" [("Z", .num 1)] 60 "degrees" none true 2
        stFree).st.lastDir = stFree.lastDir ∧
    (move UnitDriver envZero 0 "relative" [("Z", .num 1)] 60 "degrees" none true 2
        stFree).st.points = stFree.points :=
  move_badRequest_failfast UnitDriver envZero 0 "relative" "degrees" [("Z", .num 1)]
    60 none true 2 stFree
    (Or.inr (Or.inr (Or.inl ⟨("Z", .num 1), by simp, by decide⟩)))

/-- Quiet chunk execution: with the stop flag never set and no deadline,
every chunk is issued in order and the loop cannot fail. -/
theorem runChunks_quiet {σ : Type} (M : Driver σ) (env : Env) (j : String)
    (speed dir : ℤ) (hstops : ∀ k, env.stops k = false) :
    ∀ (cs : List ℚ) (rs : RunSt σ),
      runChunks M env none j speed dir cs rs =
        ({ rs with mst := setF rs.mst j (cs.foldl (fun s c => M.run s c speed) (rs.mst j)),
                   log := rs.log ++ cs.map (fun c => (j, c, speed)),
                   ks := rs.ks + cs.length }, none) := by
  intro cs
  induction cs with
  | nil =>
    intro rs
    simp only [runChunks, List.foldl_nil, List.map_nil, List.append_nil, List.length_nil,
      Nat.add_zero]
    refine congrArg (fun z => (z, none)) ?_
    ext k
    · by_cases hk : k = j <;> simp [setF, hk]
    · rfl
    · rfl
    · rfl
    · rfl
  | cons c cs ih =>
    intro rs
    rw [runChunks, if_neg (by rw [hstops rs.ks]; exact Bool.false_ne_true)]
    simp only [decide_eq_true_eq, List.foldl_cons]
    rw [ih]
    refine congrArg (fun z => (z, none)) ?_
    ext k
    · by_cases hk : k = j <;> simp [setF, hk]
    · rfl
    · simp
    · simp [List.length_cons]; omega
    · simp

/-- Under a quiet environment with no deadline the whole open-loop phase
succeeds. -/
theorem openLoop_quiet_isOk {σ : Type} (M : Driver σ) (env : Env) (speed : ℤ)
    (sp bl : String → ℚ) (hstops : ∀ k, env.stops k = false) :
    ∀ (targets : List (String × ℚ)) (rs : RunSt σ),
      ∃ rs2, openLoop M env none speed sp bl targets rs = (rs2, none) := by
  intro targets
  induction targets with
  | nil => intro rs; exact ⟨rs, rfl⟩
  | cons p rest ih =>
    intro rs
    rcases p with ⟨j, target⟩
    by_cases hsm : |target - sp j| < 1 / 1000000
    · rw [openLoop_cons_skip M env none speed sp bl j target rest rs hsm]
      exact ih rs
    · simp only [openLoop]
      rw [if_neg hsm]
      rw [runChunks_quiet M env j speed _ hstops]
      simp only [Option.isSome_none, Bool.false_eq_true, if_false]
      exact ih _

/-- Relative rotations on a 360°-unit joint resolve to the same target as
the equivalent degrees request. -/
theorem resolveTargets_rot360 {σ : Type} (st : ArmState σ) (j : String) (N : ℚ)
    (hrot : st.rotationDeg j = 360) :
    resolveTargets st "relative" "rotations" [(j, .num N)] =
      resolveTargets st "relative" "degrees" [(j, .num (N * 360))] := by
  by_cases hj : j ∈ jointNames
  · rw [resolveTargets_cons_num st _ _ _ _ _ hj, resolveTargets_cons_num st _ _ _ _ _ hj]
    simp [resolveTargets_nil, hrot]
  · rw [resolveTargets_cons_unknown st _ _ _ _ _ hj,
        resolveTargets_cons_unknown st _ _ _ _ _ hj]

/-- C5: rotations-to-degrees conversion is exact.  A relative move of `N`
rotations on a joint with `rotationUnitDegrees = 360` has exactly the same
effect on the controller state and issues exactly the same motor commands
as a relative move of `N*360` degrees; and (for an unconstrained joint with
an unreadable encoder, quiet environment, free lock and a sane deadband) it
changes `currentAbsoluteDegrees` by exactly `N*360`. -/
theorem rotations_conversion_exact {σ : Type} (M : Driver σ) (env : Env) (tid : ℕ)
    (j : String) (N : ℚ) (speed : ℤ) (timeoutS : Option ℚ) (fin : Bool) (db : ℚ)
    (st : ArmState σ) (hrot : st.rotationDeg j = 360) :
    ((move M env tid "relative" [(j, .num N)] speed "rotations" timeoutS fin db st).st
        = (move M env tid "relative" [(j, .num (N * 360))] speed "degrees" timeoutS fin db st).st ∧
     (move M env tid "relative" [(j, .num N)] speed "rotations" timeoutS fin db st).log
        = (move M env tid "relative" [(j, .num (N * 360))] speed "degrees" timeoutS fin db st).log) ∧
    ((∀ k, env.stops k = false) → j ∈ jointNames → st.busyOwner = none →
      st.limits j = none → (∀ s, M.readDeg s = none) → 0 ≤ db →
      (move M env tid "relative" [(j, .num N)] speed "rotations" none fin db st).st.currentAbs j
        = st.currentAbs j + N * 360) := by
  constructor
  · rcases hacq : acquireBusy tid st with ⟨st1, b⟩
    have hpres := acquireBusy_preserves tid st
    rw [hacq] at hpres
    have hrot1 : st1.rotationDeg j = 360 := by
      have := hpres.2.2.2.2.2.2.1
      simp only at this
      rw [this, hrot]
    simp only [move, lowerStr_relative, lowerStr_rotations, lowerStr_degrees, hacq]
    rw [if_neg (by simp), if_neg (by simp), if_neg (by simp), if_neg (by simp)]
    cases b
    · constructor <;> first | rfl | trivial
    · by_cases hs : env.stops 0
      · simp only [hs, if_true]
        constructor <;> first | rfl | trivial
      · simp only [hs, Bool.false_eq_true, if_false]
        rw [resolveTargets_rot360 st1 j N hrot1]
        refine ⟨?_, ?_⟩ <;>
        · split
          · rfl
          · split <;> rfl
  · intro hstops hj hfree hlim hread hdb
    have hacq : acquireBusy tid st =
        ({ st with busyOwner := some tid, busyCount := st.busyCount + 1 }, true) :=
      acquireBusy_succeeds tid st (Or.inl hfree)
    have hres : resolveTargets { st with busyOwner := some tid, busyCount := st.busyCount + 1 }
        (lowerStr "relative") (lowerStr "rotations") [(j, .num N)]
        = .ok [(j, st.currentAbs j + N * 360)] := by
      rw [lowerStr_relative, lowerStr_rotations,
          resolveTargets_cons_num _ _ _ _ _ _ hj]
      rw [clamp_none { st with busyOwner := some tid, busyCount := st.busyCount + 1 }
          j _ hlim]
      simp [resolveTargets_nil, hrot]
    obtain ⟨rs2, hol⟩ := openLoop_quiet_isOk M env speed
      ({ st with busyOwner := some tid, busyCount := st.busyCount + 1 }).currentAbs
      ({ st with busyOwner := some tid, busyCount := st.busyCount + 1 }).backlash hstops
      [(j, st.currentAbs j + N * 360)]
      ⟨({ st with busyOwner := some tid, busyCount := st.busyCount + 1 }).mst,
       ({ st with busyOwner := some tid, busyCount := st.busyCount + 1 }).lastDir, [], 1, 1⟩
    rw [move_eval_ok M env tid [(j, .num N)] speed none fin db st
        { st with busyOwner := some tid, busyCount := st.busyCount + 1 }
        "relative" "rotations" [(j, st.currentAbs j + N * 360)] rs2
        (Or.inl lowerStr_relative) (Or.inl lowerStr_rotations) hacq (hstops 0) hres hol]
    rw [finalizeLoop_cons M fin db speed j (st.currentAbs j + N * 360) [] _ _
        (finalizeJoint_within M fin db speed j (st.currentAbs j + N * 360) _
          (st.currentAbs j + N * 360) (by rw [hread]; rfl)
          (by rintro ⟨-, hgt⟩; rw [sub_self] at hgt; simp at hgt; linarith)),
        finalizeLoop_nil]
    rw [(releaseBusy_preserves tid _).2.1]
    simp [setF]

/-- C5 witness: two rotations on joint A from the zero state both ways. -/
theorem rotations_conversion_exact_witness :
    ((move UnitDriver envZero 0 "relative" [("A", .num 2)] 60 "rotations" none true 2
        stFree).st
      = (move UnitDriver envZero 0 "relative" [("A", .num (2 * 360))] 60 "degrees" none
        true 2 stFree).st ∧
     (move UnitDriver envZero 0 "relative" [("A", .num 2)] 60 "rotations" none true 2
        stFree).log
      = (move UnitDriver envZero 0 "relative" [("A", .num (2 * 360))] 60 "degrees" none
        true 2 stFree).log) ∧
    (move UnitDriver envZero 0 "relative" [("A", .num 2)] 60 "rotations" none true 2
        stFree).st.currentAbs "A" = stFree.currentAbs "A" + 2 * 360 := by
  have h := rotations_conversion_exact UnitDriver envZero 0 "A" 2 60 none true 2 stFree
    (by simp [stFree])
  exact ⟨h.1, h.2 (fun _ => rfl) (by simp [jointNames]) rfl rfl (fun _ => rfl) (by norm_num)⟩

/-! ### C3: backlash compensation -/

/-- Overwriting an update at the same key collapses to the outer update. -/
@[simp] theorem setF_setF {α : Type} (f : String → α) (j : String) (v w : α) :
    setF (setF f j v) j w = setF f j w := by
  funext k; by_cases hk : k = j <;> simp [setF, hk]

/-- Closed form of a quiet single-joint relative-degrees `move` on an
unconstrained joint with an unreadable encoder: one open-loop command of
`rd` degrees — the logical delta, backlash-compensated exactly when the
direction reverses — the new direction recorded, the position estimate
advanced by the logical delta only, and a zero final error. -/
theorem move_single_quiet {σ : Type} (M : Driver σ) (env : Env) (tid : ℕ)
    (j : String) (d : ℚ) (speed : ℤ) (fin : Bool) (db : ℚ) (st : ArmState σ)
    (dir : ℤ) (rd : ℚ)
    (hstops : ∀ k, env.stops k = false)
    (hj : j ∈ jointNames) (hfree : st.busyOwner = none)
    (hlim : st.limits j = none)
    (hsm : ¬ |d| < 1 / 1000000)
    (hdir : dir = if 0 < d then 1 else -1)
    (hrd : rd = if dir = st.lastDir j then d else d + st.backlash j * (dir : ℚ))
    (hck : chunkList rd = [rd])
    (hread : ∀ s, M.readDeg s = none)
    (hdb : 0 ≤ db) :
    move M env tid "relative" [(j, .num d)] speed "degrees" none fin db st =
      ⟨releaseBusy tid
         { st with
           busyOwner := some tid
           busyCount := st.busyCount + 1
           mst := setF st.mst j (M.run (st.mst j) rd speed)
           currentAbs := setF st.currentAbs j (st.currentAbs j + d)
           lastDir := setF st.lastDir j dir },
       [(j, rd, speed)],
       .ok { newAbs := setF st.currentAbs j (st.currentAbs j + d)
             units := "degrees"
             commanded := [(j, .num d)]
             convertedDegrees := [(j, d)]
             speed := speed
             timeoutS := none
             elapsedS := env.times 1 - env.times 0
             finalErrorDeg := [(j, 0)]
             finalized := fin
             finalizeDeadbandDeg := db
             finalizeCorrections := [(j, 0)]
             timeout := false }⟩ := by
  have hdir0 : dir ≠ 0 := by
    rcases lt_or_ge 0 d with h0 | h0
    · rw [hdir, if_pos h0]; decide
    · rw [hdir, if_neg (not_lt.mpr h0)]; decide
  have hacq : acquireBusy tid st =
      ({ st with busyOwner := some tid, busyCount := st.busyCount + 1 }, true) :=
    acquireBusy_succeeds tid st (Or.inl hfree)
  have hres : resolveTargets { st with busyOwner := some tid, busyCount := st.busyCount + 1 }
      (lowerStr "relative") (lowerStr "degrees") [(j, .num d)]
      = .ok [(j, st.currentAbs j + d)] := by
    rw [lowerStr_relative, lowerStr_degrees,
        resolveTargets_cons_num _ _ _ _ _ _ hj]
    rw [clamp_none { st with busyOwner := some tid, busyCount := st.busyCount + 1 }
        j _ hlim]
    simp [resolveTargets_nil]
  have hol : openLoop M env none speed
      ({ st with busyOwner := some tid, busyCount := st.busyCount + 1 } : ArmState σ).currentAbs
      ({ st with busyOwner := some tid, busyCount := st.busyCount + 1 } : ArmState σ).backlash
      [(j, st.currentAbs j + d)]
      ⟨({ st with busyOwner := some tid, busyCount := st.busyCount + 1 } : ArmState σ).mst,
       ({ st with busyOwner := some tid, busyCount := st.busyCount + 1 } : ArmState σ).lastDir,
       [], 1, 1⟩
      = ({ mst := setF st.mst j (M.run (st.mst j) rd speed),
           lastDir := setF st.lastDir j dir,
           log := [(j, rd, speed)], ks := 2, kt := 1 }, none) := by
    rw [openLoop_cons_quiet M env speed _ _ j (st.currentAbs j + d) [] _ dir rd
        (by simpa using hsm)
        (by simpa using hdir)
        (by
          simp only [add_sub_cancel_left]
          by_cases hl : dir = st.lastDir j
          · rw [hrd, if_pos hl]
            simp [hl]
          · rw [hrd, if_neg hl]
            simp [hdir0, hl])
        hck (hstops 1)]
    rw [openLoop_nil]
    rfl
  rw [move_eval_ok M env tid [(j, .num d)] speed none fin db st
      { st with busyOwner := some tid, busyCount := st.busyCount + 1 }
      "relative" "degrees" [(j, st.currentAbs j + d)]
      { mst := setF st.mst j (M.run (st.mst j) rd speed),
        lastDir := setF st.lastDir j dir,
        log := [(j, rd, speed)], ks := 2, kt := 1 }
      (Or.inl lowerStr_relative) (Or.inr lowerStr_degrees) hacq (hstops 0) hres hol]
  rw [finalizeLoop_cons M fin db speed j (st.currentAbs j + d) [] _ _
      (finalizeJoint_within M fin db speed j (st.currentAbs j + d) _
        (st.currentAbs j + d) (by rw [hread]; rfl)
        (by rintro ⟨-, hgt⟩; rw [sub_self] at hgt; simp at hgt; linarith)),
      finalizeLoop_nil]
  simp only [setF_same, setF_setF, List.append_nil, List.nil_append, List.map_cons,
    List.map_nil, sub_self, add_sub_cancel_left, lowerStr_degrees]

/-- C3: backlash compensation is applied to the open-loop command exactly
when the move direction is non-zero and differs from the joint's recorded
last direction, adding exactly `backlash * direction` extra degrees; a move
in the recorded direction commands the bare delta, and since the direction
is recorded after each move, the second of two consecutive same-direction
moves adds no backlash.  The resolved target, the reported final error and
the updated position estimate are independent of the backlash value:
compensation changes only the command sent to the driver. -/
theorem backlash_on_reversal_only {σ : Type} (M : Driver σ) (env : Env) (tid : ℕ)
    (j : String) (d : ℚ) (speed : ℤ) (fin : Bool) (db : ℚ) (st : ArmState σ)
    (dir : ℤ)
    (hstops : ∀ k, env.stops k = false)
    (hj : j ∈ jointNames) (hfree : st.busyOwner = none) (hcnt : st.busyCount = 0)
    (hlim : st.limits j = none)
    (hsm : ¬ |d| < 1 / 1000000)
    (hdir : dir = if 0 < d then 1 else -1)
    (hck : |d + st.backlash j * (dir : ℚ)| ≤ 12000) (hck0 : |d| ≤ 12000)
    (hread : ∀ s, M.readDeg s = none) (hdb : 0 ≤ db) :
    dir ≠ 0 ∧
    (dir ≠ st.lastDir j →
      (move M env tid "relative" [(j, .num d)] speed "degrees" none fin db st).log
        = [(j, d + st.backlash j * (dir : ℚ), speed)]) ∧
    (dir = st.lastDir j →
      (move M env tid "relative" [(j, .num d)] speed "degrees" none fin db st).log
        = [(j, d, speed)]) ∧
    (move M env tid "relative" [(j, .num d)] speed "degrees" none fin db st).st.lastDir j
      = dir ∧
    (move M env tid "relative" [(j, .num d)] speed "degrees" none fin db st).res
      = (move M env tid "relative" [(j, .num d)] speed "degrees" none fin db
          { st with backlash := fun _ => 0 }).res ∧
    (move M env tid "relative" [(j, .num d)] speed "degrees" none fin db st).st.currentAbs
      = (move M env tid "relative" [(j, .num d)] speed "degrees" none fin db
          { st with backlash := fun _ => 0 }).st.currentAbs ∧
    (move M env tid "relative" [(j, .num d)] speed "degrees" none fin db st).st.currentAbs j
      = st.currentAbs j + d ∧
    (∀ s, (move M env tid "relative" [(j, .num d)] speed "degrees" none fin db st).res
        = .ok s → s.finalErrorDeg = [(j, 0)] ∧ s.convertedDegrees = [(j, d)]) ∧
    (∀ d2, ¬ |d2| < 1 / 1000000 → |d2| ≤ 12000 → (0 < d2 ↔ 0 < d) →
      (move M env tid "relative" [(j, .num d2)] speed "degrees" none fin db
        (move M env tid "relative" [(j, .num d)] speed "degrees" none fin db st).st).log
        = [(j, d2, speed)]) := by
  have hdir0 : dir ≠ 0 := by
    rcases lt_or_ge 0 d with h0 | h0
    · rw [hdir, if_pos h0]; decide
    · rw [hdir, if_neg (not_lt.mpr h0)]; decide
  have hckrd : chunkList (if dir = st.lastDir j then d else d + st.backlash j * (dir : ℚ))
      = [if dir = st.lastDir j then d else d + st.backlash j * (dir : ℚ)] := by
    by_cases hl : dir = st.lastDir j
    · simp only [if_pos hl]; exact chunkList_of_abs_le d hck0
    · simp only [if_neg hl]; exact chunkList_of_abs_le _ hck
  have hmv := move_single_quiet M env tid j d speed fin db st dir
    (if dir = st.lastDir j then d else d + st.backlash j * (dir : ℚ))
    hstops hj hfree hlim hsm hdir rfl hckrd hread hdb
  have hmvZ := move_single_quiet M env tid j d speed fin db
    { st with backlash := fun _ => 0 } dir d hstops hj hfree hlim hsm hdir
    (by by_cases hl : dir = st.lastDir j <;> simp [hl])
    (chunkList_of_abs_le d hck0) hread hdb
  refine ⟨hdir0, ?_, ?_, ?_, ?_, ?_, ?_, ?_, ?_⟩
  · intro hl
    rw [hmv]
    simp [if_neg hl]
  · intro hl
    rw [hmv]
    simp [if_pos hl]
  · rw [hmv]
    show (releaseBusy tid _).lastDir j = dir
    rw [(releaseBusy_preserves tid _).2.2.1]
    simp
  · rw [hmv, hmvZ]
  · rw [hmv, hmvZ]
    show (releaseBusy tid _).currentAbs = (releaseBusy tid _).currentAbs
    rw [(releaseBusy_preserves tid _).2.1, (releaseBusy_preserves tid _).2.1]
  · rw [hmv]
    show (releaseBusy tid _).currentAbs j = _
    rw [(releaseBusy_preserves tid _).2.1]
    simp
  · intro s hs
    rw [hmv] at hs
    simp only [Except.ok.injEq] at hs
    subst hs
    exact ⟨rfl, rfl⟩
  · intro d2 hsm2 hck2 hsame
    have hrel : (move M env tid "relative" [(j, .num d)] speed "degrees" none fin db st).st
        = { st with busyOwner := none, busyCount := 0,
                    mst := setF st.mst j (M.run (st.mst j)
                      (if dir = st.lastDir j then d else d + st.backlash j * (dir : ℚ)) speed),
                    currentAbs := setF st.currentAbs j (st.currentAbs j + d),
                    lastDir := setF st.lastDir j dir } := by
      rw [hmv]
      simp [releaseBusy, hcnt]
    rw [hrel]
    rw [move_single_quiet M env tid j d2 speed fin db
        { st with busyOwner := none, busyCount := 0,
                  mst := setF st.mst j (M.run (st.mst j)
                    (if dir = st.lastDir j then d else d + st.backlash j * (dir : ℚ)) speed),
                  currentAbs := setF st.currentAbs j (st.currentAbs j + d),
                  lastDir := setF st.lastDir j dir } dir d2 hstops hj rfl hlim hsm2
        (by
          by_cases h2 : 0 < d2
          · rw [if_pos h2, hdir, if_pos (hsame.mp h2)]
          · rw [if_neg h2, hdir, if_neg (fun hd => h2 (hsame.mpr hd))])
        (by simp)
        (chunkList_of_abs_le d2 hck2) hread hdb]

/-- A free state holding nonzero backlash and a recorded positive last
direction on every joint. -/
def stBack : ArmState Unit :=
  { stFree with backlash := fun _ => 5, lastDir := fun _ => 1 }

/-- C3 witness: a negative move of joint A against the recorded positive
direction from `stBack` commands exactly `-10 + 5 * (-1)` degrees, while the
position estimate advances by the logical `-10` only. -/
theorem backlash_on_reversal_only_witness :
    ((-1 : ℤ) ≠ 0 ∧
     (move UnitDriver envZero 0 "relative" [("A", .num (-10))] 60 "degrees" none true 2
        stBack).log
       = [("A", -10 + stBack.backlash "A" * ((-1 : ℤ) : ℚ), 60)]) ∧
    (move UnitDriver envZero 0 "relative" [("A", .num (-10))] 60 "degrees" none true 2
        stBack).st.currentAbs "A" = stBack.currentAbs "A" + (-10) := by
  have h := backlash_on_reversal_only UnitDriver envZero 0 "A" (-10) 60 true 2 stBack (-1)
    (fun _ => rfl) (by simp [jointNames]) rfl rfl rfl
    (by norm_num)
    (by norm_num)
    (by norm_num [stBack, stFree])
    (by norm_num)
    (fun _ => rfl) (by norm_num)
  exact ⟨⟨h.1, h.2.1 (by decide)⟩, h.2.2.2.2.2.2.1⟩

/-! ### C4: the finalize correction pass -/

/-- Releasing the busy-lock never touches the position estimates. -/
theorem releaseBusy_currentAbs {σ : Type} (tid : ℕ) (st : ArmState σ) :
    (releaseBusy tid st).currentAbs = st.currentAbs :=
  (releaseBusy_preserves tid st).2.1

/-- Driver modelled on the `DriftMotor` test stub: the first command is
undershot by 10 %, later commands execute exactly, and the encoder reports
the true position.  State: (position, first-command pending). -/
def DriftDriver : Driver (ℚ × Bool) :=
  { run := fun s dgs _ => if s.2 then (s.1 + dgs * (9 / 10), false) else (s.1 + dgs, s.2)
    readDeg := fun s => some s.1
    stopM := fun s => s }

/-- Zeroed controller state over the drift driver. -/
def stDrift : ArmState (ℚ × Bool) :=
  { mst := fun _ => (0, true)
    currentAbs := fun _ => 0
    backlash := fun _ => 0
    rotationDeg := fun _ => 360
    speedScale := fun _ => 6
    lastDir := fun _ => 0
    points := fun _ _ => none
    limits := fun _ => none
    calibrated := false
    busyOwner := none
    busyCount := 0 }

/-- The drift state after a successful lock acquisition by context 0. -/
def stDrift1 : ArmState (ℚ × Bool) := { stDrift with busyOwner := some 0, busyCount := 1 }

/-- A 90° finalize move at commanded speed 10 against the drift driver. -/
def moveDriftRun : MoveOut (ℚ × Bool) :=
  move DriftDriver envZero 0 "relative" [("A", .num 90)] 10 "degrees" none true 1 stDrift

/-- Quiet single-joint relative-degrees `move` with the finalize phase left
symbolic: the open-loop phase issues one command of `rd` degrees and the
rest of the output is the finalize loop on the single resolved target. -/
theorem move_single_quiet_fin {σ : Type} (M : Driver σ) (env : Env) (tid : ℕ)
    (j : String) (d : ℚ) (speed : ℤ) (fin : Bool) (db : ℚ) (st : ArmState σ)
    (dir : ℤ) (rd : ℚ)
    (hstops : ∀ k, env.stops k = false)
    (hj : j ∈ jointNames) (hfree : st.busyOwner = none)
    (hlim : st.limits j = none)
    (hsm : ¬ |d| < 1 / 1000000)
    (hdir : dir = if 0 < d then 1 else -1)
    (hrd : rd = if dir = st.lastDir j then d else d + st.backlash j * (dir : ℚ))
    (hck : chunkList rd = [rd]) :
    move M env tid "relative" [(j, .num d)] speed "degrees" none fin db st =
      ⟨releaseBusy tid
         { st with
           busyOwner := some tid
           busyCount := st.busyCount + 1
           mst := (finalizeLoop M fin db speed [(j, st.currentAbs j + d)]
             ⟨setF st.mst j (M.run (st.mst j) rd speed), st.currentAbs, [], [], [], []⟩).mst
           currentAbs := (finalizeLoop M fin db speed [(j, st.currentAbs j + d)]
             ⟨setF st.mst j (M.run (st.mst j) rd speed), st.currentAbs, [], [], [], []⟩).currentAbs
           lastDir := setF st.lastDir j dir },
       [(j, rd, speed)] ++ (finalizeLoop M fin db speed [(j, st.currentAbs j + d)]
         ⟨setF st.mst j (M.run (st.mst j) rd speed), st.currentAbs, [], [], [], []⟩).log,
       .ok { newAbs := (finalizeLoop M fin db speed [(j, st.currentAbs j + d)]
               ⟨setF st.mst j (M.run (st.mst j) rd speed), st.currentAbs, [], [], [], []⟩).currentAbs
             units := "degrees"
             commanded := [(j, .num d)]
             convertedDegrees := [(j, d)]
             speed := speed
             timeoutS := none
             elapsedS := env.times 1 - env.times 0
             finalErrorDeg := (finalizeLoop M fin db speed [(j, st.currentAbs j + d)]
               ⟨setF st.mst j (M.run (st.mst j) rd speed), st.currentAbs, [], [], [], []⟩).finalErrors
             finalized := fin
             finalizeDeadbandDeg := db
             finalizeCorrections := (finalizeLoop M fin db speed [(j, st.currentAbs j + d)]
               ⟨setF st.mst j (M.run (st.mst j) rd speed), st.currentAbs, [], [], [], []⟩).corrections
             timeout := false }⟩ := by
  have hdir0 : dir ≠ 0 := by
    rcases lt_or_ge 0 d with h0 | h0
    · rw [hdir, if_pos h0]; decide
    · rw [hdir, if_neg (not_lt.mpr h0)]; decide
  have hacq : acquireBusy tid st =
      ({ st with busyOwner := some tid, busyCount := st.busyCount + 1 }, true) :=
    acquireBusy_succeeds tid st (Or.inl hfree)
  have hres : resolveTargets { st with busyOwner := some tid, busyCount := st.busyCount + 1 }
      (lowerStr "relative") (lowerStr "degrees") [(j, .num d)]
      = .ok [(j, st.currentAbs j + d)] := by
    rw [lowerStr_relative, lowerStr_degrees,
        resolveTargets_cons_num _ _ _ _ _ _ hj]
    rw [clamp_none { st with busyOwner := some tid, busyCount := st.busyCount + 1 }
        j _ hlim]
    simp [resolveTargets_nil]
  have hol : openLoop M env none speed
      ({ st with busyOwner := some tid, busyCount := st.busyCount + 1 } : ArmState σ).currentAbs
      ({ st with busyOwner := some tid, busyCount := st.busyCount + 1 } : ArmState σ).backlash
      [(j, st.currentAbs j + d)]
      ⟨({ st with busyOwner := some tid, busyCount := st.busyCount + 1 } : ArmState σ).mst,
       ({ st with busyOwner := some tid, busyCount := st.busyCount + 1 } : ArmState σ).lastDir,
       [], 1, 1⟩
      = ({ mst := setF st.mst j (M.run (st.mst j) rd speed),
           lastDir := setF st.lastDir j dir,
           log := [(j, rd, speed)], ks := 2, kt := 1 }, none) := by
    rw [openLoop_cons_quiet M env speed _ _ j (st.currentAbs j + d) [] _ dir rd
        (by simpa using hsm)
        (by simpa using hdir)
        (by
          simp only [add_sub_cancel_left]
          by_cases hl : dir = st.lastDir j
          · rw [hrd, if_pos hl]
            simp [hl]
          · rw [hrd, if_neg hl]
            simp [hdir0, hl])
        hck (hstops 1)]
    rw [openLoop_nil]
    rfl
  rw [move_eval_ok M env tid [(j, .num d)] speed none fin db st
      { st with busyOwner := some tid, busyCount := st.busyCount + 1 }
      "relative" "degrees" [(j, st.currentAbs j + d)]
      { mst := setF st.mst j (M.run (st.mst j) rd speed),
        lastDir := setF st.lastDir j dir,
        log := [(j, rd, speed)], ks := 2, kt := 1 }
      (Or.inl lowerStr_relative) (Or.inr lowerStr_degrees) hacq (hstops 0) hres hol]
  simp only [lowerStr_degrees, List.map_cons, List.map_nil, add_sub_cancel_left]

/-- Full evaluation of the drift run: the open-loop command reaches only
81°, the finalize pass reads the true position and issues one corrective
command of the 9° error — at speed `corrSpeed 10 = 20`, twice the commanded
speed — after which the re-read shows zero error. -/
theorem moveDriftRun_eq :
    moveDriftRun =
      ⟨{ stDrift with mst := setF stDrift.mst "A" (90, false),
                      currentAbs := setF stDrift.currentAbs "A" 90,
                      lastDir := setF stDrift.lastDir "A" 1 },
        [("A", 90, 10), ("A", 9, 20)],
        .ok { newAbs := setF stDrift.currentAbs "A" 90
              units := "degrees"
              commanded := [("A", .num 90)]
              convertedDegrees := [("A", 90)]
              speed := 10
              timeoutS := none
              elapsedS := 0
              finalErrorDeg := [("A", 0)]
              finalized := true
              finalizeDeadbandDeg := 1
              finalizeCorrections := [("A", 9)]
              timeout := false }⟩ := by
  have hcs : corrSpeed 10 = 20 := by decide
  rw [moveDriftRun,
      move_single_quiet_fin DriftDriver envZero 0 "A" 90 10 true 1 stDrift 1 90
        (fun _ => rfl) (by simp [jointNames]) rfl rfl
        (by norm_num)
        (by norm_num)
        (by norm_num [stDrift])
        (chunkList_of_abs_le 90 (by rw [abs_of_pos] <;> norm_num))]
  have hrun : DriftDriver.run (stDrift.mst "A") 90 10 = (81, false) := by
    norm_num [DriftDriver, stDrift]
  rw [finalizeLoop_cons DriftDriver true 1 10 "A" (stDrift.currentAbs "A" + 90) [] _
      ⟨(90, false), 90, 0, 9, [("A", 9, 20)]⟩
      (by
        have hs : (⟨setF stDrift.mst "A" (DriftDriver.run (stDrift.mst "A") 90 10),
            stDrift.currentAbs, [], [], [], []⟩ : FinSt (ℚ × Bool)).mst "A" = (81, false) := by
          rw [hrun]; simp [setF]
        rw [finalizeJoint_corr DriftDriver true 1 10 "A" (stDrift.currentAbs "A" + 90) _ 81
            (by rw [hs]; norm_num [DriftDriver, stDrift])
            (by norm_num [stDrift])]
        rw [hcs]
        norm_num [DriftDriver, stDrift]),
      finalizeLoop_nil]
  rw [show releaseBusy 0 { stDrift with
        busyOwner := some 0, busyCount := stDrift.busyCount + 1,
        mst := setF (setF stDrift.mst "A" (DriftDriver.run (stDrift.mst "A") 90 10)) "A"
          (90, false),
        currentAbs := setF stDrift.currentAbs "A" 90,
        lastDir := setF stDrift.lastDir "A" 1 } =
      { stDrift with
        mst := setF (setF stDrift.mst "A" (DriftDriver.run (stDrift.mst "A") 90 10)) "A"
          (90, false),
        currentAbs := setF stDrift.currentAbs "A" 90,
        lastDir := setF stDrift.lastDir "A" 1 } from by
    simp [releaseBusy, stDrift]]
  refine MoveOut.mk.injEq _ _ _ _ _ _ |>.mpr ⟨?_, by norm_num [stDrift], ?_⟩
  · rw [setF_setF]
  · norm_num [stDrift, envZero]

/-- C4 (counterexample): at commanded speed 10 the corrective nudge is
issued at speed 20 — `corrSpeed 10 = max(20, min(60, 10/2)) = 20` — which is
NOT a reduction of the commanded speed, refuting "at a reduced speed". -/
theorem finalize_corrSpeed_not_reduced_cex :
    moveDriftRun.log = [("A", 90, 10), ("A", 9, 20)] ∧
    (∃ s, moveDriftRun.res = .ok s ∧ s.speed = 10 ∧
      s.finalizeCorrections = [("A", 9)] ∧ s.finalErrorDeg = [("A", 0)]) ∧
    corrSpeed 10 = 20 ∧ ¬((20 : ℤ) ≤ 10) := by
  rw [moveDriftRun_eq]
  exact ⟨rfl, ⟨_, rfl, rfl, rfl, rfl⟩, by decide, by decide⟩

/-- C4 (amended): with `finalize` set, after the open-loop phase the actual
position is read from the driver (falling back to the computed target when
unreadable), `error = target - actual` is computed, and when `|error|`
exceeds the deadband exactly one corrective command of `error` degrees is
issued at speed `corrSpeed speed = max(20, min(60, max(1, speed // 2)))` —
a clamped half-speed that can exceed a small commanded speed — followed by
a re-read and error recompute; otherwise no corrective command is issued.
For the 10 %-undershooting, accurately-reporting driver, one corrective
nudge of a tenth of the commanded delta is issued and the final reported
error is exactly zero, within any deadband. -/
theorem finalize_one_correction {σ : Type} (M : Driver σ) (env : Env) (tid : ℕ)
    (j : String) (d : ℚ) (speed : ℤ) (fin : Bool) (db : ℚ) (st : ArmState σ)
    (dir : ℤ) (rd : ℚ) (a : ℚ)
    (hstops : ∀ k, env.stops k = false)
    (hj : j ∈ jointNames) (hfree : st.busyOwner = none)
    (hlim : st.limits j = none)
    (hsm : ¬ |d| < 1 / 1000000)
    (hdir : dir = if 0 < d then 1 else -1)
    (hrd : rd = if dir = st.lastDir j then d else d + st.backlash j * (dir : ℚ))
    (hck : chunkList rd = [rd])
    (ha : (M.readDeg (M.run (st.mst j) rd speed)).getD (st.currentAbs j + d) = a) :
    (¬(fin = true ∧ |st.currentAbs j + d - a| > db) →
      (move M env tid "relative" [(j, .num d)] speed "degrees" none fin db st).log
          = [(j, rd, speed)] ∧
      (move M env tid "relative" [(j, .num d)] speed "degrees" none fin db st).st.currentAbs j
          = a ∧
      ∀ s, (move M env tid "relative" [(j, .num d)] speed "degrees" none fin db st).res
          = .ok s →
        s.finalErrorDeg = [(j, st.currentAbs j + d - a)] ∧
        s.finalizeCorrections = [(j, 0)]) ∧
    (fin = true ∧ |st.currentAbs j + d - a| > db →
      (move M env tid "relative" [(j, .num d)] speed "degrees" none fin db st).log
          = [(j, rd, speed),
             (j, st.currentAbs j + d - a, corrSpeed speed)] ∧
      (move M env tid "relative" [(j, .num d)] speed "degrees" none fin db st).st.currentAbs j
          = (M.readDeg (M.run (M.run (st.mst j) rd speed)
              (st.currentAbs j + d - a) (corrSpeed speed))).getD a ∧
      ∀ s, (move M env tid "relative" [(j, .num d)] speed "degrees" none fin db st).res
          = .ok s →
        s.finalErrorDeg = [(j, st.currentAbs j + d
            - (M.readDeg (M.run (M.run (st.mst j) rd speed)
                (st.currentAbs j + d - a) (corrSpeed speed))).getD a)] ∧
        s.finalizeCorrections = [(j, st.currentAbs j + d - a)]) ∧
    (∀ t : ℚ, ¬ |t| < 1 / 1000000 → |t| ≤ 12000 → 0 ≤ db → db < |t| / 10 →
      (move DriftDriver envZero 0 "relative" [("A", .num t)] speed "degrees" none true db
          stDrift).log
        = [("A", t, speed), ("A", t / 10, corrSpeed speed)] ∧
      (move DriftDriver envZero 0 "relative" [("A", .num t)] speed "degrees" none true db
          stDrift).st.currentAbs "A" = t ∧
      ∀ s, (move DriftDriver envZero 0 "relative" [("A", .num t)] speed "degrees" none true
          db stDrift).res = .ok s → s.finalErrorDeg = [("A", 0)]) := by
  have hmv := move_single_quiet_fin M env tid j d speed fin db st dir rd
    hstops hj hfree hlim hsm hdir hrd hck
  have hsmem : (⟨setF st.mst j (M.run (st.mst j) rd speed), st.currentAbs,
      [], [], [], []⟩ : FinSt σ).mst j = M.run (st.mst j) rd speed := by
    simp [setF]
  refine ⟨?_, ?_, ?_⟩
  · intro hno
    rw [hmv, finalizeLoop_cons M fin db speed j (st.currentAbs j + d) [] _ _
        (finalizeJoint_within M fin db speed j (st.currentAbs j + d) _ a
          (by rw [hsmem, ha]) hno),
        finalizeLoop_nil]
    refine ⟨by simp, ?_, ?_⟩
    · show (releaseBusy tid _).currentAbs j = a
      rw [(releaseBusy_preserves tid _).2.1]
      simp
    · intro s hs
      simp only [Except.ok.injEq] at hs
      subst hs
      exact ⟨rfl, rfl⟩
  · intro hyes
    rw [hmv, finalizeLoop_cons M fin db speed j (st.currentAbs j + d) [] _ _
        (finalizeJoint_corr M fin db speed j (st.currentAbs j + d) _ a
          (by rw [hsmem, ha]) hyes),
        finalizeLoop_nil]
    rw [hsmem]
    refine ⟨by simp, ?_, ?_⟩
    · show (releaseBusy tid _).currentAbs j = _
      rw [(releaseBusy_preserves tid _).2.1]
      simp
    · intro s hs
      simp only [Except.ok.injEq] at hs
      subst hs
      exact ⟨rfl, rfl⟩
  · intro t hts htck hdb0 hdbt
    have hdrun : DriftDriver.run (stDrift.mst "A") t speed = (t * (9 / 10), false) := by
      norm_num [DriftDriver, stDrift]
    have herr : stDrift.currentAbs "A" + t - t * (9 / 10) = t / 10 := by
      show (0 : ℚ) + t - t * (9 / 10) = t / 10
      ring
    have hmvd := move_single_quiet_fin DriftDriver envZero 0 "A" t speed true db stDrift
      (if 0 < t then 1 else -1) t
      (fun _ => rfl) (by simp [jointNames]) rfl rfl hts rfl
      (by
        by_cases hl : (if 0 < t then (1 : ℤ) else -1) = stDrift.lastDir "A"
        · rw [if_pos hl]
        · rw [if_neg hl]
          norm_num [stDrift])
      (chunkList_of_abs_le t htck)
    have hsd : (⟨setF stDrift.mst "A" (DriftDriver.run (stDrift.mst "A") t speed),
        stDrift.currentAbs, [], [], [], []⟩ : FinSt (ℚ × Bool)).mst "A"
        = (t * (9 / 10), false) := by
      rw [hdrun]; simp [setF]
    rw [hmvd, finalizeLoop_cons DriftDriver true db speed "A" (stDrift.currentAbs "A" + t)
        [] _ _
        (finalizeJoint_corr DriftDriver true db speed "A" (stDrift.currentAbs "A" + t) _
          (t * (9 / 10)) (by rw [hsd]; rfl)
          (by
            refine ⟨rfl, ?_⟩
            rw [herr]
            calc db < |t| / 10 := hdbt
              _ = |t / 10| := by rw [abs_div]; norm_num)),
        finalizeLoop_nil]
    rw [hsd]
    have hdrun2 : DriftDriver.run (t * (9 / 10), false)
        (stDrift.currentAbs "A" + t - t * (9 / 10)) (corrSpeed speed) = (t, false) := by
      rw [herr]
      show ((t * (9 / 10) + t / 10, false) : ℚ × Bool) = (t, false)
      norm_num
      ring
    rw [hdrun2]
    refine ⟨by simp [herr], ?_, ?_⟩
    · simp only [releaseBusy_currentAbs]
      simp [DriftDriver]
    · intro s hs
      simp only [Except.ok.injEq] at hs
      subst hs
      show [("A", stDrift.currentAbs "A" + t
          - (DriftDriver.readDeg (t, false)).getD (t * (9 / 10)))] = [("A", 0)]
      simp [DriftDriver, stDrift]

/-- C4 witness: both branches of the amended theorem at concrete inputs —
the drift run at speed 10 and delta 90 takes the corrective branch. -/
theorem finalize_one_correction_witness :
    (move DriftDriver envZero 0 "relative" [("A", .num 90)] 10 "degrees" none true 1
        stDrift).log
      = [("A", 90, 10), ("A", (90 : ℚ) / 10, corrSpeed 10)] ∧
    (move DriftDriver envZero 0 "relative" [("A", .num 90)] 10 "degrees" none true 1
        stDrift).st.currentAbs "A" = 90 := by
  have h := finalize_one_correction DriftDriver envZero 0 "A" 90 10 true 1 stDrift 1 90 81
    (fun _ => rfl) (by simp [jointNames]) rfl rfl
    (by norm_num) (by norm_num) (by norm_num [stDrift])
    (chunkList_of_abs_le 90 (by rw [abs_of_pos] <;> norm_num))
    (by norm_num [DriftDriver, stDrift, setF])
  have h3 := h.2.2 90 (by norm_num) (by norm_num) (by norm_num) (by norm_num)
  exact ⟨h3.1, h3.2.1⟩

/-! ### C6/C7: calibration finalization and soft-limit clamping -/

/-- Required named points per joint in `ArmController.finalize_calibration`,
in the dict's insertion order A, B, C, D.  Each joint's set is written in
ascending string order, so filtering it for absent names yields exactly
Python's `sorted(missing)`. -/
def requiredPoints : List (String × List String) :=
  [("A", ["closed", "open"]),
   ("B", ["max", "min", "pick"]),
   ("C", ["max", "min", "pick"]),
   ("D", ["assembly", "neutral", "quality"])]

/-- The members of `names` not recorded among joint `j`'s named points. -/
def missingFor {σ : Type} (st : ArmState σ) (j : String) (names : List String) :
    List String :=
  names.filter (fun n => (st.points j n).isNone)

/-- First joint (in list order) with missing required points, with its
missing names — the joint whose `ValueError` the required-points loop
raises. -/
def firstMissing {σ : Type} (st : ArmState σ) :
    List (String × List String) → Option (String × List String)
  | [] => none
  | (j, ns) :: rest =>
    let m := missingFor st j ns
    if m = [] then firstMissing st rest else some (j, m)

/-- The limits table derived by `finalize_calibration` from the recorded
points: A from `open`/`closed`, B and C from `min`/`max` only, D from its
three points; the whole table is replaced, so every other key reads `None`.
Lookups use `getD 0`; the fallback is unreachable after the presence
check. -/
def limsOf (pts : String → String → Option ℚ) : String → Option (ℚ × ℚ) :=
  fun j =>
    if j = "A" then
      some (min ((pts "A" "open").getD 0) ((pts "A" "closed").getD 0),
            max ((pts "A" "open").getD 0) ((pts "A" "closed").getD 0))
    else if j = "B" then
      some (min ((pts "B" "min").getD 0) ((pts "B" "max").getD 0),
            max ((pts "B" "min").getD 0) ((pts "B" "max").getD 0))
    else if j = "C" then
      some (min ((pts "C" "min").getD 0) ((pts "C" "max").getD 0),
            max ((pts "C" "min").getD 0) ((pts "C" "max").getD 0))
    else if j = "D" then
      some (min ((pts "D" "assembly").getD 0)
              (min ((pts "D" "neutral").getD 0) ((pts "D" "quality").getD 0)),
            max ((pts "D" "assembly").getD 0)
              (max ((pts "D" "neutral").getD 0) ((pts "D" "quality").getD 0)))
    else none

/-- The home pose derived by `finalize_calibration`:
`A:open, B:min, C:max, D:neutral`, in the dict's insertion order. -/
def homeOf (pts : String → String → Option ℚ) : List (String × JointVal) :=
  [("A", .num ((pts "A" "open").getD 0)), ("B", .num ((pts "B" "min").getD 0)),
   ("C", .num ((pts "C" "max").getD 0)), ("D", .num ((pts "D" "neutral").getD 0))]

/-- Result of `finalize_calibration`: the controller state, the motor
commands issued by the home move, and success or the raised error (the
Python return dict only repackages state fields). -/
structure CalOut (σ : Type) where
  st : ArmState σ
  log : List Cmd
  res : Except MoveErr Unit

/-- Shallow embedding of `ArmController.finalize_calibration` for execution
context `tid`: acquire the busy-lock (`Busy` on contention); scan the
required points joint by joint, raising `Missing points for joint j: ...`
for the first deficient joint (names in ascending order); derive the soft
limits — A from `open`/`closed`, B and C from `min`/`max` only, D from all
three points — replacing the whole limits table; set `calibrated`; then
move to the home pose `A:open, B:min, C:max, D:neutral` at speed 40 with
the default move options; release the lock on every exit path.  Point
lookups after the presence check use `getD 0`; the fallback is unreachable
there. -/
def finalizeCalibration {σ : Type} (M : Driver σ) (env : Env) (tid : ℕ)
    (st : ArmState σ) : CalOut σ :=
  match acquireBusy tid st with
  | (_, false) => ⟨st, [], .error .busy⟩
  | (st1, true) =>
    match firstMissing st1 requiredPoints with
    | some (j, m) => ⟨releaseBusy tid st1, [], .error (.missingPoints j m)⟩
    | none =>
      let st2 := { st1 with limits := limsOf st1.points, calibrated := true }
      let out := move M env tid "absolute" (homeOf st1.points) 40 "degrees" none true 2 st2
      ⟨releaseBusy tid out.st, out.log, Except.map (fun _ => ()) out.res⟩

/-- The error reported by the required-points scan names a joint of the
scanned list and carries exactly that joint's missing names (in
particular a non-empty list): deficiencies of later joints are not
reported. -/
theorem firstMissing_some {σ : Type} (st : ArmState σ) :
    ∀ (l : List (String × List String)) (j : String) (m : List String),
      firstMissing st l = some (j, m) →
      ∃ ns, (j, ns) ∈ l ∧ m = missingFor st j ns ∧ m ≠ [] := by
  intro l
  induction l with
  | nil => intro j m h; exact Option.noConfusion h
  | cons q rest ih =>
    rcases q with ⟨j0, ns0⟩
    intro j m h
    simp only [firstMissing] at h
    by_cases h0 : missingFor st j0 ns0 = []
    · rw [if_pos h0] at h
      rcases ih j m h with ⟨ns, hmem, hm, hne⟩
      exact ⟨ns, List.mem_cons_of_mem _ hmem, hm, hne⟩
    · rw [if_neg h0] at h
      have h' := Option.some.inj h
      have hj1 : j0 = j := congrArg Prod.fst h'
      have hj2 : missingFor st j0 ns0 = m := congrArg Prod.snd h'
      subst hj1
      exact ⟨ns0, List.mem_cons_self _ _, hj2.symm, hj2 ▸ h0⟩

/-- `move` never touches the named points, the soft limits or the
calibration flag, on any path. -/
theorem move_preserves_static {σ : Type} (M : Driver σ) (env : Env) (tid : ℕ)
    (mode : String) (joints : List (String × JointVal)) (speed : ℤ)
    (units : String) (timeoutS : Option ℚ) (fin : Bool) (deadband : ℚ)
    (st : ArmState σ) :
    (move M env tid mode joints speed units timeoutS fin deadband st).st.points
        = st.points ∧
    (move M env tid mode joints speed units timeoutS fin deadband st).st.limits
        = st.limits ∧
    (move M env tid mode joints speed units timeoutS fin deadband st).st.calibrated
        = st.calibrated := by
  simp only [move]
  by_cases h1 : ¬(lowerStr mode = "relative" ∨ lowerStr mode = "absolute")
  · simp only [if_pos h1]
    simp
  · simp only [if_neg h1]
    by_cases h2 : ¬(lowerStr units = "rotations" ∨ lowerStr units = "degrees")
    · simp only [if_pos h2]
      simp
    · simp only [if_neg h2]
      rcases hacq : acquireBusy tid st with ⟨st1, b⟩
      have hpres := acquireBusy_preserves tid st
      rw [hacq] at hpres
      cases b
      · simp
      · have hrel : ∀ s : ArmState σ, (releaseBusy tid s).points = s.points ∧
            (releaseBusy tid s).limits = s.limits ∧
            (releaseBusy tid s).calibrated = s.calibrated := by
          intro s
          exact ⟨(releaseBusy_preserves tid s).2.2.2.1,
                 (releaseBusy_preserves tid s).2.2.2.2.1,
                 (releaseBusy_preserves tid s).2.2.2.2.2.2.2⟩
        by_cases hs : env.stops 0
        · simp only [hs, if_true]
          exact ⟨by rw [(hrel st1).1, hpres.2.2.2.1],
                 by rw [(hrel st1).2.1, hpres.2.2.2.2.1],
                 by rw [(hrel st1).2.2, hpres.2.2.2.2.2.2.2]⟩
        · simp only [hs, Bool.false_eq_true, if_false]
          rcases hres : resolveTargets st1 (lowerStr mode) (lowerStr units) joints
            with er | targets
          · simp only [hres]
            exact ⟨by rw [(hrel st1).1, hpres.2.2.2.1],
                   by rw [(hrel st1).2.1, hpres.2.2.2.2.1],
                   by rw [(hrel st1).2.2, hpres.2.2.2.2.2.2.2]⟩
          · simp only [hres]
            rcases hol : openLoop M env (Option.map (fun t => env.times 0 + t) timeoutS)
                speed st1.currentAbs st1.backlash targets
                ⟨st1.mst, st1.lastDir, [], 1, 1⟩ with ⟨rs, oe⟩
            cases oe with
            | some e2 =>
              simp only [hol]
              exact ⟨by rw [(hrel _).1, hpres.2.2.2.1],
                     by rw [(hrel _).2.1, hpres.2.2.2.2.1],
                     by rw [(hrel _).2.2, hpres.2.2.2.2.2.2.2]⟩
            | none =>
              simp only [hol]
              exact ⟨by rw [(hrel _).1, hpres.2.2.2.1],
                     by rw [(hrel _).2.1, hpres.2.2.2.2.1],
                     by rw [(hrel _).2.2, hpres.2.2.2.2.2.2.2]⟩

/-- Resolution of an all-numeric absolute-degrees request over the four
joints: each value is clamped to the joint's soft limits. -/
theorem resolveTargets_home {σ : Type} (st : ArmState σ) (a b c d : ℚ) :
    resolveTargets st "absolute" "degrees"
      [("A", .num a), ("B", .num b), ("C", .num c), ("D", .num d)]
      = .ok [("A", clamp st "A" a), ("B", clamp st "B" b),
             ("C", clamp st "C" c), ("D", clamp st "D" d)] := by
  rw [resolveTargets_cons_num st _ _ _ _ _ (by simp [jointNames]),
      resolveTargets_cons_num st _ _ _ _ _ (by simp [jointNames]),
      resolveTargets_cons_num st _ _ _ _ _ (by simp [jointNames]),
      resolveTargets_cons_num st _ _ _ _ _ (by simp [jointNames]),
      resolveTargets_nil]
  simp

/-- Every joint whose target matches its current position (below the dead
zone) is skipped by the open-loop phase. -/
theorem openLoop_skip_all {σ : Type} (M : Driver σ) (env : Env) (dl : Option ℚ)
    (speed : ℤ) (sp bl : String → ℚ) :
    ∀ (ts : List (String × ℚ)) (rs : RunSt σ),
      (∀ p ∈ ts, |p.2 - sp p.1| < 1 / 1000000) →
      openLoop M env dl speed sp bl ts rs = (rs, none) := by
  intro ts
  induction ts with
  | nil => intro rs _; rfl
  | cons q rest ih =>
    intro rs h
    rcases q with ⟨j, t⟩
    rw [openLoop_cons_skip M env dl speed sp bl j t rest rs
        (h (j, t) (List.mem_cons_self _ _))]
    exact ih rs (fun p hp => h p (List.mem_cons_of_mem _ hp))

/-- The finalize loop against an unreadable encoder: every joint falls back
to its computed target, all errors and corrections are zero, and no
corrective command is issued (sane deadband). -/
theorem finalizeLoop_read_none {σ : Type} (M : Driver σ) (fin : Bool) (db : ℚ)
    (speed : ℤ) (hread : ∀ s, M.readDeg s = none) (hdb : 0 ≤ db) :
    ∀ (ts : List (String × ℚ)) (fs : FinSt σ),
      finalizeLoop M fin db speed ts fs =
        { mst := fs.mst
          currentAbs := ts.foldl (fun f p => setF f p.1 p.2) fs.currentAbs
          finalPositions := fs.finalPositions ++ ts
          finalErrors := fs.finalErrors ++ ts.map (fun p => (p.1, 0))
          corrections := fs.corrections ++ ts.map (fun p => (p.1, 0))
          log := fs.log } := by
  intro ts
  induction ts with
  | nil =>
    intro fs
    rw [finalizeLoop_nil]
    simp
  | cons q rest ih =>
    intro fs
    rcases q with ⟨j, t⟩
    rw [finalizeLoop_cons M fin db speed j t rest fs _
        (finalizeJoint_within M fin db speed j t _ t (by rw [hread]; rfl)
          (by rintro ⟨-, hgt⟩; rw [sub_self] at hgt; simp at hgt; linarith))]
    rw [ih]
    have hmst : setF fs.mst j (fs.mst j) = fs.mst := by
      funext k; by_cases hk : k = j <;> simp [setF, hk]
    simp [hmst, sub_self]

/-- A quiet absolute-degrees `move` whose targets all match the current
positions, against an unreadable encoder: nothing is commanded, and the
position estimates are refreshed to the (clamped) targets. -/
theorem move_skip_all {σ : Type} (M : Driver σ) (env : Env) (tid : ℕ)
    (joints : List (String × JointVal)) (speed : ℤ) (fin : Bool) (db : ℚ)
    (st st1 : ArmState σ) (targets : List (String × ℚ))
    (hacq : acquireBusy tid st = (st1, true))
    (hstop : env.stops 0 = false)
    (hres : resolveTargets st1 "absolute" "degrees" joints = .ok targets)
    (hskip : ∀ p ∈ targets, |p.2 - st1.currentAbs p.1| < 1 / 1000000)
    (hread : ∀ s, M.readDeg s = none) (hdb : 0 ≤ db) :
    move M env tid "absolute" joints speed "degrees" none fin db st =
      ⟨releaseBusy tid
         { st1 with currentAbs := targets.foldl (fun f p => setF f p.1 p.2) st1.currentAbs },
       [],
       .ok { newAbs := targets.foldl (fun f p => setF f p.1 p.2) st1.currentAbs
             units := "degrees"
             commanded := joints
             convertedDegrees := targets.map (fun p => (p.1, p.2 - st1.currentAbs p.1))
             speed := speed
             timeoutS := none
             elapsedS := env.times 1 - env.times 0
             finalErrorDeg := targets.map (fun p => (p.1, 0))
             finalized := fin
             finalizeDeadbandDeg := db
             finalizeCorrections := targets.map (fun p => (p.1, 0))
             timeout := false }⟩ := by
  have hol : openLoop M env none speed st1.currentAbs st1.backlash targets
      ⟨st1.mst, st1.lastDir, [], 1, 1⟩
      = (⟨st1.mst, st1.lastDir, [], 1, 1⟩, none) :=
    openLoop_skip_all M env none speed st1.currentAbs st1.backlash targets _ hskip
  rw [move_eval_ok M env tid joints speed none fin db st st1 "absolute" "degrees"
      targets ⟨st1.mst, st1.lastDir, [], 1, 1⟩ (Or.inr lowerStr_absolute)
      (Or.inr lowerStr_degrees) hacq hstop
      (by rw [lowerStr_absolute, lowerStr_degrees]; exact hres) hol]
  rw [finalizeLoop_read_none M fin db speed hread hdb targets _]
  simp only [lowerStr_degrees, List.nil_append, List.append_nil]

/-- The required-points scan reads only the named points. -/
theorem firstMissing_congr {σ σ' : Type} (st : ArmState σ) (st' : ArmState σ')
    (h : st.points = st'.points) :
    ∀ l, firstMissing st l = firstMissing st' l := by
  intro l
  induction l with
  | nil => rfl
  | cons q rest ih =>
    rcases q with ⟨j, ns⟩
    simp only [firstMissing, missingFor, h, ih]

/-- A value already between the limits is left unchanged by clamping. -/
theorem clamp_of_mem (lo hi v : ℚ) (h1 : lo ≤ v) (h2 : v ≤ hi) :
    max lo (min hi v) = v := by
  rw [min_eq_right h2, max_eq_right h1]

/-- Releasing twice from nesting depth two frees the lock. -/
theorem releaseBusy_twice {σ : Type} (tid : ℕ) (s : ArmState σ)
    (ho : s.busyOwner = some tid) (hc : s.busyCount = 2) :
    releaseBusy tid (releaseBusy tid s) =
      { s with busyOwner := none, busyCount := 0 } := by
  simp [releaseBusy, ho, hc]

/-- Evaluation of a successful `finalize_calibration` from a state already
resting at the derived home pose (each home joint at its home point): the
limits are derived, `calibrated` is set, the home move is an all-skip
no-op, and the lock returns to free. -/
theorem finalizeCalibration_at_home {σ : Type} (M : Driver σ) (env : Env) (tid : ℕ)
    (st : ArmState σ)
    (hstops0 : env.stops 0 = false)
    (hfm : firstMissing st requiredPoints = none)
    (hfree : st.busyOwner = none) (hcnt : st.busyCount = 0)
    (hread : ∀ s, M.readDeg s = none)
    (hA : st.currentAbs "A" = (st.points "A" "open").getD 0)
    (hB : st.currentAbs "B" = (st.points "B" "min").getD 0)
    (hC : st.currentAbs "C" = (st.points "C" "max").getD 0)
    (hD : st.currentAbs "D" = (st.points "D" "neutral").getD 0) :
    (finalizeCalibration M env tid st).res = .ok () ∧
    (finalizeCalibration M env tid st).log = [] ∧
    (finalizeCalibration M env tid st).st.calibrated = true ∧
    (finalizeCalibration M env tid st).st.points = st.points ∧
    (finalizeCalibration M env tid st).st.currentAbs = st.currentAbs ∧
    (finalizeCalibration M env tid st).st.busyOwner = none ∧
    (finalizeCalibration M env tid st).st.limits = limsOf st.points := by
  have hacq : acquireBusy tid st =
      ({ st with busyOwner := some tid, busyCount := st.busyCount + 1 }, true) :=
    acquireBusy_succeeds tid st (Or.inl hfree)
  have hfm1 : firstMissing { st with busyOwner := some tid, busyCount := st.busyCount + 1 }
      requiredPoints = none :=
    (firstMissing_congr _ st rfl requiredPoints).trans hfm
  have hacq2 : acquireBusy tid
      ({ st with busyOwner := some tid, busyCount := st.busyCount + 1,
                 limits := limsOf st.points, calibrated := true } : ArmState σ) =
      ({ st with busyOwner := some tid, busyCount := st.busyCount + 1 + 1,
                 limits := limsOf st.points, calibrated := true }, true) := by
    simp [acquireBusy]
  have hres : resolveTargets
      ({ st with busyOwner := some tid, busyCount := st.busyCount + 1 + 1,
                 limits := limsOf st.points, calibrated := true } : ArmState σ)
      "absolute" "degrees" (homeOf st.points)
      = .ok [("A", (st.points "A" "open").getD 0),
             ("B", (st.points "B" "min").getD 0),
             ("C", (st.points "C" "max").getD 0),
             ("D", (st.points "D" "neutral").getD 0)] := by
    rw [show homeOf st.points =
        [("A", .num ((st.points "A" "open").getD 0)),
         ("B", .num ((st.points "B" "min").getD 0)),
         ("C", .num ((st.points "C" "max").getD 0)),
         ("D", .num ((st.points "D" "neutral").getD 0))] from rfl]
    rw [resolveTargets_home]
    rw [clamp_some _ "A" _ _ _ rfl, clamp_some _ "B" _ _ _ rfl,
        clamp_some _ "C" _ _ _ rfl, clamp_some _ "D" _ _ _ rfl]
    rw [clamp_of_mem _ _ _ (min_le_left _ _) (le_max_left _ _),
        clamp_of_mem _ _ _ (min_le_left _ _) (le_max_left _ _),
        clamp_of_mem _ _ _ (min_le_right _ _) (le_max_right _ _),
        clamp_of_mem _ _ _
          ((min_le_right _ _).trans (min_le_left _ _))
          ((le_max_left _ _).trans (le_max_right _ _))]
  have hskip : ∀ p ∈ [("A", (st.points "A" "open").getD 0),
       ("B", (st.points "B" "min").getD 0),
       ("C", (st.points "C" "max").getD 0),
       ("D", (st.points "D" "neutral").getD 0)],
      |p.2 - st.currentAbs p.1| < 1 / 1000000 := by
    intro p hp
    simp only [List.mem_cons, List.not_mem_nil, or_false] at hp
    rcases hp with h | h | h | h <;> subst h
    · show |(st.points "A" "open").getD 0 - st.currentAbs "A"| < 1 / 1000000
      rw [hA]; norm_num
    · show |(st.points "B" "min").getD 0 - st.currentAbs "B"| < 1 / 1000000
      rw [hB]; norm_num
    · show |(st.points "C" "max").getD 0 - st.currentAbs "C"| < 1 / 1000000
      rw [hC]; norm_num
    · show |(st.points "D" "neutral").getD 0 - st.currentAbs "D"| < 1 / 1000000
      rw [hD]; norm_num
  have hmv := move_skip_all M env tid (homeOf st.points) 40 true 2
    ({ st with busyOwner := some tid, busyCount := st.busyCount + 1,
               limits := limsOf st.points, calibrated := true } : ArmState σ)
    ({ st with busyOwner := some tid, busyCount := st.busyCount + 1 + 1,
               limits := limsOf st.points, calibrated := true } : ArmState σ)
    [("A", (st.points "A" "open").getD 0),
     ("B", (st.points "B" "min").getD 0),
     ("C", (st.points "C" "max").getD 0),
     ("D", (st.points "D" "neutral").getD 0)]
    hacq2 hstops0 hres hskip hread (by norm_num)
  have hca : ([("A", (st.points "A" "open").getD 0),
       ("B", (st.points "B" "min").getD 0),
       ("C", (st.points "C" "max").getD 0),
       ("D", (st.points "D" "neutral").getD 0)].foldl
        (fun f p => setF f p.1 p.2) st.currentAbs)
      = st.currentAbs := by
    simp only [List.foldl]
    funext k
    by_cases hk4 : k = "D"
    · subst hk4; rw [setF_same, hD]
    · rw [setF_other _ _ _ _ hk4]
      by_cases hk3 : k = "C"
      · subst hk3; rw [setF_same, hC]
      · rw [setF_other _ _ _ _ hk3]
        by_cases hk2 : k = "B"
        · subst hk2; rw [setF_same, hB]
        · rw [setF_other _ _ _ _ hk2]
          by_cases hk1 : k = "A"
          · subst hk1; rw [setF_same, hA]
          · rw [setF_other _ _ _ _ hk1]
  rw [hca] at hmv
  have hout : finalizeCalibration M env tid st =
      ⟨releaseBusy tid (move M env tid "absolute" (homeOf st.points) 40 "degrees" none
          true 2
          ({ st with busyOwner := some tid, busyCount := st.busyCount + 1,
                     limits := limsOf st.points, calibrated := true } : ArmState σ)).st,
       (move M env tid "absolute" (homeOf st.points) 40 "degrees" none true 2
          ({ st with busyOwner := some tid, busyCount := st.busyCount + 1,
                     limits := limsOf st.points, calibrated := true } : ArmState σ)).log,
       Except.map (fun _ => ())
         (move M env tid "absolute" (homeOf st.points) 40 "degrees" none true 2
          ({ st with busyOwner := some tid, busyCount := st.busyCount + 1,
                     limits := limsOf st.points, calibrated := true } : ArmState σ)).res⟩ := by
    simp only [finalizeCalibration, hacq, hfm1]
  rw [hout, hmv]
  have hrel2 := releaseBusy_twice tid
    ({ st with busyOwner := some tid, busyCount := st.busyCount + 1 + 1,
               limits := limsOf st.points, calibrated := true,
               currentAbs := st.currentAbs } : ArmState σ)
    rfl (by simp [hcnt])
  rw [show releaseBusy tid
      (releaseBusy tid
        ({ st with busyOwner := some tid, busyCount := st.busyCount + 1 + 1,
                   limits := limsOf st.points, calibrated := true,
                   currentAbs := st.currentAbs } : ArmState σ)) =
      ({ st with busyOwner := none, busyCount := 0,
                 limits := limsOf st.points, calibrated := true,
                 currentAbs := st.currentAbs } : ArmState σ) from hrel2]
  exact ⟨rfl, rfl, rfl, rfl, rfl, rfl, rfl⟩

/-- Jog a joint to `v` (as the calibration UI does between captures) and
record the named point there; the error branch is unreachable for the four
real joints. -/
def recAt (st : ArmState Unit) (j : String) (v : ℚ) (name : String) : ArmState Unit :=
  match recordNamedPoint { st with currentAbs := setF st.currentAbs j v } j name with
  | .ok st2 => st2
  | .error _ => st

/-- A fully calibratable state: every required point recorded, ending with
each joint resting at its home point (A at `open` = 20, B at `min` = 0,
C at `max` = 60, D at `neutral` = 0); A's travel is recorded as
`open` = 20, `closed` = -10. -/
def stCal : ArmState Unit :=
  recAt (recAt (recAt (recAt (recAt (recAt (recAt (recAt (recAt (recAt (recAt stFree
    "A" (-10) "closed") "A" 20 "open")
    "B" 10 "pick") "B" 50 "max") "B" 0 "min")
    "C" 0 "min") "C" 25 "pick") "C" 60 "max")
    "D" (-30) "assembly") "D" 30 "quality") "D" 0 "neutral"

/-- Like `stCal`, but joint B's `pick` point is recorded at 100 — outside
the `min`/`max` travel the limits are derived from. -/
def stCal6 : ArmState Unit :=
  recAt (recAt (recAt (recAt (recAt (recAt (recAt (recAt (recAt (recAt (recAt stFree
    "A" (-10) "closed") "A" 20 "open")
    "B" 100 "pick") "B" 50 "max") "B" 0 "min")
    "C" 0 "min") "C" 25 "pick") "C" 60 "max")
    "D" (-30) "assembly") "D" 30 "quality") "D" 0 "neutral"

/-- A deficient calibration state: joint A complete, joint B missing only
`max`, joints C and D missing everything. -/
def stMiss : ArmState Unit :=
  recAt (recAt (recAt (recAt stFree "A" (-10) "closed") "A" 20 "open")
    "B" 10 "pick") "B" 0 "min"

/-- C7: every resolved move target is clamped to the joint's soft limits
when defined (`max lo (min hi v)`) and passed through unchanged when the
limits are `None`; concretely, recording `A:open = 20` and `A:closed = -10`
(plus the other joints' required points) and finalizing derives soft limit
`(-10, 20)` for joint A, and a subsequent absolute move of A to 50 is
clamped to 20 — the arm ends at 20°. -/
theorem move_targets_clamped {σ : Type} (st : ArmState σ) (j : String) (v : ℚ)
    (hj : j ∈ jointNames) :
    (∀ lo hi, st.limits j = some (lo, hi) →
      resolveTargets st "absolute" "degrees" [(j, .num v)]
        = .ok [(j, max lo (min hi v))]) ∧
    (st.limits j = none →
      resolveTargets st "absolute" "degrees" [(j, .num v)] = .ok [(j, v)]) ∧
    ((finalizeCalibration UnitDriver envZero 0 stCal).st.limits "A" = some (-10, 20) ∧
     (finalizeCalibration UnitDriver envZero 0 stCal).res = .ok () ∧
     (move UnitDriver envZero 0 "absolute" [("A", .num 50)] 60 "degrees" none true 2
        (finalizeCalibration UnitDriver envZero 0 stCal).st).st.currentAbs "A" = 20) := by
  have h := finalizeCalibration_at_home UnitDriver envZero 0 stCal rfl rfl rfl rfl
    (fun _ => rfl) rfl rfl rfl rfl
  refine ⟨?_, ?_, ?_, h.1, ?_⟩
  · intro lo hi hl
    rw [resolveTargets_cons_num st _ _ _ _ _ hj, resolveTargets_nil,
        clamp_some st j _ lo hi hl]
    simp
  · intro hl
    rw [resolveTargets_cons_num st _ _ _ _ _ hj, resolveTargets_nil,
        clamp_none st j _ hl]
    simp
  · rw [h.2.2.2.2.2.2]
    show some (min (20 : ℚ) (-10), max (20 : ℚ) (-10)) = some (-10, 20)
    norm_num
  · have hl : ({ (finalizeCalibration UnitDriver envZero 0 stCal).st with
        busyOwner := some 0,
        busyCount := (finalizeCalibration UnitDriver envZero 0 stCal).st.busyCount + 1 }
          : ArmState Unit).limits "A" = some (-10, 20) := by
      show (finalizeCalibration UnitDriver envZero 0 stCal).st.limits "A" = some (-10, 20)
      rw [h.2.2.2.2.2.2]
      show some (min (20 : ℚ) (-10), max (20 : ℚ) (-10)) = some (-10, 20)
      norm_num
    have hres : resolveTargets
        ({ (finalizeCalibration UnitDriver envZero 0 stCal).st with
           busyOwner := some 0,
           busyCount := (finalizeCalibration UnitDriver envZero 0 stCal).st.busyCount + 1 }
             : ArmState Unit)
        "absolute" "degrees" [("A", .num 50)] = .ok [("A", 20)] := by
      rw [resolveTargets_cons_num _ _ _ _ _ _ (by simp [jointNames]), resolveTargets_nil,
          clamp_some _ "A" _ _ _ hl]
      simp
      norm_num [min_def, max_def]
    have hskip : ∀ p ∈ [(("A" : String), (20 : ℚ))],
        |p.2 - ({ (finalizeCalibration UnitDriver envZero 0 stCal).st with
           busyOwner := some 0,
           busyCount := (finalizeCalibration UnitDriver envZero 0 stCal).st.busyCount + 1 }
             : ArmState Unit).currentAbs p.1| < 1 / 1000000 := by
      intro p hp
      simp only [List.mem_cons, List.not_mem_nil, or_false] at hp
      subst hp
      show |(20 : ℚ) - (finalizeCalibration UnitDriver envZero 0 stCal).st.currentAbs "A"|
        < 1 / 1000000
      rw [h.2.2.2.2.1]
      norm_num [show stCal.currentAbs "A" = (20 : ℚ) from rfl]
    rw [move_skip_all UnitDriver envZero 0 [("A", .num 50)] 60 true 2
        (finalizeCalibration UnitDriver envZero 0 stCal).st
        ({ (finalizeCalibration UnitDriver envZero 0 stCal).st with
           busyOwner := some 0,
           busyCount := (finalizeCalibration UnitDriver envZero 0 stCal).st.busyCount + 1 }
             : ArmState Unit)
        [("A", 20)]
        (acquireBusy_succeeds 0 _ (Or.inl h.2.2.2.2.2.1)) rfl hres hskip
        (fun _ => rfl) (by norm_num)]
    rw [releaseBusy_currentAbs]
    simp [setF]

/-- C7 witness: the clamped and unclamped resolution branches at concrete
states, and the calibrated arm ending at 20° after the absolute request
of 50°. -/
theorem move_targets_clamped_witness :
    (resolveTargets { stFree with limits := fun _ => some (-10, 20) }
        "absolute" "degrees" [("A", .num 50)] = .ok [("A", max (-10) (min 20 50))]) ∧
    (resolveTargets stFree "absolute" "degrees" [("A", .num 50)] = .ok [("A", 50)]) ∧
    (move UnitDriver envZero 0 "absolute" [("A", .num 50)] 60 "degrees" none true 2
        (finalizeCalibration UnitDriver envZero 0 stCal).st).st.currentAbs "A" = 20 := by
  have h1 := move_targets_clamped { stFree with limits := fun _ => some (-10, 20) }
    "A" 50 (by simp [jointNames])
  have h2 := move_targets_clamped stFree "A" 50 (by simp [jointNames])
  exact ⟨h1.1 (-10) 20 rfl, h2.2.1 rfl, h1.2.2.2.2⟩

/-- An all-numeric request over known joints always resolves. -/
theorem resolveTargets_nums_ok {σ : Type} (st : ArmState σ) (mode units : String) :
    ∀ joints : List (String × JointVal),
      (∀ p ∈ joints, p.1 ∈ jointNames ∧ ∃ v, p.2 = JointVal.num v) →
      ∃ ts, resolveTargets st mode units joints = .ok ts := by
  intro joints
  induction joints with
  | nil => intro _; exact ⟨[], resolveTargets_nil st mode units⟩
  | cons q rest ih =>
    intro h
    rcases q with ⟨j, raw⟩
    rcases h (j, raw) (List.mem_cons_self _ _) with ⟨hj, v, hv⟩
    simp only at hv
    subst hv
    obtain ⟨ts, hts⟩ := ih (fun p hp => h p (List.mem_cons_of_mem _ hp))
    rw [resolveTargets_cons_num st mode units j v rest hj, hts]
    exact ⟨_, rfl⟩

/-- Under a quiet environment, an all-numeric absolute-degrees request over
known joints completes with a summary. -/
theorem move_nums_ok {σ : Type} (M : Driver σ) (env : Env) (tid : ℕ)
    (joints : List (String × JointVal)) (speed : ℤ) (fin : Bool) (db : ℚ)
    (st st1 : ArmState σ)
    (hacq : acquireBusy tid st = (st1, true))
    (hstops : ∀ k, env.stops k = false)
    (hnums : ∀ p ∈ joints, p.1 ∈ jointNames ∧ ∃ v, p.2 = JointVal.num v) :
    ∃ s, (move M env tid "absolute" joints speed "degrees" none fin db st).res
      = .ok s := by
  obtain ⟨ts, hres⟩ := resolveTargets_nums_ok st1 "absolute" "degrees" joints hnums
  obtain ⟨rs2, hol⟩ := openLoop_quiet_isOk M env speed st1.currentAbs st1.backlash
    hstops ts ⟨st1.mst, st1.lastDir, [], 1, 1⟩
  exact ⟨_, by
    rw [move_eval_ok M env tid joints speed none fin db st st1 "absolute" "degrees" ts rs2
      (Or.inr lowerStr_absolute) (Or.inr lowerStr_degrees) hacq (hstops 0)
      (by rw [lowerStr_absolute, lowerStr_degrees]; exact hres) hol]⟩

/-- C6 (counterexample): the missing-points error reports ONLY the first
deficient joint — `stMiss` has joint B missing `max` and joints C and D
missing everything, yet the error names just B's `max` — and a successful
finalize derives joint limits from the designated subsets only, so B's
recorded `pick` point at 100 lies outside the derived limits (0, 50),
refuting "every previously recorded named point lies within [lo, hi]".
The failed finalize does leave all calibration state unchanged. -/
theorem finalizeCalibration_first_deficient_cex :
    (finalizeCalibration UnitDriver envZero 0 stMiss).res
        = .error (.missingPoints "B" ["max"]) ∧
    missingFor stMiss "C" ["max", "min", "pick"] = ["max", "min", "pick"] ∧
    (finalizeCalibration UnitDriver envZero 0 stMiss).st.calibrated = false ∧
    (finalizeCalibration UnitDriver envZero 0 stMiss).st.points = stMiss.points ∧
    (finalizeCalibration UnitDriver envZero 0 stMiss).st.limits = stMiss.limits ∧
    (finalizeCalibration UnitDriver envZero 0 stCal6).res = .ok () ∧
    (finalizeCalibration UnitDriver envZero 0 stCal6).st.limits "B" = some (0, 50) ∧
    stCal6.points "B" "pick" = some 100 ∧
    (finalizeCalibration UnitDriver envZero 0 stCal6).st.points "B" "pick" = some 100 ∧
    ¬((100 : ℚ) ≤ 50) := by
  have h := finalizeCalibration_at_home UnitDriver envZero 0 stCal6 rfl rfl rfl rfl
    (fun _ => rfl) rfl rfl rfl rfl
  refine ⟨rfl, rfl, rfl, rfl, rfl, h.1, ?_, rfl, ?_, by norm_num⟩
  · rw [h.2.2.2.2.2.2]
    show some (min (0 : ℚ) 50, max (0 : ℚ) 50) = some (0, 50)
    norm_num
  · rw [h.2.2.2.1]
    rfl

/-- C6 (amended): `finalizeCalibration` fails whenever a required point is
absent, with an error listing exactly the missing required point names of
the FIRST deficient joint in the scan order A, B, C, D (in ascending name
order; later joints' deficiencies are not listed), and such a failure
leaves `calibrated`, the points, the limits and the position estimates
unchanged; when all required points are present it succeeds (given a quiet
environment for the home move), sets `calibrated = true`, and derives each
joint's soft limits `[lo, hi]` from the designated point subsets — A from
`open`/`closed`, B and C from `min`/`max` only, D from all three — so that
every DESIGNATED point of the joint lies within `[lo, hi]` (other recorded
points, such as B's `pick`, need not). -/
theorem finalizeCalibration_missing_or_limits {σ : Type} (M : Driver σ) (env : Env)
    (tid : ℕ) (st : ArmState σ) (hfree : st.busyOwner = none) :
    (∀ j m, firstMissing st requiredPoints = some (j, m) →
      (finalizeCalibration M env tid st).res = .error (.missingPoints j m) ∧
      (∃ ns, (j, ns) ∈ requiredPoints ∧ m = missingFor st j ns ∧ m ≠ []) ∧
      (finalizeCalibration M env tid st).log = [] ∧
      (finalizeCalibration M env tid st).st.calibrated = st.calibrated ∧
      (finalizeCalibration M env tid st).st.points = st.points ∧
      (finalizeCalibration M env tid st).st.limits = st.limits ∧
      (finalizeCalibration M env tid st).st.currentAbs = st.currentAbs) ∧
    (firstMissing st requiredPoints = none → (∀ k, env.stops k = false) →
      (finalizeCalibration M env tid st).st.calibrated = true ∧
      (∃ u, (finalizeCalibration M env tid st).res = .ok u) ∧
      (finalizeCalibration M env tid st).st.limits = limsOf st.points ∧
      (∀ lo hi, limsOf st.points "A" = some (lo, hi) →
        (lo ≤ (st.points "A" "open").getD 0 ∧ (st.points "A" "open").getD 0 ≤ hi) ∧
        (lo ≤ (st.points "A" "closed").getD 0 ∧ (st.points "A" "closed").getD 0 ≤ hi)) ∧
      (∀ lo hi, limsOf st.points "B" = some (lo, hi) →
        (lo ≤ (st.points "B" "min").getD 0 ∧ (st.points "B" "min").getD 0 ≤ hi) ∧
        (lo ≤ (st.points "B" "max").getD 0 ∧ (st.points "B" "max").getD 0 ≤ hi)) ∧
      (∀ lo hi, limsOf st.points "C" = some (lo, hi) →
        (lo ≤ (st.points "C" "min").getD 0 ∧ (st.points "C" "min").getD 0 ≤ hi) ∧
        (lo ≤ (st.points "C" "max").getD 0 ∧ (st.points "C" "max").getD 0 ≤ hi)) ∧
      (∀ lo hi, limsOf st.points "D" = some (lo, hi) →
        (lo ≤ (st.points "D" "assembly").getD 0 ∧ (st.points "D" "assembly").getD 0 ≤ hi) ∧
        (lo ≤ (st.points "D" "neutral").getD 0 ∧ (st.points "D" "neutral").getD 0 ≤ hi) ∧
        (lo ≤ (st.points "D" "quality").getD 0 ∧ (st.points "D" "quality").getD 0 ≤ hi))) := by
  have hacq : acquireBusy tid st =
      ({ st with busyOwner := some tid, busyCount := st.busyCount + 1 }, true) :=
    acquireBusy_succeeds tid st (Or.inl hfree)
  constructor
  · intro j m hfm
    have hfm1 : firstMissing { st with busyOwner := some tid, busyCount := st.busyCount + 1 }
        requiredPoints = some (j, m) :=
      (firstMissing_congr _ st rfl requiredPoints).trans hfm
    have hout : finalizeCalibration M env tid st =
        ⟨releaseBusy tid { st with busyOwner := some tid, busyCount := st.busyCount + 1 },
         [], .error (.missingPoints j m)⟩ := by
      simp only [finalizeCalibration, hacq, hfm1]
    rw [hout]
    refine ⟨rfl, firstMissing_some st requiredPoints j m hfm, rfl, ?_, ?_, ?_, ?_⟩
    · rw [(releaseBusy_preserves tid _).2.2.2.2.2.2.2]
    · rw [(releaseBusy_preserves tid _).2.2.2.1]
    · rw [(releaseBusy_preserves tid _).2.2.2.2.1]
    · rw [(releaseBusy_preserves tid _).2.1]
  · intro hfm hstops
    have hfm1 : firstMissing { st with busyOwner := some tid, busyCount := st.busyCount + 1 }
        requiredPoints = none :=
      (firstMissing_congr _ st rfl requiredPoints).trans hfm
    have hout : finalizeCalibration M env tid st =
        ⟨releaseBusy tid (move M env tid "absolute" (homeOf st.points) 40 "degrees" none
            true 2
            ({ st with busyOwner := some tid, busyCount := st.busyCount + 1,
                       limits := limsOf st.points, calibrated := true } : ArmState σ)).st,
         (move M env tid "absolute" (homeOf st.points) 40 "degrees" none true 2
            ({ st with busyOwner := some tid, busyCount := st.busyCount + 1,
                       limits := limsOf st.points, calibrated := true } : ArmState σ)).log,
         Except.map (fun _ => ())
           (move M env tid "absolute" (homeOf st.points) 40 "degrees" none true 2
            ({ st with busyOwner := some tid, busyCount := st.busyCount + 1,
                       limits := limsOf st.points, calibrated := true } : ArmState σ)).res⟩ := by
      simp only [finalizeCalibration, hacq, hfm1]
    have hstat := move_preserves_static M env tid "absolute" (homeOf st.points) 40
      "degrees" none true 2
      ({ st with busyOwner := some tid, busyCount := st.busyCount + 1,
                 limits := limsOf st.points, calibrated := true } : ArmState σ)
    rw [hout]
    refine ⟨?_, ?_, ?_, ?_, ?_, ?_, ?_⟩
    · rw [(releaseBusy_preserves tid _).2.2.2.2.2.2.2, hstat.2.2]
    · have hacq2 : acquireBusy tid
          ({ st with busyOwner := some tid, busyCount := st.busyCount + 1,
                     limits := limsOf st.points, calibrated := true } : ArmState σ) =
          ({ st with busyOwner := some tid, busyCount := st.busyCount + 1 + 1,
                     limits := limsOf st.points, calibrated := true }, true) := by
        simp [acquireBusy]
      obtain ⟨s2, hs2⟩ := move_nums_ok M env tid (homeOf st.points) 40 true 2
        ({ st with busyOwner := some tid, busyCount := st.busyCount + 1,
                   limits := limsOf st.points, calibrated := true } : ArmState σ)
        ({ st with busyOwner := some tid, busyCount := st.busyCount + 1 + 1,
                   limits := limsOf st.points, calibrated := true } : ArmState σ)
        hacq2 hstops
        (by
          intro p hp
          simp only [homeOf, List.mem_cons, List.not_mem_nil, or_false] at hp
          rcases hp with h | h | h | h <;> subst h <;>
            exact ⟨by simp [jointNames], _, rfl⟩)
      refine ⟨(), ?_⟩
      rw [hs2]
      rfl
    · rw [(releaseBusy_preserves tid _).2.2.2.2.1, hstat.2.1]
    · intro lo hi hlim
      rw [show limsOf st.points "A"
          = some (min ((st.points "A" "open").getD 0) ((st.points "A" "closed").getD 0),
                  max ((st.points "A" "open").getD 0) ((st.points "A" "closed").getD 0))
          from rfl] at hlim
      have h' := Option.some.inj hlim
      have hlo : lo = min ((st.points "A" "open").getD 0) ((st.points "A" "closed").getD 0) :=
        (congrArg Prod.fst h').symm
      have hhi : hi = max ((st.points "A" "open").getD 0) ((st.points "A" "closed").getD 0) :=
        (congrArg Prod.snd h').symm
      subst hlo; subst hhi
      exact ⟨⟨min_le_left _ _, le_max_left _ _⟩, ⟨min_le_right _ _, le_max_right _ _⟩⟩
    · intro lo hi hlim
      rw [show limsOf st.points "B"
          = some (min ((st.points "B" "min").getD 0) ((st.points "B" "max").getD 0),
                  max ((st.points "B" "min").getD 0) ((st.points "B" "max").getD 0))
          from rfl] at hlim
      have h' := Option.some.inj hlim
      have hlo : lo = min ((st.points "B" "min").getD 0) ((st.points "B" "max").getD 0) :=
        (congrArg Prod.fst h').symm
      have hhi : hi = max ((st.points "B" "min").getD 0) ((st.points "B" "max").getD 0) :=
        (congrArg Prod.snd h').symm
      subst hlo; subst hhi
      exact ⟨⟨min_le_left _ _, le_max_left _ _⟩, ⟨min_le_right _ _, le_max_right _ _⟩⟩
    · intro lo hi hlim
      rw [show limsOf st.points "C"
          = some (min ((st.points "C" "min").getD 0) ((st.points "C" "max").getD 0),
                  max ((st.points "C" "min").getD 0) ((st.points "C" "max").getD 0))
          from rfl] at hlim
      have h' := Option.some.inj hlim
      have hlo : lo = min ((st.points "C" "min").getD 0) ((st.points "C" "max").getD 0) :=
        (congrArg Prod.fst h').symm
      have hhi : hi = max ((st.points "C" "min").getD 0) ((st.points "C" "max").getD 0) :=
        (congrArg Prod.snd h').symm
      subst hlo; subst hhi
      exact ⟨⟨min_le_left _ _, le_max_left _ _⟩, ⟨min_le_right _ _, le_max_right _ _⟩⟩
    · intro lo hi hlim
      rw [show limsOf st.points "D"
          = some (min ((st.points "D" "assembly").getD 0)
                    (min ((st.points "D" "neutral").getD 0)
                         ((st.points "D" "quality").getD 0)),
                  max ((st.points "D" "assembly").getD 0)
                    (max ((st.points "D" "neutral").getD 0)
                         ((st.points "D" "quality").getD 0)))
          from rfl] at hlim
      have h' := Option.some.inj hlim
      have hlo : lo = min ((st.points "D" "assembly").getD 0)
          (min ((st.points "D" "neutral").getD 0) ((st.points "D" "quality").getD 0)) :=
        (congrArg Prod.fst h').symm
      have hhi : hi = max ((st.points "D" "assembly").getD 0)
          (max ((st.points "D" "neutral").getD 0) ((st.points "D" "quality").getD 0)) :=
        (congrArg Prod.snd h').symm
      subst hlo; subst hhi
      refine ⟨⟨min_le_left _ _, le_max_left _ _⟩, ⟨?_, ?_⟩, ⟨?_, ?_⟩⟩
      · exact (min_le_right _ _).trans (min_le_left _ _)
      · exact (le_max_left _ _).trans (le_max_right _ _)
      · exact (min_le_right _ _).trans (min_le_right _ _)
      · exact (le_max_right _ _).trans (le_max_right _ _)

/-- C6 witness: the deficient state fails with B's missing `max`; the
complete state finalizes successfully and is marked calibrated. -/
theorem finalizeCalibration_missing_or_limits_witness :
    (finalizeCalibration UnitDriver envZero 0 stMiss).res
        = .error (.missingPoints "B" ["max"]) ∧
    (finalizeCalibration UnitDriver envZero 0 stCal).st.calibrated = true ∧
    (∃ u, (finalizeCalibration UnitDriver envZero 0 stCal).res = .ok u) := by
  have hm := finalizeCalibration_missing_or_limits UnitDriver envZero 0 stMiss rfl
  have hs := finalizeCalibration_missing_or_limits UnitDriver envZero 0 stCal rfl
  exact ⟨(hm.1 "B" ["max"] rfl).1, (hs.2 rfl (fun _ => rfl)).1,
         (hs.2 rfl (fun _ => rfl)).2.1⟩

/-! ### C10: named-point round-trip through normalization -/

/-- Dropping a satisfied prefix ignores it. -/
theorem dropWhile_append_all {P : Char → Bool} (l r : List Char)
    (h : ∀ c ∈ l, P c = true) :
    (l ++ r).dropWhile P = r.dropWhile P := by
  induction l with
  | nil => rfl
  | cons c l' ih =>
    simp only [List.cons_append, List.dropWhile_cons,
      h c (List.mem_cons_self _ _), if_true]
    exact ih (fun c hc => h c (List.mem_cons_of_mem _ hc))

/-- Once the drop has found a keeper, appending on the right is inert. -/
theorem dropWhile_append_core {P : Char → Bool} :
    ∀ (l r core : List Char), l.dropWhile P = core → core ≠ [] →
      (l ++ r).dropWhile P = core ++ r := by
  intro l
  induction l with
  | nil => intro r core h hne; exact absurd h.symm hne
  | cons c l' ih =>
    intro r core h hne
    by_cases hc : P c = true
    · rw [List.dropWhile_cons_of_pos hc] at h
      rw [List.cons_append, List.dropWhile_cons_of_pos hc]
      exact ih r core h hne
    · rw [List.dropWhile_cons_of_neg hc] at h
      rw [List.cons_append, List.dropWhile_cons_of_neg hc, ← h]
      rfl

/-- A take/drop split at the first failing character. -/
theorem takeWhile_append_stop {P : Char → Bool} :
    ∀ (core trail : List Char), (∀ c ∈ core, P c = true) →
      (∀ c, trail.head? = some c → P c = false) →
      (core ++ trail).takeWhile P = core ∧ (core ++ trail).dropWhile P = trail := by
  intro core
  induction core with
  | nil =>
    intro trail _ ht
    cases trail with
    | nil => exact ⟨rfl, rfl⟩
    | cons t ts =>
      simp only [List.nil_append, List.takeWhile_cons, List.dropWhile_cons,
        ht t rfl]
      exact ⟨rfl, rfl⟩
  | cons c core' ih =>
    intro trail hc ht
    have h1 := hc c (List.mem_cons_self _ _)
    obtain ⟨ihT, ihD⟩ := ih trail (fun c hc' => hc c (List.mem_cons_of_mem _ hc')) ht
    constructor
    · rw [List.cons_append, List.takeWhile_cons_of_pos h1, ihT]
    · rw [List.cons_append, List.dropWhile_cons_of_pos h1, ihD]

/-- Dropping is idempotent. -/
theorem dropWhile_idem {P : Char → Bool} :
    ∀ l : List Char, (l.dropWhile P).dropWhile P = l.dropWhile P := by
  intro l
  induction l with
  | nil => rfl
  | cons c l' ih =>
    by_cases hc : P c = true
    · rw [List.dropWhile_cons_of_pos hc]; exact ih
    · rw [List.dropWhile_cons_of_neg hc, List.dropWhile_cons_of_neg hc]

/-- A list whose head keeps is not shortened. -/
theorem dropWhile_eq_self_of_head {P : Char → Bool} (l : List Char)
    (h : ∀ c, l.head? = some c → P c = false) : l.dropWhile P = l := by
  cases l with
  | nil => rfl
  | cons c l' => rw [List.dropWhile_cons_of_neg (by rw [h c rfl]; exact Bool.false_ne_true)]

/-- An all-keeper list is taken whole. -/
theorem takeWhile_all {P : Char → Bool} :
    ∀ l : List Char, (∀ c ∈ l, P c = true) →
      l.takeWhile P = l ∧ l.dropWhile P = [] := by
  intro l
  induction l with
  | nil => intro _; exact ⟨rfl, rfl⟩
  | cons c l' ih =>
    intro h
    obtain ⟨hT, hD⟩ := ih (fun c hc => h c (List.mem_cons_of_mem _ hc))
    rw [List.takeWhile_cons_of_pos (h c (List.mem_cons_self _ _)),
        List.dropWhile_cons_of_pos (h c (List.mem_cons_self _ _)), hT, hD]
    exact ⟨rfl, rfl⟩

/-- The head surviving a whitespace drop is not whitespace. -/
theorem dropWhile_head_not {P : Char → Bool} :
    ∀ (l : List Char) (c : Char), (l.dropWhile P).head? = some c → P c = false := by
  intro l
  induction l with
  | nil => intro c h; exact Option.noConfusion h
  | cons a l' ih =>
    intro c h
    by_cases ha : P a = true
    · rw [List.dropWhile_cons_of_pos ha] at h; exact ih c h
    · rw [List.dropWhile_cons_of_neg ha] at h
      have : a = c := Option.some.inj h
      subst this
      exact Bool.not_eq_true _ ▸ (by simpa using ha)

/-- Non-space whitespace is outside the point-name alphabet. -/
theorem ws_non_space_not_base (c : Char) (hws : isWsChar c = true) (hsp : c ≠ ' ') :
    isBaseChar c = false := by
  have h : ((((c = ' ' ∨ c = '\t') ∨ c = '\n') ∨ c = '\x0d') ∨ c = '\x0b') ∨ c = '\x0c' := by
    simpa [isWsChar] using hws
  rcases h with ((((h | h) | h) | h) | h) | h <;> first
    | (exact absurd h hsp)
    | (subst h; decide)

/-- Digits are not whitespace. -/
theorem ws_not_digit (c : Char) (hws : isWsChar c = true) : c.isDigit = false := by
  have h : ((((c = ' ' ∨ c = '\t') ∨ c = '\n') ∨ c = '\x0d') ∨ c = '\x0b') ∨ c = '\x0c' := by
    simpa [isWsChar] using hws
  rcases h with ((((h | h) | h) | h) | h) | h <;> (subst h; decide)

/-- Normalization is blind to leading whitespace. -/
theorem normalizeChars_dropWhile (l : List Char) :
    normalizeChars (l.dropWhile isWsChar) = normalizeChars l := by
  simp only [normalizeChars, stripChars, dropWhile_idem]

/-- Evaluation of the point-expression parser on a whitespace-padded base
name, bare or with a signed integer offset. -/
theorem parsePointExpr_eval (lead base trail digits : List Char)
    (hlead : ∀ c ∈ lead, isWsChar c = true)
    (htrail : ∀ c ∈ trail, isWsChar c = true) (hsp : ' ' ∉ trail)
    (hbase : ∀ c ∈ base, isBaseChar c = true)
    (hcore : base.dropWhile isWsChar ≠ [])
    (hdig : digits ≠ []) (hdigits : ∀ c ∈ digits, c.isDigit = true) :
    parsePointExpr (lead ++ base ++ trail)
        = some (String.mk (normalizeChars base), 0) ∧
    parsePointExpr (lead ++ base ++ '+' :: digits)
        = some (String.mk (normalizeChars base), (natOfDigits digits : ℚ)) ∧
    parsePointExpr (lead ++ base ++ '-' :: digits)
        = some (String.mk (normalizeChars base), -(natOfDigits digits : ℚ)) := by
  have hcoreBase : ∀ c ∈ base.dropWhile isWsChar, isBaseChar c = true :=
    fun c hc => hbase c ((List.dropWhile_sublist _).subset hc)
  have hcoreHead : ∀ c, (base.dropWhile isWsChar).head? = some c → isWsChar c = false :=
    fun c hc => dropWhile_head_not base c hc
  have hdigitHead : ∀ c, digits.head? = some c → isWsChar c = false := by
    intro c hc
    cases digits with
    | nil => exact Option.noConfusion hc
    | cons d ds =>
      have : d = c := Option.some.inj hc
      subst this
      by_cases h : isWsChar d = true
      · exact absurd (hdigits d (List.mem_cons_self _ _))
          (by rw [ws_not_digit d h]; exact Bool.false_ne_true)
      · exact (Bool.not_eq_true _).mp h
  have key : ∀ (r : List Char),
      (∀ c, r.head? = some c → isBaseChar c = false) →
      ((lead ++ base ++ r).dropWhile isWsChar).takeWhile isBaseChar
          = base.dropWhile isWsChar ∧
      ((lead ++ base ++ r).dropWhile isWsChar).dropWhile isBaseChar = r := by
    intro r hr
    have h1 : (lead ++ base ++ r).dropWhile isWsChar
        = base.dropWhile isWsChar ++ r := by
      rw [List.append_assoc, dropWhile_append_all lead (base ++ r) hlead,
          dropWhile_append_core base r (base.dropWhile isWsChar) rfl hcore]
    rw [h1]
    exact takeWhile_append_stop (base.dropWhile isWsChar) r hcoreBase hr
  have hkey : String.mk (normalizeChars (base.dropWhile isWsChar))
      = String.mk (normalizeChars base) := by rw [normalizeChars_dropWhile]
  have hne : (base.dropWhile isWsChar).isEmpty = false := by
    cases h : base.dropWhile isWsChar with
    | nil => exact absurd h hcore
    | cons a l => rfl
  refine ⟨?_, ?_, ?_⟩
  · have htr : ∀ c, trail.head? = some c → isBaseChar c = false := by
      intro c hc
      cases trail with
      | nil => exact Option.noConfusion hc
      | cons t ts =>
        have : t = c := Option.some.inj hc
        subst this
        exact ws_non_space_not_base t (htrail t (List.mem_cons_self _ _))
          (fun h => hsp (h ▸ List.mem_cons_self _ _))
    obtain ⟨hT, hD⟩ := key trail htr
    simp only [parsePointExpr, hT, hD, hne, Bool.false_and, Bool.false_eq_true,
      if_false]
    rw [takeWhile_all trail htrail |>.2]
    rw [hkey]
  · have hplus : ∀ c, ('+' :: digits).head? = some c → isBaseChar c = false := by
      intro c hc
      have : '+' = c := Option.some.inj hc
      subst this
      decide
    obtain ⟨hT, hD⟩ := key ('+' :: digits) hplus
    simp only [parsePointExpr, hT, hD, hne, Bool.false_and, Bool.false_eq_true,
      if_false]
    rw [show (('+' :: digits).dropWhile isWsChar) = '+' :: digits from
        dropWhile_eq_self_of_head _ (fun c hc => by
          have : '+' = c := Option.some.inj hc
          subst this; decide)]
    simp only [show (('+' : Char) = '+' || ('+' : Char) = '-') = true from rfl, if_true]
    rw [dropWhile_eq_self_of_head digits hdigitHead]
    rw [(takeWhile_all digits hdigits).1, (takeWhile_all digits hdigits).2]
    have hdne : digits.isEmpty = false := by
      cases h : digits with
      | nil => exact absurd h hdig
      | cons a l => rfl
    simp only [hdne, Bool.false_eq_true, if_false]
    rw [hkey]
    simp
  · have hminus : ∀ c, ('-' :: digits).head? = some c → isBaseChar c = false := by
      intro c hc
      have : '-' = c := Option.some.inj hc
      subst this
      decide
    obtain ⟨hT, hD⟩ := key ('-' :: digits) hminus
    simp only [parsePointExpr, hT, hD, hne, Bool.false_and, Bool.false_eq_true,
      if_false]
    rw [show (('-' :: digits).dropWhile isWsChar) = '-' :: digits from
        dropWhile_eq_self_of_head _ (fun c hc => by
          have : '-' = c := Option.some.inj hc
          subst this; decide)]
    simp only [show (('-' : Char) = '+' || ('-' : Char) = '-') = true from rfl, if_true]
    rw [dropWhile_eq_self_of_head digits hdigitHead]
    rw [(takeWhile_all digits hdigits).1, (takeWhile_all digits hdigits).2]
    have hdne : digits.isEmpty = false := by
      cases h : digits with
      | nil => exact absurd h hdig
      | cons a l => rfl
    simp only [hdne, Bool.false_eq_true, if_false]
    rw [hkey]
    simp

/-- The state after recording the digit-bearing name `p1` for joint A at
position 0. -/
def stP1 : ArmState Unit := recAt stFree "A" 0 "p1"

/-- C10 (counterexample): `record_named_point` accepts and stores the name
`p1` (normalization keeps digits), but `resolve_point`'s base-name group
`[A-Za-z_ ]+` cannot match a digit, so the recorded name can never be
resolved — the round-trip fails for names outside the regex alphabet. -/
theorem namedPoint_roundtrip_cex :
    recordNamedPoint { stFree with currentAbs := setF stFree.currentAbs "A" 0 } "A" "p1"
        = .ok stP1 ∧
    stP1.points "A" "p1" = some 0 ∧
    stP1.points "A" (normalizeName "p1") = some 0 ∧
    parsePointExpr "p1".data = none ∧
    resolvePoint stP1 "A" "p1".data = .error (.invalidExpr "p1".data) := by
  refine ⟨rfl, rfl, rfl, rfl, rfl⟩

/-- C10 (amended): named points round-trip through normalization for names
drawn from the expression alphabet `[A-Za-z_ ]`: recording stores the
joint's current position under the name lower-cased, stripped and with
spaces replaced by underscores (other entries untouched); resolving any
whitespace-padded variant whose normalization matches returns exactly the
stored position, and `±digits` offsets add or subtract; names containing
characters outside the alphabet (for example a digit, as in `p1`) are
stored but can never be resolved. -/
theorem named_point_roundtrip {σ : Type} (st : ArmState σ) (j name : String)
    (st' : ArmState σ)
    (hj : j ∈ jointNames)
    (hrec : recordNamedPoint st j name = .ok st')
    (lead base trail digits : List Char)
    (hlead : ∀ c ∈ lead, isWsChar c = true)
    (htrail : ∀ c ∈ trail, isWsChar c = true) (hsp : ' ' ∉ trail)
    (hbase : ∀ c ∈ base, isBaseChar c = true)
    (hcore : base.dropWhile isWsChar ≠ [])
    (hkey : normalizeChars base = normalizeChars name.data)
    (hdig : digits ≠ []) (hdigits : ∀ c ∈ digits, c.isDigit = true) :
    st'.points j (normalizeName name) = some (st.currentAbs j) ∧
    (∀ n, n ≠ normalizeName name → st'.points j n = st.points j n) ∧
    (∀ j', j' ≠ j → st'.points j' = st.points j') ∧
    resolvePoint st' j (lead ++ base ++ trail) = .ok (st.currentAbs j) ∧
    resolvePoint st' j (lead ++ base ++ '+' :: digits)
        = .ok (st.currentAbs j + natOfDigits digits) ∧
    resolvePoint st' j (lead ++ base ++ '-' :: digits)
        = .ok (st.currentAbs j - natOfDigits digits) := by
  simp only [recordNamedPoint, if_pos hj, Except.ok.injEq] at hrec
  subst hrec
  obtain ⟨hp0, hpP, hpM⟩ := parsePointExpr_eval lead base trail digits
    hlead htrail hsp hbase hcore hdig hdigits
  have hstore : (setF st.points j
      (fun n => if n = normalizeName name then some (st.currentAbs j)
                else st.points j n)) j (normalizeName name)
      = some (st.currentAbs j) := by
    rw [setF_same, if_pos rfl]
  have hkeyName : String.mk (normalizeChars base) = normalizeName name := by
    rw [hkey]; rfl
  refine ⟨hstore, ?_, ?_, ?_, ?_, ?_⟩
  · intro n hn
    show (setF st.points j _) j n = st.points j n
    rw [setF_same, if_neg hn]
  · intro j' hj'
    show (setF st.points j _) j' = st.points j'
    rw [setF_other _ _ _ _ hj']
  · simp only [resolvePoint, hp0, hkeyName, hstore]
    norm_num
  · simp only [resolvePoint, hpP, hkeyName, hstore]
  · simp only [resolvePoint, hpM, hkeyName, hstore]
    norm_num [sub_eq_add_neg]

/-- C10 witness: record `" Pick Left "` for joint A at 7° — stored as
`pick_left` — then resolve the case variant `"PICK left"` and the offset
expressions `"PICK left+5"` and `"PICK left-5"`. -/
theorem named_point_roundtrip_witness :
    (recAt stFree "A" 7 " Pick Left ").points "A" "pick_left" = some 7 ∧
    resolvePoint (recAt stFree "A" 7 " Pick Left ") "A"
        ("PICK left".data) = .ok 7 ∧
    resolvePoint (recAt stFree "A" 7 " Pick Left ") "A"
        ("PICK left+5".data) = .ok (7 + 5) ∧
    resolvePoint (recAt stFree "A" 7 " Pick Left ") "A"
        ("PICK left-5".data) = .ok (7 - 5) := by
  have h := named_point_roundtrip
    { stFree with currentAbs := setF stFree.currentAbs "A" 7 } "A" " Pick Left "
    (recAt stFree "A" 7 " Pick Left ") (by simp [jointNames]) rfl
    [] "PICK left".data [] ['5']
    (by decide) (by decide) (by decide) (by decide) (by decide) (by decide)
    (by decide) (by decide)
  have h5 : natOfDigits ['5'] = 5 := by decide
  refine ⟨?_, ?_, ?_, ?_⟩
  · exact h.1
  · exact h.2.2.2.1.trans (by norm_num [setF])
  · exact h.2.2.2.2.1.trans (by rw [h5]; norm_num [setF])
  · exact h.2.2.2.2.2.trans (by rw [h5]; norm_num [setF])

/-! ### C8: the precision workflow runner (`processes/_precision_workflow.py`)

The workflow layer drives an `ArmController`.  Three facts about this
repository shape the embedding and are used where noted below:
`ArmController` defines no `read_position` method, so the workflow's
`_read_pos` always hits the `AttributeError` handler and returns NaN; it
defines none of the `telemetry_healthy`/`telemetry_ok`/`telemetry_status`
probes, and the error dictionaries of the model are NaN-free, so
`_telemetry_unhealthy` always returns `False`; and the
`ARM_IGNORE_SETTLE_FAILURE` environment default of `"0"` leaves
`IGNORE_SETTLE_FAILURE` empty, so a joint that fails to settle raises. -/

/-- Workflow tolerance map: `TOL = {A: 3, B: 3, C: 3, D: 3}` (passed to
`verify_at`, overriding its per-joint defaults). -/
def wfTol : String → ℚ := fun _ => 3

/-- Poll budget for the fuel-encoded `_verify_stable` loop; every theorem
below supplies clock streams that decide well within it. -/
def wfFuel : ℕ := 64

/-- `_read_pos`: `float(arm.read_position().get(joint))` raises
`AttributeError` (no such method on `ArmController`), so every call returns
NaN, modelled as `none`. -/
def readPosWf : Option ℚ := none

/-- Workflow-level events: `_move_joint` entry, its already-within-tolerance
skip, the runner's unchanged-joint skip, and each `arm.move` submission
(mirroring the log lines the Python emits at these points). -/
inductive WfEv where
  | dispatch (j : String) (t : ℚ)
  | preSkip (j : String) (t : ℚ)
  | unchangedSkip (j : String) (idx : ℕ)
  | armCall (mode : String) (vals : List (String × JointVal)) (speed : ℤ)
  deriving DecidableEq, Repr

/-- Environment of a workflow run: the driver, a fresh oracle-stream
environment for each `arm.move` call, the wall clock read by
`_verify_stable`, and the execution context. -/
structure WfCtx (σ : Type) where
  M : Driver σ
  envs : ℕ → Env
  clk : ℕ → ℚ
  tid : ℕ

/-- Threaded workflow state: the controller, accumulated motor commands and
events, the clock and move-call cursors, and the first uncaught exception
(every later action is a no-op once it is set, modelling the propagating
Python exception). -/
structure WfSt (σ : Type) where
  arm : ArmState σ
  log : List Cmd
  evs : List WfEv
  kc : ℕ
  km : ℕ
  err : Option MoveErr

/-- `ArmController.verify_at` under the workflow's tolerance map: per-joint
absolute errors of the stored positions against the target, and whether all
are within tolerance. -/
def wfVerifyAt {σ : Type} (st : ArmState σ) (target : List (String × ℚ)) :
    Bool × List (String × ℚ) :=
  let errs := target.map (fun p => (p.1, |st.currentAbs p.1 - p.2|))
  (errs.all (fun e => decide (e.2 ≤ wfTol e.1)), errs)

/-- `_issue_move`: submit `arm.move(mode, values, speed=speed,
units="degrees", finalize=True)` (the workflow always passes
`finalize=True` and leaves the 2° deadband default), record the command log
and the submission event, and latch a raised error. -/
def issueMove {σ : Type} (ctx : WfCtx σ) (mode : String)
    (vals : List (String × JointVal)) (speed : ℤ) (s : WfSt σ) : WfSt σ :=
  if s.err.isSome then s
  else
    let out := move ctx.M (ctx.envs s.km) ctx.tid mode vals speed "degrees" none true 2
      s.arm
    { s with arm := out.st, log := s.log ++ out.log,
             evs := s.evs ++ [.armCall mode vals speed],
             km := s.km + 1,
             err := match out.res with | .ok _ => none | .error e => some e }

/-- The polling loop of `_verify_stable`.  The arm does not move between
polls in this sequential model, so every `verify_at` read returns the same
answer; clock reads follow the source's short-circuit structure (guard
read each iteration; window read only once two stable polls accumulated;
`last_change` read on a failed poll).  Exhausted fuel returns the timeout
outcome. -/
def verifyStableLoop {σ : Type} (ctx : WfCtx σ) (st : ArmState σ)
    (target : List (String × ℚ)) (t0 timeout : ℚ) :
    ℕ → ℕ → ℚ → ℕ → (Bool × List (String × ℚ)) × ℕ
  | 0, _, _, kc => ((false, (wfVerifyAt st target).2), kc)
  | fuel + 1, stable, lastChange, kc =>
    if ctx.clk kc - t0 < timeout then
      let r := wfVerifyAt st target
      if r.1 then
        let stable2 := stable + 1
        if 2 ≤ stable2 then
          if 1 / 5 ≤ ctx.clk (kc + 1) - lastChange then ((true, r.2), kc + 2)
          else verifyStableLoop ctx st target t0 timeout fuel stable2 lastChange (kc + 2)
        else verifyStableLoop ctx st target t0 timeout fuel stable2 lastChange (kc + 1)
      else verifyStableLoop ctx st target t0 timeout fuel 0 (ctx.clk (kc + 1)) (kc + 2)
    else ((false, (wfVerifyAt st target).2), kc + 1)

/-- `_verify_stable(arm, target, timeout_s)`: records `t0`, takes the
initial read, then polls; only the clock cursor of the state changes. -/
def verifyStable {σ : Type} (ctx : WfCtx σ) (target : List (String × ℚ))
    (timeout : ℚ) (s : WfSt σ) : (Bool × List (String × ℚ)) × WfSt σ :=
  let t0 := ctx.clk s.kc
  let r0 := wfVerifyAt s.arm target
  let out := verifyStableLoop ctx s.arm target t0 timeout wfFuel
    (if r0.1 then 1 else 0) (ctx.clk (s.kc + 1)) (s.kc + 2)
  (out.1, { s with kc := out.2 })

/-- `_abs_move` specialized by `readPosWf = none`: with `current` NaN,
`_normalize_target` returns the target unchanged (`current != current`),
`delta` is pinned to 0 and the segmentation branch (guarded by
`current == current`) is unreachable, so one absolute move is issued at the
requested speed; `segmented` stays `False` and the commanded target is the
requested target. -/
def absMove {σ : Type} (ctx : WfCtx σ) (j : String) (t : ℚ) (speed : ℤ)
    (s : WfSt σ) : WfSt σ × Bool × ℚ :=
  (issueMove ctx "absolute" [(j, .num t)] speed s, false, t)

/-- The retry ladder of `_move_joint` (attempt 1 at `SPEED_DEFAULT = 100`,
later attempts at `SPEED_DEFAULT_FINAL = 35`), with `_settle_timeout`
pinned to `SETTLE_TIMEOUT_S = 6` by the NaN current read and
`_telemetry_unhealthy` pinned to `False` (see the section comment).
Returns the state, whether the joint settled, and the attempt count.  The
error dictionary always contains the joint, so the NaN guard is inert. -/
def moveJointLoop {σ : Type} (ctx : WfCtx σ) (j : String) (t : ℚ) :
    ℕ → ℕ → WfSt σ → WfSt σ × Bool × ℕ
  | 0, attempt, s => (s, false, attempt)
  | fuel + 1, attempt, s =>
    let speed : ℤ := if attempt = 1 then 100 else 35
    let s1 := (absMove ctx j t speed s).1
    let out := verifyStable ctx [(j, t)] 6 s1
    if out.1.1 then (out.2, true, attempt)
    else
      let errAbs := ((out.1.2.lookup j).getD 0)
      if errAbs ≤ 3 then (out.2, false, attempt)
      else if errAbs ≤ 10 then
        if 2 ≤ attempt then (out.2, false, attempt)
        else moveJointLoop ctx j t fuel (attempt + 1) out.2
      else
        if attempt = 1 then moveJointLoop ctx j t fuel (attempt + 1) out.2
        else if attempt = 2 then moveJointLoop ctx j t fuel (attempt + 1) out.2
        else (out.2, false, attempt)

/-- Result dictionary of `_move_joint` (the fields the runner reads;
`telemetry_retry_used` and `segmented` are pinned `False` as above). -/
structure MJRes where
  skipped : Bool
  settledOk : Bool
  telemetryRetryUsed : Bool
  segmented : Bool
  target : ℚ
  commandedTarget : ℚ
  attempts : ℕ
  deriving DecidableEq, Repr

/-- `_move_joint(arm, joint, target)`: the pre-check `verify_at` returns a
`skipped` result WITHOUT issuing any move; otherwise the retry ladder runs
(the attempt ladder visits at most three attempts, so fuel 4 is exact), and
a joint that fails to settle raises `RuntimeError` (settle failure),
latched into the error slot. -/
def moveJoint {σ : Type} (ctx : WfCtx σ) (j : String) (t : ℚ) (s : WfSt σ) :
    MJRes × WfSt σ :=
  if s.err.isSome then (⟨false, false, false, false, t, t, 0⟩, s)
  else
    let s0 := { s with evs := s.evs ++ [.dispatch j t] }
    if (wfVerifyAt s0.arm [(j, t)]).1 then
      (⟨true, true, false, false, t, t, 0⟩,
       { s0 with evs := s0.evs ++ [.preSkip j t] })
    else
      let out := moveJointLoop ctx j t 4 1 s0
      if out.2.1 then (⟨false, true, false, false, t, t, out.2.2⟩, out.1)
      else (⟨false, false, false, false, t, t, out.2.2⟩,
            { out.1 with err := some (.settleFailure j) })

/-- The runner's unchanged-joint skip test:
`previous_pose is not None and index != 1 and index != total_steps and
joint in previous_pose and float(previous_pose[joint]) == target`. -/
def skipCond (prev : Option (List (String × ℚ))) (idx total : ℕ) (j : String)
    (t : ℚ) : Bool :=
  match prev with
  | none => false
  | some p =>
    decide (idx ≠ 1) && decide (idx ≠ total) &&
      (match p.lookup j with
       | some v => decide (v = t)
       | none => false)

/-- One joint of the runner's inner loop: joints absent from the pose are
passed over; an unchanged joint (per `skipCond`) is skipped with a log
line; otherwise `_move_joint` runs, followed by pass 2 when the result
asks for a repeat.  The Boolean accumulates the pose's
`settle_failed` flag. -/
def handleJoint {σ : Type} (ctx : WfCtx σ) (prev : Option (List (String × ℚ)))
    (idx total : ℕ) (pose : List (String × ℚ)) (j : String)
    (sf : WfSt σ × Bool) : WfSt σ × Bool :=
  match pose.lookup j with
  | none => sf
  | some t =>
    if skipCond prev idx total j t then
      ({ sf.1 with evs := sf.1.evs ++ [.unchangedSkip j idx] }, sf.2)
    else
      let out1 := moveJoint ctx j t sf.1
      let needsRepeat := !out1.1.settledOk || out1.1.telemetryRetryUsed
      let out2 := if needsRepeat then moveJoint ctx j t out1.2 else out1
      (out2.2, sf.2 || !out2.1.settledOk)

/-- The runner's default joint order `("D", "C", "B", "A")`. -/
def jointOrderWf : List String := ["D", "C", "B", "A"]

/-- The pose loop of `run_workflow`: the drift check against the previous
pose (run only when the previous pose raised a flag; with telemetry and
segmentation pinned `False` that means a settle failure), then the joint
loop in `jointOrderWf`, then the flag/pose rollover. -/
def runPoses {σ : Type} (ctx : WfCtx σ) (total : ℕ) :
    List (List (String × ℚ)) → ℕ → Option (List (String × ℚ)) → Bool →
      WfSt σ → WfSt σ
  | [], _, _, _, s => s
  | pose :: rest, idx, prev, prevFailed, s =>
    let s0 := match prev with
      | some p =>
        if prevFailed then
          let rp := verifyStable ctx p (1 / 2) s
          if rp.1.1 then rp.2
          else
            let needsNudge := p.any (fun q =>
              decide (wfTol q.1 + 1 < (rp.1.2.lookup q.1).getD 0))
            if needsNudge then
              let sp2 := issueMove ctx "absolute"
                (p.map (fun q => (q.1, JointVal.num q.2))) 40 rp.2
              (verifyStable ctx p (1 / 2) sp2).2
            else rp.2
        else s
      | none => s
    let sf := jointOrderWf.foldl
      (fun acc j => handleJoint ctx prev idx total pose j acc) (s0, false)
    runPoses ctx total rest (idx + 1) (some pose) sf.2 sf.1

/-- `arm.resolve_pose`: numbers pass through, strings go through
`resolve_point`; the first resolution error propagates. -/
def resolvePose {σ : Type} (st : ArmState σ) :
    List (String × JointVal) → Except MoveErr (List (String × ℚ))
  | [] => .ok []
  | (j, .num v) :: rest =>
    match resolvePose st rest with
    | .error e => .error e
    | .ok ts => .ok ((j, v) :: ts)
  | (j, .expr e0) :: rest =>
    match resolvePoint st j e0 with
    | .error e => .error e
    | .ok v =>
      match resolvePose st rest with
      | .error e => .error e
      | .ok ts => .ok ((j, v) :: ts)

/-- Up-front resolution of every step's pose. -/
def resolveSteps {σ : Type} (st : ArmState σ) :
    List (String × List (String × JointVal)) →
      Except MoveErr (List (List (String × ℚ)))
  | [] => .ok []
  | (_, pose) :: rest =>
    match resolvePose st pose with
    | .error e => .error e
    | .ok p =>
      match resolveSteps st rest with
      | .error e => .error e
      | .ok ps => .ok (p :: ps)

/-- `run_workflow(arm, steps)` with the default options: resolve all poses
up front, then run the pose loop. -/
def runWorkflow {σ : Type} (ctx : WfCtx σ)
    (steps : List (String × List (String × JointVal))) (s : WfSt σ) : WfSt σ :=
  match resolveSteps s.arm steps with
  | .error e => { s with err := some e }
  | .ok poses => runPoses ctx poses.length poses 1 none false s

/-- Marker for the runner's unchanged-joint skip events. -/
def WfEv.isUnchanged : WfEv → Bool
  | .unchangedSkip _ _ => true
  | _ => false

/-- `_verify_stable` only advances the clock cursor. -/
theorem verifyStable_evs {σ : Type} (ctx : WfCtx σ) (tg : List (String × ℚ))
    (tmo : ℚ) (s : WfSt σ) : ((verifyStable ctx tg tmo s).2).evs = s.evs := rfl

/-- `_verify_stable` leaves the controller untouched. -/
theorem verifyStable_arm {σ : Type} (ctx : WfCtx σ) (tg : List (String × ℚ))
    (tmo : ℚ) (s : WfSt σ) : ((verifyStable ctx tg tmo s).2).arm = s.arm := rfl

/-- An `_issue_move` appends at most its submission event, never an
unchanged-skip. -/
theorem issueMove_evs {σ : Type} (ctx : WfCtx σ) (m : String)
    (v : List (String × JointVal)) (sp : ℤ) (s : WfSt σ) :
    ∃ tail, (issueMove ctx m v sp s).evs = s.evs ++ tail ∧
      ∀ e ∈ tail, e.isUnchanged = false := by
  by_cases h : s.err.isSome
  · exact ⟨[], by simp [issueMove, h], by simp⟩
  · refine ⟨[.armCall m v sp], ?_, ?_⟩
    · simp [issueMove, h]
    · intro e he
      simp only [List.mem_singleton] at he
      subst he
      rfl

/-- The `_move_joint` retry ladder appends only submission events. -/
theorem moveJointLoop_evs {σ : Type} (ctx : WfCtx σ) (j : String) (t : ℚ) :
    ∀ (fuel attempt : ℕ) (s : WfSt σ),
      ∃ tail, ((moveJointLoop ctx j t fuel attempt s).1).evs = s.evs ++ tail ∧
        ∀ e ∈ tail, e.isUnchanged = false := by
  intro fuel
  induction fuel with
  | zero =>
    intro attempt s
    exact ⟨[], by simp [moveJointLoop], by simp⟩
  | succ n ih =>
    intro attempt s
    simp only [moveJointLoop, absMove]
    set sp : ℤ := if attempt = 1 then 100 else 35 with hsp
    obtain ⟨t1, ht1, ht1p⟩ := issueMove_evs ctx "absolute" [(j, .num t)] sp s
    obtain ⟨t2, ht2, ht2p⟩ := ih (attempt + 1)
      ((verifyStable ctx [(j, t)] 6 (issueMove ctx "absolute" [(j, .num t)] sp s)).2)
    have hcomb : ((moveJointLoop ctx j t n (attempt + 1)
        ((verifyStable ctx [(j, t)] 6
          (issueMove ctx "absolute" [(j, .num t)] sp s)).2)).1).evs
        = s.evs ++ (t1 ++ t2) ∧
        ∀ e ∈ t1 ++ t2, e.isUnchanged = false := by
      constructor
      · rw [ht2, verifyStable_evs, ht1, List.append_assoc]
      · intro e he
        rcases List.mem_append.mp he with h | h
        · exact ht1p e h
        · exact ht2p e h
    split
    · exact ⟨t1, by rw [verifyStable_evs, ht1], ht1p⟩
    · split
      · exact ⟨t1, by rw [verifyStable_evs, ht1], ht1p⟩
      · split
        · split
          · exact ⟨t1, by rw [verifyStable_evs, ht1], ht1p⟩
          · exact ⟨t1 ++ t2, hcomb.1, hcomb.2⟩
        · split
          · exact ⟨t1 ++ t2, hcomb.1, hcomb.2⟩
          · split
            · exact ⟨t1 ++ t2, hcomb.1, hcomb.2⟩
            · exact ⟨t1, by rw [verifyStable_evs, ht1], ht1p⟩

/-- `_move_joint` appends only its entry, pre-skip and submission events —
never an unchanged-skip. -/
theorem moveJoint_evs {σ : Type} (ctx : WfCtx σ) (j : String) (t : ℚ) (s : WfSt σ) :
    ∃ tail, ((moveJoint ctx j t s).2).evs = s.evs ++ tail ∧
      ∀ e ∈ tail, e.isUnchanged = false := by
  by_cases h : s.err.isSome
  · exact ⟨[], by simp [moveJoint, h], by simp⟩
  · simp only [moveJoint, h, Bool.false_eq_true, if_false]
    split
    · refine ⟨[.dispatch j t, .preSkip j t], ?_, ?_⟩
      · show (s.evs ++ [WfEv.dispatch j t]) ++ [WfEv.preSkip j t] = _
        rw [List.append_assoc]
        rfl
      · intro e he
        rcases List.mem_cons.mp he with h1 | h1
        · subst h1; rfl
        · rcases List.mem_singleton.mp h1 with h2
          subst h2; rfl
    · obtain ⟨t2, ht2, ht2p⟩ := moveJointLoop_evs ctx j t 4 1
        { s with evs := s.evs ++ [.dispatch j t] }
      have hsh : ∀ e ∈ WfEv.dispatch j t :: t2, e.isUnchanged = false := by
        intro e he
        rcases List.mem_cons.mp he with h1 | h1
        · subst h1; rfl
        · exact ht2p e h1
      split
      · refine ⟨.dispatch j t :: t2, ?_, hsh⟩
        rw [ht2, List.append_assoc]
        rfl
      · refine ⟨.dispatch j t :: t2, ?_, hsh⟩
        show ((moveJointLoop ctx j t 4 1 _).1).evs = _
        rw [ht2, List.append_assoc]
        rfl

/-- A joint handled with no previous pose (or, more generally, with the
skip test false) appends only `_move_joint` events. -/
theorem handleJoint_evs_of_not_skip {σ : Type} (ctx : WfCtx σ)
    (prev : Option (List (String × ℚ))) (idx total : ℕ)
    (pose : List (String × ℚ)) (j : String) (sf : WfSt σ × Bool)
    (h : ∀ t, pose.lookup j = some t → skipCond prev idx total j t = false) :
    ∃ tail, ((handleJoint ctx prev idx total pose j sf).1).evs = sf.1.evs ++ tail ∧
      ∀ e ∈ tail, e.isUnchanged = false := by
  rcases hl : pose.lookup j with _ | t
  · exact ⟨[], by simp [handleJoint, hl], by simp⟩
  · simp only [handleJoint, hl, h t hl, Bool.false_eq_true, if_false]
    obtain ⟨t1, ht1, ht1p⟩ := moveJoint_evs ctx j t sf.1
    split
    · obtain ⟨t2, ht2, ht2p⟩ := moveJoint_evs ctx j t (moveJoint ctx j t sf.1).2
      refine ⟨t1 ++ t2, ?_, ?_⟩
      · show ((moveJoint ctx j t (moveJoint ctx j t sf.1).2).2).evs = _
        rw [ht2, ht1, List.append_assoc]
      · intro e he
        rcases List.mem_append.mp he with h1 | h1
        · exact ht1p e h1
        · exact ht2p e h1
    · exact ⟨t1, ht1, ht1p⟩

/-- The first command of a `_move_joint` attempt ladder is the absolute
move of the requested target (at `SPEED_DEFAULT` on attempt 1). -/
theorem moveJointLoop_first_cmd {σ : Type} (ctx : WfCtx σ) (j : String) (t : ℚ)
    (n attempt : ℕ) (s : WfSt σ) (herr : s.err = none) :
    ∃ tail, ((moveJointLoop ctx j t (n + 1) attempt s).1).evs
      = s.evs ++ .armCall "absolute" [(j, .num t)] (if attempt = 1 then 100 else 35)
          :: tail := by
  simp only [moveJointLoop, absMove]
  set sp : ℤ := if attempt = 1 then 100 else 35 with hsp
  have ht1 : (issueMove ctx "absolute" [(j, .num t)] sp s).evs
      = s.evs ++ [.armCall "absolute" [(j, .num t)] sp] := by
    simp [issueMove, herr]
  obtain ⟨t2, ht2, -⟩ := moveJointLoop_evs ctx j t n (attempt + 1)
    ((verifyStable ctx [(j, t)] 6 (issueMove ctx "absolute" [(j, .num t)] sp s)).2)
  have hone : (verifyStable ctx [(j, t)] 6
      (issueMove ctx "absolute" [(j, .num t)] sp s)).2.evs
      = s.evs ++ .armCall "absolute" [(j, .num t)] sp :: ([] : List WfEv) := by
    rw [verifyStable_evs, ht1]
  have hcomb : ((moveJointLoop ctx j t n (attempt + 1)
      ((verifyStable ctx [(j, t)] 6
        (issueMove ctx "absolute" [(j, .num t)] sp s)).2)).1).evs
      = s.evs ++ .armCall "absolute" [(j, .num t)] sp :: t2 := by
    rw [ht2, verifyStable_evs, ht1, List.append_assoc, List.singleton_append]
  split
  · exact ⟨[], hone⟩
  · split
    · exact ⟨[], hone⟩
    · split
      · split
        · exact ⟨[], hone⟩
        · exact ⟨t2, hcomb⟩
      · split
        · exact ⟨t2, hcomb⟩
        · split
          · exact ⟨t2, hcomb⟩
          · exact ⟨[], hone⟩

/-- Joints handled with the skip test false and no previous pose never emit
unchanged-skip events: folding the runner's joint loop only appends
`_move_joint` events. -/
theorem foldl_handle_evs {σ : Type} (ctx : WfCtx σ) (idx total : ℕ)
    (pose : List (String × ℚ)) :
    ∀ (l : List String) (sf : WfSt σ × Bool),
      ∃ tail, ((l.foldl (fun acc j => handleJoint ctx none idx total pose j acc)
          sf).1).evs = sf.1.evs ++ tail ∧ ∀ e ∈ tail, e.isUnchanged = false := by
  intro l
  induction l with
  | nil => intro sf; exact ⟨[], by simp, by simp⟩
  | cons j rest ih =>
    intro sf
    obtain ⟨t1, ht1, ht1p⟩ := handleJoint_evs_of_not_skip ctx none idx total pose j sf
      (fun t _ => rfl)
    obtain ⟨t2, ht2, ht2p⟩ := ih (handleJoint ctx none idx total pose j sf)
    refine ⟨t1 ++ t2, ?_, ?_⟩
    · simp only [List.foldl_cons]
      rw [ht2, ht1, List.append_assoc]
    · intro e he
      rcases List.mem_append.mp he with h | h
      · exact ht1p e h
      · exact ht2p e h

/-- `_move_joint` through the runner on a joint already within tolerance:
the pre-check short-circuits and nothing but the entry and pre-skip events
is appended — no motor command, no state change. -/
theorem handleJoint_preSkip {σ : Type} (ctx : WfCtx σ)
    (prev : Option (List (String × ℚ))) (idx total : ℕ)
    (pose : List (String × ℚ)) (j : String) (t : ℚ) (s : WfSt σ) (f : Bool)
    (hl : pose.lookup j = some t) (hc : skipCond prev idx total j t = false)
    (herr : s.err = none) (hv : (wfVerifyAt s.arm [(j, t)]).1 = true) :
    handleJoint ctx prev idx total pose j (s, f)
      = ({ s with evs := s.evs ++ [.dispatch j t, .preSkip j t] }, f) := by
  simp only [handleJoint, hl, hc, Bool.false_eq_true, if_false, moveJoint, herr,
    Option.isSome_none, if_false]
  rw [show (wfVerifyAt ({ s with evs := s.evs ++ [WfEv.dispatch j t] } : WfSt σ).arm
      [(j, t)]).1 = true from hv]
  simp [List.append_assoc]

/-- C8 (amended): the runner skips a joint exactly when a previous pose
exists, the pose is neither the first nor the last of the sequence, and the
joint's resolved target equals its value in the previous pose; every other
listed joint is dispatched to `_move_joint` — but `_move_joint` itself
skips, without issuing any motor command, whenever the joint is already
within tolerance, in the first and last poses as much as in any other.  A
joint outside tolerance has an absolute move of its target submitted.  In a
single-pose workflow no joint is ever skipped as unchanged. -/
theorem workflow_unchanged_skip_semantics {σ : Type} (ctx : WfCtx σ)
    (prev : Option (List (String × ℚ))) (idx total : ℕ)
    (pose : List (String × ℚ)) (j : String) (t : ℚ) (s : WfSt σ) (f : Bool) :
    (skipCond prev idx total j t = true ↔
      ∃ p, prev = some p ∧ idx ≠ 1 ∧ idx ≠ total ∧ p.lookup j = some t) ∧
    (pose.lookup j = some t → skipCond prev idx total j t = true →
      handleJoint ctx prev idx total pose j (s, f)
        = ({ s with evs := s.evs ++ [.unchangedSkip j idx] }, f)) ∧
    (pose.lookup j = some t → skipCond prev idx total j t = false →
      s.err = none → (wfVerifyAt s.arm [(j, t)]).1 = true →
      handleJoint ctx prev idx total pose j (s, f)
        = ({ s with evs := s.evs ++ [.dispatch j t, .preSkip j t] }, f)) ∧
    (pose.lookup j = some t → skipCond prev idx total j t = false →
      s.err = none → (wfVerifyAt s.arm [(j, t)]).1 = false →
      ∃ tail, ((handleJoint ctx prev idx total pose j (s, f)).1).evs
        = s.evs ++ .dispatch j t :: .armCall "absolute" [(j, .num t)] 100 :: tail) ∧
    (∀ (name : String) (poseJ : List (String × JointVal)),
      ∃ tail, (runWorkflow ctx [(name, poseJ)] s).evs = s.evs ++ tail ∧
        ∀ e ∈ tail, e.isUnchanged = false) := by
  refine ⟨?_, ?_, ?_, ?_, ?_⟩
  · constructor
    · intro h
      rcases prev with _ | p
      · exact absurd h (by simp [skipCond])
      · rcases hl : p.lookup j with _ | v
        · exact absurd h (by simp [skipCond, hl])
        · refine ⟨p, rfl, ?_⟩
          simp only [skipCond, hl, Bool.and_eq_true, decide_eq_true_eq] at h
          obtain ⟨⟨h1, h2⟩, h3⟩ := h
          exact ⟨h1, h2, by rw [hl, h3]⟩
    · rintro ⟨p, hp, h1, h2, h3⟩
      subst hp
      simp [skipCond, h1, h2, h3]
  · intro hl hc
    simp only [handleJoint, hl, hc, if_true]
  · exact fun hl hc herr hv => handleJoint_preSkip ctx prev idx total pose j t s f
      hl hc herr hv
  · intro hl hc herr hv
    simp only [handleJoint, hl, hc, Bool.false_eq_true, if_false]
    obtain ⟨tail0, h0⟩ := moveJointLoop_first_cmd ctx j t 3 1
      { s with evs := s.evs ++ [.dispatch j t], err := none } rfl
    have hmj2 : ((moveJoint ctx j t s).2).evs
        = s.evs ++ .dispatch j t :: .armCall "absolute" [(j, .num t)] 100 :: tail0 := by
      simp only [moveJoint, herr, Option.isSome_none, Bool.false_eq_true, if_false]
      rw [show (wfVerifyAt ({ s with evs := s.evs ++ [WfEv.dispatch j t], err := none }
          : WfSt σ).arm [(j, t)]).1 = false from hv]
      simp only [Bool.false_eq_true, if_false]
      split
      · show ((moveJointLoop ctx j t 4 1
            ({ s with evs := s.evs ++ [WfEv.dispatch j t], err := none } : WfSt σ)).1).evs
            = s.evs ++ WfEv.dispatch j t
                :: WfEv.armCall "absolute" [(j, JointVal.num t)] 100 :: tail0
        rw [show ((moveJointLoop ctx j t 4 1
            ({ s with evs := s.evs ++ [WfEv.dispatch j t], err := none } : WfSt σ)).1).evs
            = (s.evs ++ [WfEv.dispatch j t])
              ++ WfEv.armCall "absolute" [(j, JointVal.num t)] 100 :: tail0 from h0,
          List.append_assoc, List.singleton_append]
      · show ((moveJointLoop ctx j t 4 1
            ({ s with evs := s.evs ++ [WfEv.dispatch j t], err := none } : WfSt σ)).1).evs
            = s.evs ++ WfEv.dispatch j t
                :: WfEv.armCall "absolute" [(j, JointVal.num t)] 100 :: tail0
        rw [show ((moveJointLoop ctx j t 4 1
            ({ s with evs := s.evs ++ [WfEv.dispatch j t], err := none } : WfSt σ)).1).evs
            = (s.evs ++ [WfEv.dispatch j t])
              ++ WfEv.armCall "absolute" [(j, JointVal.num t)] 100 :: tail0 from h0,
          List.append_assoc, List.singleton_append]
    split
    · obtain ⟨t3, h3, -⟩ := moveJoint_evs ctx j t (moveJoint ctx j t s).2
      refine ⟨tail0 ++ t3, ?_⟩
      show ((moveJoint ctx j t (moveJoint ctx j t s).2).2).evs = _
      rw [h3, hmj2]
      simp [List.append_assoc]
    · exact ⟨tail0, hmj2⟩
  · intro name poseJ
    simp only [runWorkflow]
    rcases hrp : resolvePose s.arm poseJ with e | p
    · refine ⟨[], ?_, by simp⟩
      simp only [resolveSteps, hrp]
      simp
    · simp only [resolveSteps, hrp]
      show ∃ tail, (runPoses ctx 1 [p] 1 none false s).evs = s.evs ++ tail ∧ _
      obtain ⟨tail, ht, htp⟩ := foldl_handle_evs ctx 1 1 p jointOrderWf (s, false)
      refine ⟨tail, ?_, htp⟩
      simp only [runPoses]
      exact ht

/-- Workflow fixture: the unit driver, quiet fresh environments, the
integer-second wall clock and execution context 0. -/
def ctxU : WfCtx Unit := ⟨UnitDriver, fun _ => envZero, fun k => (k : ℚ), 0⟩

/-- Initial workflow state over the free zeroed controller. -/
def wfs0 : WfSt Unit := ⟨stFree, [], [], 0, 0, none⟩

/-- Joint A of the free state is already within the workflow tolerance of
target 0. -/
theorem wfVerifyAt_zero : (wfVerifyAt stFree [("A", (0 : ℚ))]).1 = true := by
  simp [wfVerifyAt, wfTol, stFree]

/-- C8 (counterexample): a single-pose workflow — its pose is both the
first and the last of the sequence — whose joint A is already within
tolerance: the run succeeds, `_move_joint` is dispatched but pre-skips,
and NO motor command is ever issued, refuting "every joint listed in those
poses is moved, never skipped". -/
theorem workflow_bookend_not_moved_cex :
    (runWorkflow ctxU [("only", [("A", .num 0)])] wfs0).log = [] ∧
    (runWorkflow ctxU [("only", [("A", .num 0)])] wfs0).evs
        = [.dispatch "A" 0, .preSkip "A" 0] ∧
    (runWorkflow ctxU [("only", [("A", .num 0)])] wfs0).err = none ∧
    (runWorkflow ctxU [("only", [("A", .num 0)])] wfs0).arm = stFree := by
  have hA := handleJoint_preSkip ctxU none 1 1 [("A", (0 : ℚ))] "A" 0 wfs0 false
    rfl rfl rfl wfVerifyAt_zero
  have h1 : runWorkflow ctxU [("only", [("A", .num 0)])] wfs0
      = (List.foldl (fun acc j => handleJoint ctxU none 1 1 [("A", (0 : ℚ))] j acc)
          (wfs0, false) jointOrderWf).1 := rfl
  have hrun : runWorkflow ctxU [("only", [("A", .num 0)])] wfs0
      = { wfs0 with evs := [.dispatch "A" 0, .preSkip "A" 0] } := by
    rw [h1]
    simp only [jointOrderWf, List.foldl_cons, List.foldl_nil]
    rw [show handleJoint ctxU none 1 1 [("A", (0 : ℚ))] "D" (wfs0, false)
        = (wfs0, false) from rfl,
      show handleJoint ctxU none 1 1 [("A", (0 : ℚ))] "C" (wfs0, false)
        = (wfs0, false) from rfl,
      show handleJoint ctxU none 1 1 [("A", (0 : ℚ))] "B" (wfs0, false)
        = (wfs0, false) from rfl,
      hA]
    rfl
  rw [hrun]
  exact ⟨rfl, rfl, rfl, rfl⟩

/-- C8 witness: the skip test and both dispatch outcomes at concrete
inputs — an unchanged middle-pose joint is skipped, and a first-pose joint
already within tolerance is dispatched but pre-skipped. -/
theorem workflow_unchanged_skip_semantics_witness :
    skipCond (some [("A", (50 : ℚ))]) 2 3 "A" 50 = true ∧
    handleJoint ctxU (some [("A", (50 : ℚ))]) 2 3 [("A", (50 : ℚ))] "A" (wfs0, false)
      = ({ wfs0 with evs := [.unchangedSkip "A" 2] }, false) ∧
    handleJoint ctxU none 1 1 [("A", (0 : ℚ))] "A" (wfs0, false)
      = ({ wfs0 with evs := [.dispatch "A" 0, .preSkip "A" 0] }, false) := by
  have h1 := workflow_unchanged_skip_semantics ctxU (some [("A", (50 : ℚ))]) 2 3
    [("A", (50 : ℚ))] "A" 50 wfs0 false
  have h2 := workflow_unchanged_skip_semantics ctxU none 1 1 [("A", (0 : ℚ))] "A" 0
    wfs0 false
  have hskip : skipCond (some [("A", (50 : ℚ))]) 2 3 "A" 50 = true :=
    h1.1.mpr ⟨[("A", (50 : ℚ))], rfl, by norm_num, by norm_num, rfl⟩
  refine ⟨hskip, ?_, ?_⟩
  · exact h1.2.1 rfl hskip
  · exact h2.2.2.1 rfl rfl rfl wfVerifyAt_zero

end LegoArm
